import Mathlib

/-!
Monte-Carlo tree search player of `agent.h`.

A shallow embedding of `class node` and `class player` (search mode and the
random fall-back) together with theorems about the search.

Modelling conventions.

* `board.h` and `action.h` are not part of the sources that are embedded, so
  the board type, the number of cells, and the effect of applying a placement
  are parameters, collected in `Game`.  `std::shuffle` with the player's
  engine is a parameter as well, as is the library function
  `n ↦ sqrt(2.0*log(n))`.
* `std::shared_ptr<node>` is an address into a store of nodes
  (`Nat → node Board`); `std::make_shared` returns the next unused address.
  Nodes that are no longer referenced simply stay in the store.
* `std::unordered_map<int, node_p>` is an association list, read with
  `List.lookup` and written with `assign`.
* `int` is `Int`: the embedding describes the runs in which no counter
  leaves the range of `int`.  A finite `float` or `double` is the rational
  number it stands for, and every conversion and arithmetic operation rounds
  to the nearest number of its format, ties to even (`to_float`,
  `to_double`); `-INFINITY` is `none`; `operator==` on boards is equality.
* Every `while` loop takes a fuel argument and returns `none` when the fuel
  runs out; an integer division by zero and the use of a null `node_p`
  return `none` as well.
-/

namespace TCG

/-! Definitions: the program. -/

/-- Stone colours of `board::piece_type` that the player uses. -/
inductive piece_type where
  | empty : piece_type
  | black : piece_type
  | white : piece_type
  deriving DecidableEq

/-- Values of `action`: the default `action()` and `action::place(position, who)`. -/
inductive action where
  | null : action
  | place (position : Nat) (who : piece_type) : action
  deriving DecidableEq

/-- What `agent.h` uses from `board.h`, `action.h` and the standard library.
`apply b i w` is `some after` when `action::place(i, w).apply(b)` is
`board::legal` (the board then becomes `after`) and `none` otherwise (the
board is then left as it was). -/
structure Game (Board Engine : Type) where
  /-- The default board `board()`. -/
  board0 : Board
  /-- The product `board::size_x * board::size_y`. -/
  cells : Nat
  /-- Applying a placement to a board. -/
  apply : Board → Nat → piece_type → Option Board
  /-- The call `std::shuffle(v.begin(), v.end(), engine)`. -/
  shuffle : Engine → List Nat → List Nat × Engine
  /-- The value `sqrt(2.0*log((float)n))`, a `double`. -/
  sqrt_2log : Int → ℚ

/-- Fields of `class node`; `child` maps a move to the address of a node. -/
structure node (Board : Type) where
  state : Board
  value : Int
  nb : Int
  child : List (Nat × Nat)

/-- Fields of `class player` (with the engine of `random_agent`), and the
store of nodes: `heap` with `next` the first unused address.  An entry `i` of
`space` stands for `action::place(i, who)`. -/
structure player (Board Engine : Type) where
  who : piece_type
  playername : String
  space : List Nat
  move_space : List Nat
  engine : Engine
  heap : Nat → node Board
  next : Nat
  root : Nat

variable {Board Engine : Type}

/-- The method `player::who_change`. -/
def who_change (who_now : piece_type) : piece_type :=
  if who_now = piece_type.black then piece_type.white
  else if who_now = piece_type.white then piece_type.black
  else who_now

/-- The statement `m[k] = v` on an unordered map. -/
def assign : List (Nat × Nat) → Nat → Nat → List (Nat × Nat)
  | [], k, v => [(k, v)]
  | kv :: rest, k, v => if kv.1 = k then (k, v) :: rest else kv :: assign rest k v

/-- The method `node::addNewChild`. -/
def addNewChild (n : node Board) (action : Nat) (theChild : Nat) : node Board :=
  { n with child := assign n.child action theChild }

/-- The method `node::updateValue`. -/
def updateValue (n : node Board) (value : Int) : node Board :=
  { n with value := n.value + value, nb := n.nb + 1 }

/-- The call `std::make_shared<node>(state, value, nb)`: the store with the
new node, the next unused address, and the address of the new node. -/
def make_shared (heap : Nat → node Board) (next : Nat) (state : Board) (value nb : Int) :
    (Nat → node Board) × Nat × Nat :=
  (Function.update heap next ⟨state, value, nb, []⟩, next + 1, next)

/-- The method `node::findNode`, called on the node at address `p`. -/
def findNode [DecidableEq Board] (heap : Nat → node Board) (next : Nat) (p : Nat)
    (state : Board) : (Nat → node Board) × Nat × Nat :=
  match (heap p).child.find? (fun kv => decide ((heap kv.2).state = state)) with
  | some kv => (heap, next, kv.2)
  | none => make_shared heap next state 0 1

/-- The state of a player after `player::player` has accepted its arguments:
`who` is the role, `search` the value of the `search` key when it is given. -/
def player_new (G : Game Board Engine) (who : piece_type) (search : Option String)
    (engine : Engine) : player Board Engine :=
  match search with
  | some s =>
    { who := who, playername := s, space := List.range G.cells,
      move_space := List.range G.cells, engine := engine,
      heap := (make_shared (fun _ => ⟨G.board0, 0, 0, []⟩) 0 G.board0 0 1).1,
      next := 1, root := 0 }
  | none =>
    { who := who, playername := "", space := List.range G.cells,
      move_space := List.range G.cells, engine := engine,
      heap := fun _ => ⟨G.board0, 0, 0, []⟩, next := 0, root := 0 }

/-- Whether `action::place(i, w).apply(b) == board::legal`. -/
def legal (G : Game Board Engine) (b : Board) (i : Nat) (w : piece_type) : Bool :=
  (G.apply b i w).isSome

/-- The iteration budget chosen from `empty_place` (the variable `maxN`). -/
def maxN (empty_place : Nat) : Nat :=
  if empty_place > 60 then 70000
  else if empty_place > 30 then 100000
  else if empty_place > 20 then 90000
  else if empty_place > 10 then 70000
  else if empty_place > 0 then 50000
  else 3000

/-- The inner `for` loop of the simulation: the board after the first legal
placement in the order of `sim_space`, if there is one. -/
def first_legal (G : Game Board Engine) (sim_state : Board) (sim_who : piece_type) :
    List Nat → Option Board
  | [] => none
  | sim_idx :: rest =>
    match G.apply sim_state sim_idx sim_who with
    | some after => some after
    | none => first_legal G sim_state sim_who rest

/-- The simulation loop `while (!loose)`: the final `sim_who` and engine. -/
def simulate (G : Game Board Engine) :
    Nat → piece_type → List Nat → Board → Engine → Option (piece_type × Engine)
  | 0, _, _, _, _ => none
  | fuel + 1, sim_who, sim_space, sim_state, engine =>
    match first_legal G sim_state sim_who (G.shuffle engine sim_space).1 with
    | some after =>
      simulate G fuel (who_change sim_who) (G.shuffle engine sim_space).1 after
        (G.shuffle engine sim_space).2
    | none => some (sim_who, (G.shuffle engine sim_space).2)

/-- The comparison `the_v > max_v`, where `none` is `-INFINITY`. -/
def gt_score (the_v : ℚ) : Option ℚ → Bool
  | none => true
  | some m => decide (m < the_v)

/-- The integer nearest to `x`, and of two integers equally near the even
one: the rounding of IEEE 754 arithmetic (to nearest, ties to even). -/
def round_even (x : ℚ) : Int :=
  if x - ⌊x⌋ < 1 / 2 then ⌊x⌋
  else if 1 / 2 < x - ⌊x⌋ then ⌊x⌋ + 1
  else if ⌊x⌋ % 2 = 0 then ⌊x⌋ else ⌊x⌋ + 1

/-- The number `x` rounded to the binary floating-point format with `p` bits
of significand and least exponent `emin`: with `2^e ≤ |x| < 2^(e+1)` the
result is the multiple of `2^(e - (p - 1))` nearest to `x`, and below
`2^emin` the multiple of `2^(emin - (p - 1))` (the subnormal numbers).  The
largest exponent of the format is left out: the numbers rounded in this
program are quotients and sums of `int`s and of a value of `sqrt`, far below
the largest `float`. -/
def round_binary (p : Nat) (emin : Int) (x : ℚ) : ℚ :=
  (round_even (x / 2 ^ (max (Int.log 2 |x|) emin - (p - 1))) : ℚ) *
    2 ^ (max (Int.log 2 |x|) emin - (p - 1))

/-- Rounding to `float` (IEEE 754 binary32). -/
def to_float (x : ℚ) : ℚ := round_binary 24 (-126) x

/-- Rounding to `double` (IEEE 754 binary64). -/
def to_double (x : ℚ) : ℚ := round_binary 53 (-1022) x

/-- The selection score `the_v` of line 191: the quotient of the two `int`
fields, an `int`, plus the exploration term, the `double` value of `sqrt`
divided in `double` by the `int` visit count; the sum is a `double` (an
`int` converts to `double` without rounding), stored in the `float`
variable. -/
def ucb_score (G : Game Board Engine) (c : node Board) (parent_nb : Int) : ℚ :=
  to_float (to_double (((Int.tdiv (-c.value) c.nb : Int) : ℚ) +
    to_double (G.sqrt_2log parent_nb / (c.nb : ℚ))))

/-- The expansion of lines 201 and 202, `nextNode = std::make_shared<node>(after,0,0)`
and `trajectory[t_idx]->addNewChild(move_idx, nextNode)`; `engine` is the
engine after the simulation that follows. -/
def expand (st : player Board Engine) (cur move_idx : Nat) (after : Board)
    (engine : Engine) : player Board Engine :=
  { st with
    heap := Function.update (make_shared st.heap st.next after 0 0).1 cur
      (addNewChild ((make_shared st.heap st.next after 0 0).1 cur) move_idx st.next),
    next := st.next + 1,
    engine := engine }

/-- The `for` loop over `move_space` inside the descent, at the node with
address `cur`; `childs` is the copy of its child map.  The result is
`max_v`, `nextNode` and the player after the loop; the expansion branch ends
the loop (`break`).  The result is `none` when the integer quotient of line
191 divides by zero, or when the simulation runs out of fuel. -/
def scan_moves (G : Game Board Engine) (fuel : Nat) (who_now : piece_type) (cur : Nat)
    (childs : List (Nat × Nat)) :
    List Nat → Option ℚ → Option Nat → player Board Engine →
      Option (Option ℚ × Option Nat × player Board Engine)
  | [], max_v, nextNode, st => some (max_v, nextNode, st)
  | move_idx :: rest, max_v, nextNode, st =>
    match childs.lookup move_idx with
    | some c =>
      if (st.heap c).nb = 0 then none
      else if gt_score (ucb_score G (st.heap c) (st.heap cur).nb) max_v then
        scan_moves G fuel who_now cur childs rest
          (some (ucb_score G (st.heap c) (st.heap cur).nb)) (some c) st
      else scan_moves G fuel who_now cur childs rest max_v nextNode st
    | none =>
      match G.apply (st.heap cur).state move_idx who_now with
      | some after =>
        match simulate G fuel (who_change who_now) st.move_space after st.engine with
        | none => none
        | some (sim_who, engine) =>
          some (some (if sim_who ≠ st.who then 1 else 0), some st.next,
            expand st cur move_idx after engine)
      | none => scan_moves G fuel who_now cur childs rest max_v nextNode st

/-- The statement `std::shuffle(move_space.begin(), move_space.end(), engine)`. -/
def shuffle_move_space (G : Game Board Engine) (st : player Board Engine) :
    player Board Engine :=
  { st with
    move_space := (G.shuffle st.engine st.move_space).1,
    engine := (G.shuffle st.engine st.move_space).2 }

/-- The descent loop `while (trajectory[t_idx]->nb != 0)`.  The trajectory is
kept newest first, so `trajectory[t_idx]` is its head.  The result is the
trajectory, `t_idx`, `max_v` and the player when the loop is left.  The first
argument after `fuel` bounds the number of passes of this loop, `fuel` itself
is handed to the simulation.  The result is `none` when the bound is used up,
when the inner loop fails, or when a null `nextNode` would be pushed and
read (`max_v` finite without a next node); the trajectory always holds the
root, so it is never empty. -/
def descend (G : Game Board Engine) (fuel : Nat) :
    Nat → List Nat → Nat → piece_type → ℚ → player Board Engine →
      Option (List Nat × Nat × ℚ × player Board Engine)
  | 0, _, _, _, _, _ => none
  | _ + 1, [], _, _, _, _ => none
  | n + 1, cur :: trajectory, t_idx, who_now, max_v, st =>
    if (st.heap cur).nb ≠ 0 then
      match scan_moves G fuel who_now cur (st.heap cur).child
          (shuffle_move_space G st).move_space none none (shuffle_move_space G st) with
      | none => none
      | some (none, _, st1) =>
        some (cur :: trajectory, t_idx, if who_now ≠ st.who then 1 else 0, st1)
      | some (some _, none, _) => none
      | some (some v, some nextNode, st1) =>
        descend G fuel n (nextNode :: cur :: trajectory) (t_idx + 1) (who_change who_now) v st1
    else some (cur :: trajectory, t_idx, max_v, st)

/-- The conversion of a `float` to the `int` argument of `updateValue`. -/
def to_int (x : ℚ) : Int := Int.tdiv x.num x.den

/-- The loop `for (t_idx = t_idx; t_idx >= 0; t_idx--)` over the trajectory
(newest first). -/
def backprop (heap : Nat → node Board) : List Nat → ℚ → (Nat → node Board)
  | [], _ => heap
  | p :: rest, max_v =>
    backprop (Function.update heap p (updateValue (heap p) (to_int max_v))) rest (-max_v)

/-- One pass of the loop `for (int N = 0; N < maxN; N++)`. -/
def playOneSequence (G : Game Board Engine) (fuel : Nat) (st : player Board Engine) :
    Option (player Board Engine) :=
  match descend G fuel fuel [st.root] 0 st.who (-1) st with
  | none => none
  | some (trajectory, t_idx, max_v, st1) =>
    some { st1 with
      heap := backprop st1.heap trajectory (if t_idx % 2 = 1 then max_v * -1 else max_v) }

/-- The loop `for (int N = 0; N < maxN; N++)`. -/
def iterate_N (G : Game Board Engine) (fuel : Nat) :
    Nat → player Board Engine → Option (player Board Engine)
  | 0, st => some st
  | N + 1, st =>
    match playOneSequence G fuel st with
    | none => none
    | some st1 => iterate_N G fuel N st1

/-- The statement `root = root->findNode(state)`. -/
def root_lookup [DecidableEq Board] (st : player Board Engine) (state : Board) :
    player Board Engine :=
  { st with
    heap := (findNode st.heap st.next st.root state).1,
    next := (findNode st.heap st.next st.root state).2.1,
    root := (findNode st.heap st.next st.root state).2.2 }

/-- The variable `empty_place` after the counting loop. -/
def empty_place (G : Game Board Engine) (st : player Board Engine) (state : Board) : Nat :=
  (st.move_space.filter (fun move_idx => legal G state move_idx st.who)).length

/-- The search of `take_action`, up to the end of the iteration loop. -/
def search [DecidableEq Board] (G : Game Board Engine) (fuel : Nat)
    (st : player Board Engine) (state : Board) : Option (player Board Engine) :=
  iterate_N G fuel (maxN (empty_place G st state)) (root_lookup st state)

/-- The average `the_v` of line 264, `-(float)value/nb`: the value is
converted to `float` and negated, the visit count is converted to `float`
for the division, and the quotient is a `float`. -/
def avg_score (c : node Board) : ℚ :=
  to_float (-(to_float (c.value : ℚ)) / to_float (c.nb : ℚ))

/-- The loop over the children of the root after the search
(`max_v`, `max_idx`): `kv` is the entry `*iter`, and `childs[move_idx]` is
read with `lookup`, which finds an entry since `kv.1` is a key of `childs`. -/
def get_action (heap : Nat → node Board) (childs : List (Nat × Nat)) :
    List (Nat × Nat) → Option ℚ × Nat → Option ℚ × Nat
  | [], acc => acc
  | kv :: rest, acc =>
    match childs.lookup kv.1 with
    | none => get_action heap childs rest acc
    | some c =>
      if gt_score (avg_score (heap c)) acc.1 then
        get_action heap childs rest (some (avg_score (heap c)), kv.1)
      else get_action heap childs rest acc

/-- The variable `max_idx` after the loop over the children of the root. -/
def max_idx (st : player Board Engine) : Nat :=
  (get_action st.heap (st.heap st.root).child (st.heap st.root).child (none, 0)).2

/-- The end of the search branch: the root moves to `root->child[max_idx]`
when that child exists, and `action::place(max_idx, who)` is returned. -/
def root_advance (st : player Board Engine) : action × player Board Engine :=
  (action.place (max_idx st) st.who,
    { st with
      root := match (st.heap st.root).child.lookup (max_idx st) with
        | some c => c
        | none => st.root })

/-- The method `player::take_action`. -/
def take_action [DecidableEq Board] (G : Game Board Engine) (fuel : Nat)
    (st : player Board Engine) (state : Board) : Option (action × player Board Engine) :=
  if st.playername = "MCTS" then
    match search G fuel st state with
    | none => none
    | some st1 => some (root_advance st1)
  else
    match (G.shuffle st.engine st.space).1.find? (fun i => legal G state i st.who) with
    | some i =>
      some (action.place i st.who,
        { st with space := (G.shuffle st.engine st.space).1,
                  engine := (G.shuffle st.engine st.space).2 })
    | none =>
      some (action.null,
        { st with space := (G.shuffle st.engine st.space).1,
                  engine := (G.shuffle st.engine st.space).2 })

/-! Definitions: properties of stores and games used in the statements. -/

/-- Every legal placement makes the measure `μ` of the board smaller (on a
real board: the number of empty cells). -/
def Game.measured (G : Game Board Engine) (μ : Board → Nat) : Prop :=
  ∀ b i w after, G.apply b i w = some after → μ after < μ b

/-- The call `std::shuffle` rearranges its argument. -/
def Game.shuffles (G : Game Board Engine) : Prop :=
  ∀ e l, (G.shuffle e l).1.Perm l

/-- The store is a forest of game positions: `col p` is the side to move at
node `p`; every child entry `(m, c)` of `p` is a legal placement on cell `m`
by that side which yields the position of `c`, children were made after their
parents, and the other side moves at `c`. -/
def tree_ok (G : Game Board Engine) (st : player Board Engine) (col : Nat → piece_type) : Prop :=
  (st.who = piece_type.black ∨ st.who = piece_type.white) ∧
  st.root < st.next ∧
  st.move_space.Perm (List.range G.cells) ∧
  ∀ p m c, p < st.next → (m, c) ∈ (st.heap p).child →
    p < c ∧ c < st.next ∧ m < G.cells ∧
    G.apply (st.heap p).state m (col p) = some (st.heap c).state ∧
    col c = who_change (col p)

/-- Every node of the store has been visited. -/
def visited (st : player Board Engine) : Prop :=
  ∀ p, p < st.next → 1 ≤ (st.heap p).nb

/-- The condition on the player while a search runs, between two passes of
the iteration loop: the player's side moves at the root. -/
def inv_search (G : Game Board Engine) (st : player Board Engine) : Prop :=
  ∃ col, tree_ok G st col ∧ visited st ∧ col st.root = st.who

/-- The condition on the player between two calls of `take_action`: the
persisted root is a position with the other side to move, or has no child. -/
def inv (G : Game Board Engine) (st : player Board Engine) : Prop :=
  ∃ col, tree_ok G st col ∧ visited st ∧
    (col st.root = who_change st.who ∨ (st.heap st.root).child = [])

/-- What holds when the descent loop, entered at node `cur` with the rest of
the trajectory `trajectory`, is left with result `r`. -/
structure descent_post (G : Game Board Engine) (st : player Board Engine)
    (col : Nat → piece_type) (cur : Nat) (trajectory : List Nat) (t_idx : Nat)
    (who_now : piece_type) (r : List Nat × Nat × ℚ × player Board Engine) : Prop where
  who_eq : r.2.2.2.who = st.who
  root_eq : r.2.2.2.root = st.root
  playername_eq : r.2.2.2.playername = st.playername
  space_eq : r.2.2.2.space = st.space
  next_le : st.next ≤ r.2.2.2.next
  old_nodes : ∀ p, p < st.next →
    (r.2.2.2.heap p).state = (st.heap p).state ∧ (r.2.2.2.heap p).value = (st.heap p).value ∧
    (r.2.2.2.heap p).nb = (st.heap p).nb ∧ ∀ kv ∈ (st.heap p).child, kv ∈ (r.2.2.2.heap p).child
  new_nodes : ∀ p, st.next ≤ p → p < r.2.2.2.next → (r.2.2.2.heap p).nb = 0 ∧ p ∈ r.1
  shape : ∃ col1, tree_ok G r.2.2.2 col1 ∧ ∀ p, p < st.next → col1 p = col p
  extends_trajectory : ∃ ext, r.1 = ext ++ cur :: trajectory ∧ r.2.1 = t_idx + ext.length
  decreasing : r.1.Pairwise (fun a b => b < a)
  allocated : ∀ q ∈ r.1, q < r.2.2.2.next
  outcome : r.2.2.1 = 0 ∨ r.2.2.1 = 1
  stopped : (r.1 = cur :: trajectory ∧
      ∀ m, m < G.cells → G.apply (st.heap cur).state m who_now = none) ∨
    (r.2.2.2.heap cur).child ≠ []

/-- What `N` passes of the iteration loop, from `st` to `st1`, keep and
change. -/
structure iteration_post (G : Game Board Engine) (N : Nat) (st st1 : player Board Engine) :
    Prop where
  inv_kept : inv_search G st1
  who_eq : st1.who = st.who
  root_eq : st1.root = st.root
  playername_eq : st1.playername = st.playername
  space_eq : st1.space = st.space
  next_le : st.next ≤ st1.next
  root_nb : (st1.heap st1.root).nb = (st.heap st.root).nb + N
  old_nodes : ∀ p, p < st.next →
    (st1.heap p).state = (st.heap p).state ∧ ∀ kv ∈ (st.heap p).child, kv ∈ (st1.heap p).child
  root_child : 0 < N →
    (∃ m, m < G.cells ∧ legal G (st.heap st.root).state m st.who = true) →
    (st1.heap st1.root).child ≠ []

/-- What `N` passes of the iteration loop keep and change when the root has
no child and its position has no legal placement for the player. -/
structure idle_post (N : Nat) (st st1 : player Board Engine) : Prop where
  who_eq : st1.who = st.who
  root_eq : st1.root = st.root
  playername_eq : st1.playername = st.playername
  next_eq : st1.next = st.next
  others : ∀ p, p ≠ st.root → st1.heap p = st.heap p
  root_state : (st1.heap st.root).state = (st.heap st.root).state
  root_value : (st1.heap st.root).value = (st.heap st.root).value
  root_child : (st1.heap st.root).child = []
  root_nb : (st1.heap st.root).nb = (st.heap st.root).nb + N

/-! Definitions: a small game on which the theorems are instantiated. -/

/-- A board of the small game is the list of its cells; a stone may be put
on any empty cell. -/
def demo_apply (b : List piece_type) (i : Nat) (w : piece_type) : Option (List piece_type) :=
  if w ≠ piece_type.empty ∧ b.get? i = some piece_type.empty then some (b.set i w) else none

/-- The small game: four cells, the engine counts the shuffles and a shuffle
rotates the list. -/
def demo : Game (List piece_type) Nat :=
  { board0 := List.replicate 4 piece_type.empty,
    cells := 4,
    apply := demo_apply,
    shuffle := fun e l => (l.rotate e, e + 1),
    sqrt_2log := fun n => if n ≤ 1 then 0 else 1 }

/-- The number of empty cells of a board of the small game. -/
def demo_measure (b : List piece_type) : Nat := b.count piece_type.empty

/-- A board of the small game without an empty cell. -/
def demo_full : List piece_type :=
  [piece_type.black, piece_type.white, piece_type.white, piece_type.black]

/-- A new search player for black in the small game. -/
def demo_player : player (List piece_type) Nat :=
  player_new demo piece_type.black (some "MCTS") 0

/-! Definitions: the constructors of `agent`, `random_agent` and `player`.
A `std::string` is a list of characters. -/

/-- White space as `operator>>` on a stream sees it (`std::isspace`). -/
def isspace (c : Char) : Bool :=
  c = ' ' || c = '\t' || c = '\n' || c = '\x0b' || c = '\x0c' || c = '\r'

/-- The words that `ss >> pair` reads from the rest of a stream; `cur` holds
the characters of the word being read, newest first. -/
def read_pairs : List Char → List Char → List (List Char)
  | [], cur => if cur = [] then [] else [cur.reverse]
  | c :: rest, cur =>
    if isspace c then
      if cur = [] then read_pairs rest [] else cur.reverse :: read_pairs rest []
    else read_pairs rest (c :: cur)

/-- The expression `pair.substr(0, pair.find('='))`. -/
def key_of (pair : List Char) : List Char := pair.takeWhile (fun c => c ≠ '=')

/-- The expression `pair.substr(pair.find('=') + 1)`; when there is no `=`
the sum `npos + 1` is 0 and the whole word is the value. -/
def value_of (pair : List Char) : List Char :=
  if '=' ∈ pair then (pair.dropWhile (fun c => c ≠ '=')).drop 1 else pair

/-- The statement `meta[key] = { value }` on the `std::map`. -/
def meta_set (m : List (List Char × List Char)) (key value : List Char) :
    List (List Char × List Char) :=
  (key, value) :: m.filter (fun kv => kv.1 ≠ key)

/-- The loop of `agent::agent` over the words of a string. -/
def read_meta (pairs : List (List Char)) : List (List Char × List Char) :=
  pairs.foldl (fun m pair => meta_set m (key_of pair) (value_of pair)) []

/-- The map `meta` that `agent::agent(args)` builds. -/
def agent_meta (args : List Char) : List (List Char × List Char) :=
  read_meta (read_pairs ("name=unknown role=unknown ".toList ++ args) [])

/-- The test `name().find_first_of("[]():; ") != std::string::npos`. -/
def bad_name (name : List Char) : Bool :=
  name.any (fun c => c ∈ "[]():; ".toList)

/-- The exceptions that leave the constructor of `player`: the two
`std::invalid_argument` of `player::player`, and the exception of `std::stod`
in the conversion `int(meta["seed"])` of `random_agent`. -/
inductive ctor_error where
  | invalid_name (name : List Char) : ctor_error
  | invalid_role (role : List Char) : ctor_error
  | seed_conversion : ctor_error
  deriving DecidableEq

/-- The engine after `random_agent::random_agent`: `stod value` is
`int(std::stod(value))`, `none` when `std::stod` throws; `seed e n` is the
engine after `e.seed(n)`; `engine0` is the default engine. -/
def seeded_engine (stod : List Char → Option Int) (seed : Engine → Int → Engine)
    (engine0 : Engine) (m : List (List Char × List Char)) : Option Engine :=
  match m.lookup "seed".toList with
  | some value =>
    match stod value with
    | some n => some (seed engine0 n)
    | none => none
  | none => some engine0

/-- The variable `who` of `player::player` after the two tests of `role()`. -/
def role_who (role : List Char) : piece_type :=
  if role = "white".toList then piece_type.white
  else if role = "black".toList then piece_type.black
  else piece_type.empty

/-- The map `meta` of a player made with `player::player(args)`, which hands
`"name=random role=unknown " + args` to `agent::agent`. -/
def player_meta (args : List Char) : List (List Char × List Char) :=
  agent_meta ("name=random role=unknown ".toList ++ args)

/-- The value of `name()`, that is `meta.at("name")`, in `player::player(args)`. -/
def effective_name (args : List Char) : List Char :=
  ((player_meta args).lookup "name".toList).getD []

/-- The value of `role()`, that is `meta.at("role")`, in `player::player(args)`. -/
def effective_role (args : List Char) : List Char :=
  ((player_meta args).lookup "role".toList).getD []

/-- The constructor `player::player(args)`: the player, or the exception
that leaves the constructor. -/
def player_ctor (G : Game Board Engine) (stod : List Char → Option Int)
    (seed : Engine → Int → Engine) (engine0 : Engine) (args : List Char) :
    Except ctor_error (player Board Engine) :=
  match seeded_engine stod seed engine0 (player_meta args) with
  | none => Except.error ctor_error.seed_conversion
  | some engine =>
    if bad_name (effective_name args) = true then
      Except.error (ctor_error.invalid_name (effective_name args))
    else if role_who (effective_role args) = piece_type.empty then
      Except.error (ctor_error.invalid_role (effective_role args))
    else
      Except.ok (player_new G (role_who (effective_role args))
        (((player_meta args).lookup "search".toList).map String.mk) engine)

/-- The exception, if any, in the result of a constructor. -/
def ctor_failure (r : Except ctor_error (player Board Engine)) : Option ctor_error :=
  match r with
  | Except.error e => some e
  | Except.ok _ => none

/-- A conversion for the small game: decimal digits only. -/
def demo_stod (value : List Char) : Option Int :=
  if value ≠ [] ∧ value.all Char.isDigit = true then
    some (value.foldl (fun n c => 10 * n + ((c.toNat - '0'.toNat : Nat) : Int)) 0)
  else none

/-- The constructor of the small game; seeding sets the counter. -/
def demo_ctor (args : String) : Except ctor_error (player (List piece_type) Nat) :=
  player_ctor demo demo_stod (fun _ n => n.toNat) 0 args.toList

/-! Definitions: further properties of stores used in the statements. -/

/-- The side to move at depth `d` below the root of a search for `who`. -/
def mover (who : piece_type) (d : Nat) : piece_type :=
  if d % 2 = 0 then who else who_change who

/-- The position and the side to move after the placements on the cells
`moves`, made in turn on `s` starting with side `w`; `none` when one of them
is not legal. -/
def play_out (G : Game Board Engine) : Board → piece_type → List Nat → Option (Board × piece_type)
  | s, w, [] => some (s, w)
  | s, w, m :: rest =>
    match G.apply s m w with
    | some after => play_out G after (who_change w) rest
    | none => none

/-- The node `n` lies `d` edges below the root of the player. -/
inductive at_depth (st : player Board Engine) : Nat → Nat → Prop where
  | root : at_depth st 0 st.root
  | child {d p m c : Nat} : at_depth st d p → (m, c) ∈ (st.heap p).child →
      at_depth st (d + 1) c

/-- No child map holds two entries with the same move. -/
def keys_ok (st : player Board Engine) : Prop :=
  ∀ p, ((st.heap p).child.map Prod.fst).Nodup

/-- The value of a node where the player's side moves lies between 0 and its
visit count; where the other side moves it lies between minus the visit
count and 0. -/
def value_ok (st : player Board Engine) (col : Nat → piece_type) : Prop :=
  ∀ p, p < st.next →
    (col p = st.who → 0 ≤ (st.heap p).value ∧ (st.heap p).value ≤ (st.heap p).nb) ∧
    (col p = who_change st.who →
      -(st.heap p).nb ≤ (st.heap p).value ∧ (st.heap p).value ≤ 0)

/-- The condition `inv_search` together with unique moves and bounded
values. -/
def inv_search_full (G : Game Board Engine) (st : player Board Engine) : Prop :=
  ∃ col, tree_ok G st col ∧ visited st ∧ col st.root = st.who ∧ keys_ok st ∧ value_ok st col

/-- The condition `inv` together with unique moves and bounded values. -/
def inv_full (G : Game Board Engine) (st : player Board Engine) : Prop :=
  ∃ col, tree_ok G st col ∧ visited st ∧
    (col st.root = who_change st.who ∨ (st.heap st.root).child = []) ∧
    keys_ok st ∧ value_ok st col

/-- How the descent loop, entered at `cur`, was left with result `r`: at a
node without legal placement for its mover (the store is unchanged), or
after the expansion of a move `m` at a node `x`, with a simulation that found
`stuck` without a placement. -/
structure descent_detail (G : Game Board Engine) (fuel : Nat) (st : player Board Engine)
    (col : Nat → piece_type) (cur : Nat) (trajectory : List Nat) (t_idx : Nat)
    (r : List Nat × Nat × ℚ × player Board Engine) : Prop where
  who_eq : r.2.2.2.who = st.who
  root_eq : r.2.2.2.root = st.root
  path : List.Chain' (fun c p => ∃ m, (m, c) ∈ (r.2.2.2.heap p).child) r.1
  extends_trajectory : ∃ ext, r.1 = ext ++ cur :: trajectory ∧ r.2.1 = t_idx + ext.length
  shape : ∃ col1, tree_ok G r.2.2.2 col1 ∧ (∀ p, p < st.next → col1 p = col p) ∧
    ∀ j p, r.1[j]? = some p → j ≤ r.2.1 → col1 p = mover st.who (r.2.1 - j)
  kind :
    (∃ x rest, r.1 = x :: rest ∧ x < st.next ∧
      r.2.2.2.heap = st.heap ∧ r.2.2.2.next = st.next ∧
      (∀ m, m < G.cells → G.apply (st.heap x).state m (mover st.who r.2.1) = none) ∧
      r.2.2.1 = (if mover st.who r.2.1 ≠ st.who then 1 else 0)) ∨
    (∃ x rest m after e stuck stx, r.1 = st.next :: x :: rest ∧ x < st.next ∧
      stx.heap = st.heap ∧ stx.next = st.next ∧ stx.who = st.who ∧
      stx.move_space.Perm (List.range G.cells) ∧
      (st.heap x).child.lookup m = none ∧ m < G.cells ∧
      G.apply (st.heap x).state m (col x) = some after ∧
      who_change (col x) = mover st.who r.2.1 ∧
      simulate G fuel (mover st.who r.2.1) stx.move_space after stx.engine =
        some (stuck, e) ∧
      r.2.2.1 = (if stuck ≠ st.who then 1 else 0) ∧
      r.2.2.2 = expand stx x m after e)

/-- The end of one pass of the iteration loop, after the descent with result
`r`: the change of sign for an odd `t_idx` and the loop of `updateValue`. -/
def finish (r : List Nat × Nat × ℚ × player Board Engine) : player Board Engine :=
  { r.2.2.2 with
    heap := backprop r.2.2.2.heap r.1 (if r.2.1 % 2 = 1 then r.2.2.1 * -1 else r.2.2.1) }

/-- One pass of the iteration loop from `st`: its descent returns `r`, the
pass ends in `finish r`, and the conditions on the store hold before (with
sides `col`) and after (with sides `col1`). -/
structure iteration_detail (G : Game Board Engine) (fuel : Nat) (st : player Board Engine)
    (col : Nat → piece_type) (r : List Nat × Nat × ℚ × player Board Engine)
    (col1 : Nat → piece_type) : Prop where
  descended : descend G fuel fuel [st.root] 0 st.who (-1) st = some r
  played : playOneSequence G fuel st = some (finish r)
  post : descent_post G st col st.root [] 0 st.who r
  detail : descent_detail G fuel st col st.root [] 0 r
  nodup : r.1.Nodup
  length_eq : r.1.length = r.2.1 + 1
  ok_before : tree_ok G st col ∧ visited st ∧ col st.root = st.who ∧ keys_ok st ∧
    value_ok st col
  ok_after : tree_ok G (finish r) col1 ∧ visited (finish r) ∧
    col1 (finish r).root = (finish r).who ∧ keys_ok (finish r) ∧ value_ok (finish r) col1
  agree : ∀ p, p < st.next → col1 p = col p
  depth_col : ∀ j p, r.1[j]? = some p → j ≤ r.2.1 → col1 p = mover st.who (r.2.1 - j)

/-- The new search player of the small game after `root = root->findNode(state)`
on the empty board. -/
def demo_start : player (List piece_type) Nat :=
  root_lookup demo_player demo.board0

/-- A sequence of calls of `take_action` on the same player, one for each
board of `states` in turn; the result is the player after the last call. -/
def take_actions [DecidableEq Board] (G : Game Board Engine) (fuel : Nat) :
    player Board Engine → List Board → Option (player Board Engine)
  | st, [] => some st
  | st, state :: rest =>
    match take_action G fuel st state with
    | none => none
    | some r => take_actions G fuel r.2 rest

/-- A search tree of the small game for black.  The root, at address 0, holds
the board with black on cell 0, white on cell 1 and black to move; its
children, at the addresses 1 and 2, are the placements of black on the cells
2 and 3, with the values `v1`, `v2` and the visit counts `n1`, `n2`. -/
def demo_tree (v1 n1 v2 n2 : Int) : player (List piece_type) Nat :=
  { who := piece_type.black, playername := "MCTS", space := List.range 4,
    move_space := List.range 4, engine := 0,
    heap := fun p =>
      if p = 0 then
        ⟨[piece_type.black, piece_type.white, piece_type.empty, piece_type.empty],
          -(v1 + v2), 1 + n1 + n2, [(2, 1), (3, 2)]⟩
      else if p = 1 then
        ⟨[piece_type.black, piece_type.white, piece_type.black, piece_type.empty], v1, n1, []⟩
      else
        ⟨[piece_type.black, piece_type.white, piece_type.empty, piece_type.black], v2, n2, []⟩,
    next := 3, root := 0 }

/-- The side to move at the nodes of `demo_tree`. -/
def demo_col (p : Nat) : piece_type :=
  if p = 0 then piece_type.black else piece_type.white

/-- The tree whose two children have scores that differ as rational numbers
and agree as `float`s. -/
def demo_tie : player (List piece_type) Nat := demo_tree (-9000) 9000 (-9001) 9001

theorem round_even_eq (x : ℚ) (m : Int) (h1 : (m : ℚ) - 1 / 2 < x) (h2 : x < m + 1 / 2) :
    round_even x = m := by
  unfold round_even
  by_cases hm : (m : ℚ) ≤ x
  · have hf : ⌊x⌋ = m := Int.floor_eq_iff.2 ⟨hm, by linarith⟩
    rw [hf, if_pos (by linarith)]
  · have hf : ⌊x⌋ = m - 1 := Int.floor_eq_iff.2 ⟨by push_cast; linarith, by push_cast; linarith⟩
    rw [hf, if_neg (by push_cast; linarith), if_pos (by push_cast; linarith)]
    ring

theorem round_even_intCast (m : Int) : round_even (m : ℚ) = m :=
  round_even_eq _ m (by linarith) (by linarith)

theorem round_binary_zero (p : Nat) (emin : Int) : round_binary p emin 0 = 0 := by
  unfold round_binary
  rw [zero_div]
  have := round_even_intCast 0
  simp only [Int.cast_zero] at this
  rw [this]
  simp

theorem to_float_zero : to_float 0 = 0 := round_binary_zero 24 (-126)

theorem to_double_zero : to_double 0 = 0 := round_binary_zero 53 (-1022)

theorem int_log_eq {x : ℚ} {e : Int} (h1 : (2 : ℚ) ^ e ≤ x) (h2 : x < (2 : ℚ) ^ (e + 1)) :
    Int.log 2 x = e := by
  have h0 : 0 < x := lt_of_lt_of_le (by positivity) h1
  have a1 : e ≤ Int.log 2 x := (Int.zpow_le_iff_le_log (by norm_num) h0).1 (by exact_mod_cast h1)
  have a2 : Int.log 2 x < e + 1 := (Int.lt_zpow_iff_log_lt (by norm_num) h0).1 (by exact_mod_cast h2)
  omega

theorem round_binary_eq (p : Nat) (emin : Int) (x : ℚ) (e m : Int)
    (h1 : (2 : ℚ) ^ e ≤ |x|) (h2 : |x| < (2 : ℚ) ^ (e + 1))
    (h3 : (m : ℚ) - 1 / 2 < x / 2 ^ (max e emin - (p - 1)))
    (h4 : x / 2 ^ (max e emin - (p - 1)) < m + 1 / 2) :
    round_binary p emin x = m * 2 ^ (max e emin - (p - 1)) := by
  unfold round_binary
  rw [int_log_eq h1 h2, round_even_eq _ m h3 h4]

theorem who_change_who_change (w : piece_type) : who_change (who_change w) = w := by
  cases w <;> rfl

theorem lookup_mem {l : List (Nat × Nat)} {k v : Nat} (h : l.lookup k = some v) :
    (k, v) ∈ l := by
  induction l with
  | nil => simp at h
  | cons kv rest ih =>
    obtain ⟨a, b⟩ := kv
    rw [List.lookup_cons] at h
    by_cases hk : k = a
    · subst hk
      simp at h
      subst h
      exact List.mem_cons_self _ _
    · have : (k == a) = false := by simpa using hk
      rw [this] at h
      exact List.mem_cons_of_mem _ (ih h)

theorem lookup_none_not_mem {l : List (Nat × Nat)} {k : Nat} (h : l.lookup k = none) (v : Nat) :
    (k, v) ∉ l := by
  induction l with
  | nil => simp
  | cons kv rest ih =>
    obtain ⟨a, b⟩ := kv
    rw [List.lookup_cons] at h
    by_cases hk : k = a
    · subst hk
      simp at h
    · have : (k == a) = false := by simpa using hk
      rw [this] at h
      intro hm
      rcases List.mem_cons.1 hm with h1 | h1
      · exact hk (by simpa using (congrArg Prod.fst h1))
      · exact ih h h1

theorem mem_lookup_isSome {l : List (Nat × Nat)} {k v : Nat} (h : (k, v) ∈ l) :
    ∃ c, l.lookup k = some c := by
  cases hl : l.lookup k with
  | none => exact absurd h (lookup_none_not_mem hl v)
  | some c => exact ⟨c, rfl⟩

theorem mem_assign {l : List (Nat × Nat)} {k v : Nat} {x : Nat × Nat}
    (h : x ∈ assign l k v) : x = (k, v) ∨ x ∈ l := by
  induction l with
  | nil => simpa [assign] using h
  | cons kv rest ih =>
    unfold assign at h
    split at h
    · rcases List.mem_cons.1 h with h1 | h1
      · exact Or.inl h1
      · exact Or.inr (List.mem_cons_of_mem _ h1)
    · rcases List.mem_cons.1 h with h1 | h1
      · exact Or.inr (h1 ▸ List.mem_cons_self _ _)
      · rcases ih h1 with h2 | h2
        · exact Or.inl h2
        · exact Or.inr (List.mem_cons_of_mem _ h2)

theorem mem_assign_self (l : List (Nat × Nat)) (k v : Nat) : (k, v) ∈ assign l k v := by
  induction l with
  | nil => simp [assign]
  | cons kv rest ih =>
    unfold assign
    split
    · exact List.mem_cons_self _ _
    · exact List.mem_cons_of_mem _ ih

theorem mem_assign_of_mem {l : List (Nat × Nat)} {k v : Nat} {x : Nat × Nat}
    (h : x ∈ l) (hx : x.1 ≠ k) : x ∈ assign l k v := by
  induction l with
  | nil => simp at h
  | cons kv rest ih =>
    unfold assign
    rcases List.mem_cons.1 h with h1 | h1
    · subst h1
      rw [if_neg hx]
      exact List.mem_cons_self _ _
    · split
      · exact List.mem_cons_of_mem _ h1
      · exact List.mem_cons_of_mem _ (ih h1)

theorem first_legal_some {G : Game Board Engine} {s : Board} {w : piece_type} {l : List Nat}
    {after : Board} (h : first_legal G s w l = some after) :
    ∃ i, i ∈ l ∧ G.apply s i w = some after := by
  induction l with
  | nil => simp [first_legal] at h
  | cons i rest ih =>
    unfold first_legal at h
    cases ha : G.apply s i w with
    | some b =>
      rw [ha] at h
      simp only [Option.some.injEq] at h
      exact ⟨i, List.mem_cons_self _ _, by rw [ha, h]⟩
    | none =>
      rw [ha] at h
      obtain ⟨j, hj, hj2⟩ := ih h
      exact ⟨j, List.mem_cons_of_mem _ hj, hj2⟩

theorem simulate_total {G : Game Board Engine} {μ : Board → Nat} (hμ : G.measured μ) :
    ∀ (fuel : Nat) (w : piece_type) (sp : List Nat) (s : Board) (e : Engine),
      μ s < fuel → ∃ r, simulate G fuel w sp s e = some r := by
  intro fuel
  induction fuel with
  | zero => intro w sp s e h; exact absurd h (Nat.not_lt_zero _)
  | succ n ih =>
    intro w sp s e h
    unfold simulate
    cases hf : first_legal G s w (G.shuffle e sp).1 with
    | none => exact ⟨_, rfl⟩
    | some after =>
      obtain ⟨i, _, hi⟩ := first_legal_some hf
      have := hμ _ _ _ _ hi
      exact ih _ _ _ _ (by omega)

theorem expand_heap_cur (st : player Board Engine) (cur m : Nat) (after : Board) (e : Engine)
    (h : cur ≠ st.next) :
    (expand st cur m after e).heap cur =
      { st.heap cur with child := assign (st.heap cur).child m st.next } := by
  simp [expand, make_shared, addNewChild, Function.update_noteq h]

theorem expand_heap_next (st : player Board Engine) (cur m : Nat) (after : Board) (e : Engine)
    (h : cur ≠ st.next) :
    (expand st cur m after e).heap st.next = ⟨after, 0, 0, []⟩ := by
  simp [expand, make_shared, Function.update_noteq (Ne.symm h)]

theorem expand_heap_other (st : player Board Engine) (cur m : Nat) (after : Board) (e : Engine)
    (p : Nat) (h1 : p ≠ cur) (h2 : p ≠ st.next) :
    (expand st cur m after e).heap p = st.heap p := by
  simp [expand, make_shared, Function.update_noteq h1, Function.update_noteq h2]

theorem scan_moves_spec {G : Game Board Engine} {μ : Board → Nat} (hμ : G.measured μ)
    (fuel : Nat) (who_now : piece_type) (cur : Nat) (childs : List (Nat × Nat))
    (st : player Board Engine)
    (hfuel : μ (st.heap cur).state ≤ fuel)
    (hnb : ∀ m c, childs.lookup m = some c → (st.heap c).nb ≠ 0) :
    ∀ (moves : List Nat) (max_v : Option ℚ) (nextNode : Option Nat),
      (max_v ≠ none → ∃ m c, nextNode = some c ∧ childs.lookup m = some c) →
      ∃ mv nn st1,
        scan_moves G fuel who_now cur childs moves max_v nextNode st = some (mv, nn, st1) ∧
        ((st1 = st ∧
            (mv = none → max_v = none ∧ ∀ m ∈ moves,
              childs.lookup m = none ∧ G.apply (st.heap cur).state m who_now = none) ∧
            (mv ≠ none → ∃ m c, nn = some c ∧ childs.lookup m = some c)) ∨
          (∃ m after e, m ∈ moves ∧ childs.lookup m = none ∧
            G.apply (st.heap cur).state m who_now = some after ∧
            (mv = some 0 ∨ mv = some 1) ∧ nn = some st.next ∧
            st1 = expand st cur m after e)) := by
  intro moves
  induction moves with
  | nil =>
    intro max_v nextNode hacc
    refine ⟨max_v, nextNode, st, rfl, Or.inl ⟨rfl, ?_, hacc⟩⟩
    intro h
    exact ⟨h, by simp⟩
  | cons m rest ih =>
    intro max_v nextNode hacc
    unfold scan_moves
    cases hl : childs.lookup m with
    | some c =>
      simp only
      rw [if_neg (hnb m c hl)]
      by_cases hg : gt_score (ucb_score G (st.heap c) (st.heap cur).nb) max_v = true
      · rw [if_pos hg]
        obtain ⟨mv, nn, st1, he, hr⟩ :=
          ih (some (ucb_score G (st.heap c) (st.heap cur).nb)) (some c)
            (fun _ => ⟨m, c, rfl, hl⟩)
        refine ⟨mv, nn, st1, he, ?_⟩
        rcases hr with ⟨h1, h2, h3⟩ | ⟨m1, after, e, h1, h2, h3, h4, h5, h6⟩
        · refine Or.inl ⟨h1, ?_, h3⟩
          intro hmv
          exact absurd (h2 hmv).1 (by simp)
        · exact Or.inr ⟨m1, after, e, List.mem_cons_of_mem _ h1, h2, h3, h4, h5, h6⟩
      · rw [if_neg hg]
        obtain ⟨mv, nn, st1, he, hr⟩ := ih max_v nextNode hacc
        refine ⟨mv, nn, st1, he, ?_⟩
        rcases hr with ⟨h1, h2, h3⟩ | ⟨m1, after, e, h1, h2, h3, h4, h5, h6⟩
        · refine Or.inl ⟨h1, ?_, h3⟩
          intro hmv
          have := (h2 hmv).1
          rw [this] at hg
          exact absurd rfl hg
        · exact Or.inr ⟨m1, after, e, List.mem_cons_of_mem _ h1, h2, h3, h4, h5, h6⟩
    | none =>
      simp only
      cases ha : G.apply (st.heap cur).state m who_now with
      | some after =>
        simp only
        have hlt := hμ _ _ _ _ ha
        obtain ⟨r, hr⟩ := simulate_total hμ fuel (who_change who_now) st.move_space after
          st.engine (by omega)
        obtain ⟨sim_who, e⟩ := r
        rw [hr]
        refine ⟨_, _, _, rfl, Or.inr ⟨m, after, e, List.mem_cons_self _ _, hl, ha, ?_, rfl, rfl⟩⟩
        by_cases hw : sim_who ≠ st.who
        · right; rw [if_pos hw]
        · left; rw [if_neg hw]
      | none =>
        simp only
        obtain ⟨mv, nn, st1, he, hr⟩ := ih max_v nextNode hacc
        refine ⟨mv, nn, st1, he, ?_⟩
        rcases hr with ⟨h1, h2, h3⟩ | ⟨m1, after, e, h1, h2, h3, h4, h5, h6⟩
        · refine Or.inl ⟨h1, ?_, h3⟩
          intro hmv
          refine ⟨(h2 hmv).1, ?_⟩
          intro m2 hm2
          rcases List.mem_cons.1 hm2 with h7 | h7
          · subst h7
            exact ⟨hl, ha⟩
          · exact (h2 hmv).2 m2 h7
        · exact Or.inr ⟨m1, after, e, List.mem_cons_of_mem _ h1, h2, h3, h4, h5, h6⟩

theorem expand_old_node (st : player Board Engine) (cur m : Nat) (after : Board) (e : Engine)
    (q : Nat) (h : cur ≠ st.next) (hq : q ≠ st.next)
    (hl : (st.heap cur).child.lookup m = none) :
    ((expand st cur m after e).heap q).state = (st.heap q).state ∧
    ((expand st cur m after e).heap q).value = (st.heap q).value ∧
    ((expand st cur m after e).heap q).nb = (st.heap q).nb ∧
    ∀ kv ∈ (st.heap q).child, kv ∈ ((expand st cur m after e).heap q).child := by
  by_cases hqc : q = cur
  · subst hqc
    rw [expand_heap_cur st q m after e h]
    refine ⟨rfl, rfl, rfl, ?_⟩
    intro kv hkv
    by_cases hk : kv.1 = m
    · exact absurd (hk ▸ hkv : (m, kv.2) ∈ _) (lookup_none_not_mem hl kv.2)
    · exact mem_assign_of_mem hkv hk
  · rw [expand_heap_other st cur m after e q hqc hq]
    exact ⟨rfl, rfl, rfl, fun _ h => h⟩

theorem tree_ok_expand {G : Game Board Engine} {st : player Board Engine}
    {col : Nat → piece_type} (h : tree_ok G st col) (cur m : Nat) (after : Board) (e : Engine)
    (hcur : cur < st.next) (hm : m < G.cells)
    (hl : (st.heap cur).child.lookup m = none)
    (ha : G.apply (st.heap cur).state m (col cur) = some after) :
    tree_ok G (expand st cur m after e)
      (Function.update col st.next (who_change (col cur))) := by
  obtain ⟨hw, hr, hp, he⟩ := h
  have hne : cur ≠ st.next := by omega
  refine ⟨hw, ?_, hp, ?_⟩
  · show st.root < st.next + 1
    omega
  · intro p m1 c hp1 hmem
    have hp1 : p < st.next + 1 := hp1
    show p < c ∧ c < st.next + 1 ∧ _
    by_cases hpn : p = st.next
    · subst hpn
      rw [expand_heap_next st cur m after e hne] at hmem
      simp at hmem
    · have hplt : p < st.next := by omega
      have hcolp : Function.update col st.next (who_change (col cur)) p = col p :=
        Function.update_noteq hpn _ _
      have hstp := (expand_old_node st cur m after e p hne hpn hl).1
      by_cases hpc : p = cur
      · subst hpc
        rw [expand_heap_cur st p m after e hne] at hmem
        rcases mem_assign hmem with h1 | h1
        · have hm1 : m1 = m := congrArg Prod.fst h1
          have hc1 : c = st.next := congrArg Prod.snd h1
          subst hm1 hc1
          refine ⟨hplt, by omega, hm, ?_, ?_⟩
          · rw [hcolp, hstp, expand_heap_next st p m1 after e hne]
            exact ha
          · rw [hcolp]
            exact Function.update_same _ _ _
        · obtain ⟨h2, h3, h4, h5, h6⟩ := he p m1 c hplt h1
          have hcn : c ≠ st.next := by omega
          refine ⟨h2, by omega, h4, ?_, ?_⟩
          · rw [hcolp, hstp, (expand_old_node st p m after e c hne hcn hl).1]
            exact h5
          · rw [hcolp, Function.update_noteq hcn]
            exact h6
      · rw [expand_heap_other st cur m after e p hpc hpn] at hmem
        obtain ⟨h2, h3, h4, h5, h6⟩ := he p m1 c hplt hmem
        have hcn : c ≠ st.next := by omega
        refine ⟨h2, by omega, h4, ?_, ?_⟩
        · rw [hcolp, hstp, (expand_old_node st cur m after e c hne hcn hl).1]
          exact h5
        · rw [hcolp, Function.update_noteq hcn]
          exact h6

theorem descend_leaf (G : Game Board Engine) (fuel n cur : Nat) (trajectory : List Nat)
    (t_idx : Nat) (who_now : piece_type) (max_v : ℚ) (st : player Board Engine)
    (h : (st.heap cur).nb = 0) :
    descend G fuel (n + 1) (cur :: trajectory) t_idx who_now max_v st =
      some (cur :: trajectory, t_idx, max_v, st) := by
  unfold descend
  rw [if_neg (by simpa using h)]

theorem descend_spec {G : Game Board Engine} {μ : Board → Nat} (hμ : G.measured μ)
    (hs : G.shuffles) (fuel : Nat) :
    ∀ (n cur : Nat) (trajectory : List Nat) (t_idx : Nat) (who_now : piece_type) (max_v : ℚ)
      (st : player Board Engine) (col : Nat → piece_type),
      tree_ok G st col → visited st → (∀ q ∈ cur :: trajectory, q < st.next) →
      (cur :: trajectory).Pairwise (fun a b => b < a) →
      col cur = who_now → μ (st.heap cur).state < n → n ≤ fuel →
      ∃ r, descend G fuel n (cur :: trajectory) t_idx who_now max_v st = some r ∧
        descent_post G st col cur trajectory t_idx who_now r := by
  intro n
  induction n with
  | zero => intros; omega
  | succ n ih =>
    intro cur trajectory t_idx who_now max_v st col hok hvis hq hpw hcol hlt hle
    have hcur : cur < st.next := hq cur (List.mem_cons_self _ _)
    have hnb : (st.heap cur).nb ≠ 0 := by have := hvis cur hcur; omega
    obtain ⟨hw, hr, hp, he⟩ := hok
    have hperm : (G.shuffle st.engine st.move_space).1.Perm (List.range G.cells) :=
      (hs _ _).trans hp
    have hok1 : tree_ok G (shuffle_move_space G st) col := ⟨hw, hr, hperm, he⟩
    obtain ⟨mv, nn, st2, hscan, hres⟩ := scan_moves_spec hμ fuel who_now cur
      (st.heap cur).child (shuffle_move_space G st)
      (by show μ (st.heap cur).state ≤ fuel; omega)
      (by
        intro m c hl
        have := (he cur m c hcur (lookup_mem hl)).2.1
        have := hvis c this
        show (st.heap c).nb ≠ 0
        omega)
      (shuffle_move_space G st).move_space none none (by simp)
    unfold descend
    rw [if_pos hnb, hscan]
    rcases hres with ⟨h1, h2, h3⟩ | ⟨m, after, e, h1, h2, h3, h4, h5, h6⟩
    · subst h1
      cases mv with
      | none =>
        refine ⟨_, rfl, ?_⟩
        exact
          { who_eq := rfl, root_eq := rfl, playername_eq := rfl, space_eq := rfl,
            next_le := le_refl _,
            old_nodes := fun p _ => ⟨rfl, rfl, rfl, fun _ h => h⟩,
            new_nodes := fun p h1 h2 => absurd h2 (by
              have : st.next ≤ p := h1
              show ¬ p < st.next
              omega),
            shape := ⟨col, hok1, fun _ _ => rfl⟩,
            extends_trajectory := ⟨[], rfl, rfl⟩,
            decreasing := hpw,
            allocated := hq,
            outcome := by
              show (if who_now ≠ st.who then (1 : ℚ) else 0) = 0 ∨
                (if who_now ≠ st.who then (1 : ℚ) else 0) = 1
              split_ifs
              · exact Or.inr rfl
              · exact Or.inl rfl,
            stopped := Or.inl ⟨rfl, fun m hm =>
              ((h2 rfl).2 m (hperm.mem_iff.2 (List.mem_range.2 hm))).2⟩ }
      | some v =>
        obtain ⟨m, c, hnn, hlc⟩ := h3 (by simp)
        subst hnn
        have hmem := lookup_mem hlc
        obtain ⟨e1, e2, e3, e4, e5⟩ := he cur m c hcur hmem
        obtain ⟨r, hr1, hr2⟩ := ih c (cur :: trajectory) (t_idx + 1) (who_change who_now) v
          (shuffle_move_space G st) col hok1 hvis
          (by
            intro q hq1
            rcases List.mem_cons.1 hq1 with h7 | h7
            · rw [h7]; exact e2
            · exact hq q h7)
          (List.pairwise_cons.2 ⟨by
            intro b hb
            rcases List.mem_cons.1 hb with h7 | h7
            · rw [h7]; exact e1
            · exact lt_trans ((List.pairwise_cons.1 hpw).1 b h7) e1, hpw⟩)
          (by rw [e5, hcol])
          (by
            have := hμ _ _ _ _ e4
            show μ (st.heap c).state < n
            omega)
          (by omega)
        refine ⟨r, hr1, ?_⟩
        obtain ⟨ext, hx1, hx2⟩ := hr2.extends_trajectory
        exact
          { who_eq := hr2.who_eq, root_eq := hr2.root_eq, playername_eq := hr2.playername_eq,
            space_eq := hr2.space_eq, next_le := hr2.next_le, old_nodes := hr2.old_nodes,
            new_nodes := hr2.new_nodes, shape := hr2.shape,
            extends_trajectory := ⟨ext ++ [c], by simp [hx1], by simp [hx2]; omega⟩,
            decreasing := hr2.decreasing, allocated := hr2.allocated, outcome := hr2.outcome,
            stopped := Or.inr (List.ne_nil_of_mem ((hr2.old_nodes cur hcur).2.2.2 _ hmem)) }
    · subst h5 h6
      have hne : cur ≠ st.next := by omega
      have hm : m < G.cells := List.mem_range.1 (hperm.mem_iff.1 h1)
      have hlt2 := hμ _ _ _ _ h3
      have hlt3 : μ after < μ (st.heap cur).state := hlt2
      obtain ⟨k, hk⟩ : ∃ k, n = k + 1 := ⟨n - 1, by omega⟩
      subst hk
      have hleaf : ∀ v : ℚ, descend G fuel (k + 1) (st.next :: cur :: trajectory) (t_idx + 1)
          (who_change who_now) v (expand (shuffle_move_space G st) cur m after e) =
          some (st.next :: cur :: trajectory, t_idx + 1, v, expand (shuffle_move_space G st) cur m after e) := by
        intro v
        apply descend_leaf
        exact congrArg node.nb (expand_heap_next (shuffle_move_space G st) cur m after e hne)
      have hpost : ∀ v : ℚ, (v = 0 ∨ v = 1) →
          descent_post G st col cur trajectory t_idx who_now
            (st.next :: cur :: trajectory, t_idx + 1, v, expand (shuffle_move_space G st) cur m after e) := by
        intro v hv
        exact
          { who_eq := rfl, root_eq := rfl, playername_eq := rfl, space_eq := rfl,
            next_le := Nat.le_succ _,
            old_nodes := fun p hp => expand_old_node (shuffle_move_space G st) cur m after e p hne
              (by show p ≠ st.next; omega) h2,
            new_nodes := fun p hp1 hp2 => by
              have hp3 : p < st.next + 1 := hp2
              have hp4 : p = st.next := by omega
              subst hp4
              exact ⟨congrArg node.nb
                (expand_heap_next (shuffle_move_space G st) cur m after e hne),
                List.mem_cons_self _ _⟩,
            shape := ⟨Function.update col st.next (who_change (col cur)),
              tree_ok_expand hok1 cur m after e hcur hm h2 (by rw [hcol]; exact h3),
              fun p hp => Function.update_noteq (by omega) _ _⟩,
            extends_trajectory := ⟨[st.next], rfl, rfl⟩,
            decreasing := List.pairwise_cons.2 ⟨hq, hpw⟩,
            allocated := by
              intro q hq1
              show q < st.next + 1
              rcases List.mem_cons.1 hq1 with h7 | h7
              · omega
              · have := hq q h7
                omega,
            outcome := hv,
            stopped := Or.inr (by
              show ((expand (shuffle_move_space G st) cur m after e).heap cur).child ≠ []
              rw [expand_heap_cur (shuffle_move_space G st) cur m after e hne]
              exact List.ne_nil_of_mem (mem_assign_self _ _ _)) }
      rcases h4 with h4 | h4
      · subst h4
        exact ⟨_, hleaf 0, hpost 0 (Or.inl rfl)⟩
      · subst h4
        exact ⟨_, hleaf 1, hpost 1 (Or.inr rfl)⟩

theorem to_int_neg (x : ℚ) : to_int (-x) = -to_int x := by
  unfold to_int
  rw [Rat.neg_num, Rat.neg_den, Int.neg_tdiv]

theorem backprop_frame (l : List Nat) :
    ∀ (heap : Nat → node Board) (v : ℚ) (p : Nat),
      (backprop heap l v p).state = (heap p).state ∧
      (backprop heap l v p).child = (heap p).child ∧
      (backprop heap l v p).nb = (heap p).nb + l.count p := by
  induction l with
  | nil => intro heap v p; simp [backprop]
  | cons q rest ih =>
    intro heap v p
    unfold backprop
    obtain ⟨h1, h2, h3⟩ := ih (Function.update heap q (updateValue (heap q) (to_int v))) (-v) p
    rw [h1, h2, h3]
    by_cases hpq : p = q
    · subst hpq
      simp [updateValue, List.count_cons]
      omega
    · have hqp : ¬ q = p := fun h => hpq h.symm
      simp [Function.update_noteq hpq, List.count_cons, hqp]

theorem backprop_not_mem (l : List Nat) :
    ∀ (heap : Nat → node Board) (v : ℚ) (p : Nat), p ∉ l → backprop heap l v p = heap p := by
  induction l with
  | nil => intro heap v p _; rfl
  | cons q rest ih =>
    intro heap v p hp
    unfold backprop
    rw [ih _ _ _ (fun h => hp (List.mem_cons_of_mem _ h))]
    exact Function.update_noteq (fun h => hp (by rw [h]; exact List.mem_cons_self _ _)) _ _

theorem backprop_value (l : List Nat) :
    ∀ (heap : Nat → node Board) (v : ℚ), l.Nodup → ∀ (j p : Nat), l[j]? = some p →
      (backprop heap l v p).value = (heap p).value + (-1) ^ j * to_int v := by
  induction l with
  | nil => intro heap v _ j p h; simp at h
  | cons q rest ih =>
    intro heap v hnd j p hj
    obtain ⟨hq, hnd1⟩ := List.nodup_cons.1 hnd
    unfold backprop
    cases j with
    | zero =>
      simp only [List.getElem?_cons_zero, Option.some.injEq] at hj
      subst hj
      rw [backprop_not_mem rest _ _ _ hq]
      simp [updateValue]
    | succ j =>
      simp only [List.getElem?_cons_succ] at hj
      have hmem : p ∈ rest := List.mem_iff_getElem?.2 ⟨j, hj⟩
      have hpq : p ≠ q := fun h => hq (h ▸ hmem)
      rw [ih _ (-v) hnd1 j p hj, Function.update_noteq hpq, to_int_neg, pow_succ]
      ring

theorem tree_ok_backprop {G : Game Board Engine} {st : player Board Engine}
    {col : Nat → piece_type} (h : tree_ok G st col) (l : List Nat) (v : ℚ) :
    tree_ok G { st with heap := backprop st.heap l v } col := by
  obtain ⟨hw, hr, hp, he⟩ := h
  refine ⟨hw, hr, hp, ?_⟩
  intro p m c hp1 hmem
  have h1 := backprop_frame l st.heap v p
  have h2 := backprop_frame l st.heap v c
  have hmem1 : (m, c) ∈ (backprop st.heap l v p).child := hmem
  rw [h1.2.1] at hmem1
  show p < c ∧ c < st.next ∧ m < G.cells ∧
    G.apply (backprop st.heap l v p).state m (col p) = some (backprop st.heap l v c).state ∧
    col c = who_change (col p)
  rw [h1.1, h2.1]
  exact he p m c hp1 hmem1

theorem playOneSequence_spec {G : Game Board Engine} {μ : Board → Nat} (hμ : G.measured μ)
    (hs : G.shuffles) (fuel : Nat) (st : player Board Engine) (hinv : inv_search G st)
    (hfuel : μ (st.heap st.root).state < fuel) :
    ∃ st1, playOneSequence G fuel st = some st1 ∧ iteration_post G 1 st st1 := by
  obtain ⟨col, hok, hvis, hcol⟩ := hinv
  have hroot : st.root < st.next := hok.2.1
  obtain ⟨r, hr1, hr2⟩ := descend_spec hμ hs fuel fuel st.root [] 0 st.who (-1) st col hok hvis
    (by
      intro q hq
      rcases List.mem_cons.1 hq with h | h
      · rw [h]; exact hroot
      · simp at h)
    (List.pairwise_singleton _ _) hcol hfuel (le_refl _)
  obtain ⟨traj, t, v, st1⟩ := r
  unfold playOneSequence
  rw [hr1]
  refine ⟨_, rfl, ?_⟩
  obtain ⟨col1, hok1, hcol1⟩ := hr2.shape
  obtain ⟨ext, hx1, hx2⟩ := hr2.extends_trajectory
  have hx1 : traj = ext ++ [st.root] := hx1
  have hnd : traj.Nodup := hr2.decreasing.imp (fun h => Nat.ne_of_gt h)
  have hroot_mem : st.root ∈ traj := by rw [hx1]; simp
  have hreq : st1.root = st.root := hr2.root_eq
  have hold := hr2.old_nodes
  have hnew := hr2.new_nodes
  have hstop := hr2.stopped
  have hnext : st.next ≤ st1.next := hr2.next_le
  exact
    { inv_kept := ⟨col1, tree_ok_backprop hok1 _ _, by
        intro p hp
        have hp1 : p < st1.next := hp
        show 1 ≤ (backprop st1.heap traj _ p).nb
        rw [(backprop_frame traj st1.heap _ p).2.2]
        by_cases hlt : p < st.next
        · have h1 := (hold p hlt).2.2.1
          have h2 := hvis p hlt
          have h3 : (st1.heap p).nb = (st.heap p).nb := h1
          omega
        · have h1 := hnew p (by omega) hp1
          have h2 : (st1.heap p).nb = 0 := h1.1
          have h3 : 0 < traj.count p := List.count_pos_iff.2 h1.2
          omega, by
        show col1 st1.root = st1.who
        rw [hreq, hcol1 _ hroot, hcol]
        exact hr2.who_eq.symm⟩,
      who_eq := hr2.who_eq,
      root_eq := hr2.root_eq,
      playername_eq := hr2.playername_eq,
      space_eq := hr2.space_eq,
      next_le := hr2.next_le,
      root_nb := by
        show (backprop st1.heap traj _ st1.root).nb = (st.heap st.root).nb + ((1 : Nat) : Int)
        rw [(backprop_frame traj st1.heap _ st1.root).2.2, hreq,
          List.count_eq_one_of_mem hnd hroot_mem]
        have h1 : (st1.heap st.root).nb = (st.heap st.root).nb := (hold _ hroot).2.2.1
        rw [h1],
      old_nodes := by
        intro p hp
        show (backprop st1.heap traj _ p).state = (st.heap p).state ∧
          ∀ kv ∈ (st.heap p).child, kv ∈ (backprop st1.heap traj _ p).child
        rw [(backprop_frame traj st1.heap _ p).1, (backprop_frame traj st1.heap _ p).2.1]
        exact ⟨(hold p hp).1, (hold p hp).2.2.2⟩,
      root_child := by
        intro _ hex
        show (backprop st1.heap traj _ st1.root).child ≠ []
        rw [(backprop_frame traj st1.heap _ st1.root).2.1, hreq]
        rcases hstop with ⟨_, hnone⟩ | hc
        · obtain ⟨m, hm, hl⟩ := hex
          have := hnone m hm
          simp [legal, this] at hl
        · exact hc }

theorem iterate_N_spec {G : Game Board Engine} {μ : Board → Nat} (hμ : G.measured μ)
    (hs : G.shuffles) (fuel : Nat) :
    ∀ (N : Nat) (st : player Board Engine), inv_search G st →
      μ (st.heap st.root).state < fuel →
      ∃ st1, iterate_N G fuel N st = some st1 ∧ iteration_post G N st st1 := by
  intro N
  induction N with
  | zero =>
    intro st hinv _
    exact ⟨st, rfl,
      { inv_kept := hinv, who_eq := rfl, root_eq := rfl, playername_eq := rfl, space_eq := rfl,
        next_le := le_refl _, root_nb := by simp,
        old_nodes := fun p _ => ⟨rfl, fun _ h => h⟩,
        root_child := fun h => absurd h (Nat.lt_irrefl 0) }⟩
  | succ N ih =>
    intro st hinv hfuel
    obtain ⟨st1, h1, p1⟩ := playOneSequence_spec hμ hs fuel st hinv hfuel
    obtain ⟨col, hok, _, _⟩ := hinv
    have hroot : st.root < st.next := hok.2.1
    obtain ⟨col1, hok1, _, _⟩ := p1.inv_kept
    have hroot1 : st1.root < st1.next := hok1.2.1
    have hst : (st1.heap st1.root).state = (st.heap st.root).state := by
      rw [p1.root_eq]
      exact (p1.old_nodes _ hroot).1
    obtain ⟨st2, h2, p2⟩ := ih st1 p1.inv_kept (by rw [hst]; exact hfuel)
    refine ⟨st2, ?_, ?_⟩
    · unfold iterate_N
      rw [h1]
      exact h2
    · exact
        { inv_kept := p2.inv_kept,
          who_eq := p2.who_eq.trans p1.who_eq,
          root_eq := p2.root_eq.trans p1.root_eq,
          playername_eq := p2.playername_eq.trans p1.playername_eq,
          space_eq := p2.space_eq.trans p1.space_eq,
          next_le := le_trans p1.next_le p2.next_le,
          root_nb := by
            rw [p2.root_nb, p1.root_nb]
            push_cast
            ring,
          old_nodes := by
            intro p hp
            have hp1 : p < st1.next := lt_of_lt_of_le hp p1.next_le
            refine ⟨((p2.old_nodes p hp1).1).trans (p1.old_nodes p hp).1, ?_⟩
            intro kv hkv
            exact (p2.old_nodes p hp1).2 kv ((p1.old_nodes p hp).2 kv hkv),
          root_child := by
            intro _ hex
            have hc := p1.root_child Nat.one_pos hex
            obtain ⟨kv, hkv⟩ := List.exists_mem_of_ne_nil _ hc
            rw [p2.root_eq]
            exact List.ne_nil_of_mem ((p2.old_nodes _ hroot1).2 kv hkv) }

theorem findNode_found [DecidableEq Board] {heap : Nat → node Board} {next p : Nat}
    {state : Board} {kv : Nat × Nat}
    (h : (heap p).child.find? (fun kv => decide ((heap kv.2).state = state)) = some kv) :
    findNode heap next p state = (heap, next, kv.2) := by
  unfold findNode
  rw [h]

theorem findNode_fresh [DecidableEq Board] {heap : Nat → node Board} {next p : Nat}
    {state : Board}
    (h : (heap p).child.find? (fun kv => decide ((heap kv.2).state = state)) = none) :
    findNode heap next p state = make_shared heap next state 0 1 := by
  unfold findNode
  rw [h]

theorem root_lookup_spec [DecidableEq Board] {G : Game Board Engine}
    (st : player Board Engine) (state : Board) (hinv : inv G st) :
    inv_search G (root_lookup st state) ∧
    ((root_lookup st state).heap (root_lookup st state).root).state = state ∧
    (root_lookup st state).who = st.who ∧
    (root_lookup st state).playername = st.playername ∧
    (root_lookup st state).move_space = st.move_space := by
  obtain ⟨col, ⟨hw, hr, hp, he⟩, hvis, hcol⟩ := hinv
  refine ⟨?_, ?_, rfl, rfl, rfl⟩
  · cases hf : (st.heap st.root).child.find? (fun kv => decide ((st.heap kv.2).state = state)) with
    | some kv =>
      have hmem : (kv.1, kv.2) ∈ (st.heap st.root).child := List.mem_of_find?_eq_some hf
      obtain ⟨e1, e2, e3, e4, e5⟩ := he st.root kv.1 kv.2 hr hmem
      unfold root_lookup
      rw [findNode_found hf]
      refine ⟨col, ⟨hw, e2, hp, he⟩, hvis, ?_⟩
      show col kv.2 = st.who
      rcases hcol with h | h
      · rw [e5, h, who_change_who_change]
      · rw [h] at hmem
        simp at hmem
    | none =>
      unfold root_lookup
      rw [findNode_fresh hf]
      refine ⟨Function.update col st.next st.who, ⟨hw, Nat.lt_succ_self _, hp, ?_⟩, ?_, ?_⟩
      · intro p m c hp1 hmem
        have hp1 : p < st.next + 1 := hp1
        show p < c ∧ c < st.next + 1 ∧ _
        by_cases hpn : p = st.next
        · subst hpn
          simp [make_shared] at hmem
        · have hplt : p < st.next := by omega
          have hmem1 : (m, c) ∈ (st.heap p).child := by
            simpa [make_shared, Function.update_noteq hpn] using hmem
          obtain ⟨e1, e2, e3, e4, e5⟩ := he p m c hplt hmem1
          have hcn : c ≠ st.next := by omega
          refine ⟨e1, by omega, e3, ?_, ?_⟩
          · simp only [make_shared, Function.update_noteq hpn, Function.update_noteq hcn]
            exact e4
          · rw [Function.update_noteq hpn, Function.update_noteq hcn]
            exact e5
      · intro p hp1
        have hp1 : p < st.next + 1 := hp1
        by_cases hpn : p = st.next
        · subst hpn
          simp [make_shared]
        · have := hvis p (by omega)
          simpa [make_shared, Function.update_noteq hpn] using this
      · simp [make_shared]
  · cases hf : (st.heap st.root).child.find? (fun kv => decide ((st.heap kv.2).state = state)) with
    | some kv =>
      unfold root_lookup
      rw [findNode_found hf]
      simpa using List.find?_some hf
    | none =>
      unfold root_lookup
      rw [findNode_fresh hf]
      simp [make_shared]

theorem search_spec [DecidableEq Board] {G : Game Board Engine} {μ : Board → Nat}
    (hμ : G.measured μ) (hs : G.shuffles) (fuel : Nat) (st : player Board Engine)
    (state : Board) (hinv : inv G st) (hfuel : μ state < fuel) :
    ∃ st1, search G fuel st state = some st1 ∧
      iteration_post G (maxN (empty_place G st state)) (root_lookup st state) st1 := by
  obtain ⟨h1, h2, _⟩ := root_lookup_spec st state hinv
  exact iterate_N_spec hμ hs fuel _ _ h1 (by rw [h2]; exact hfuel)

theorem maxN_pos (n : Nat) : 0 < maxN n := by
  unfold maxN
  split_ifs <;> decide

theorem get_action_nil (heap : Nat → node Board) (childs : List (Nat × Nat))
    (acc : Option ℚ × Nat) : get_action heap childs [] acc = acc := rfl

theorem get_action_spec (heap : Nat → node Board) (childs : List (Nat × Nat)) :
    ∀ (l : List (Nat × Nat)) (acc : Option ℚ × Nat),
      (∀ kv ∈ l, kv ∈ childs) →
      (∀ v, acc.1 = some v → ∃ c, childs.lookup acc.2 = some c ∧
        v = avg_score (heap c)) →
      (acc.1 ≠ none ∨ l ≠ []) →
      ∃ c, childs.lookup (get_action heap childs l acc).2 = some c ∧
        (∀ v, acc.1 = some v → v ≤ avg_score (heap c)) ∧
        ∀ kv ∈ l, ∀ c1, childs.lookup kv.1 = some c1 →
          avg_score (heap c1) ≤
            avg_score (heap c) := by
  intro l
  induction l with
  | nil =>
    intro acc _ hacc hne
    obtain ⟨a1, a2⟩ := acc
    rcases hne with h | h
    · cases a1 with
      | none => exact absurd rfl h
      | some v =>
        obtain ⟨c, hc1, hc2⟩ := hacc v rfl
        refine ⟨c, hc1, ?_, by simp⟩
        intro v1 hv1
        simp only [Option.some.injEq] at hv1
        rw [← hv1, hc2]
    · exact absurd rfl h
  | cons kv rest ih =>
    intro acc hsub hacc _
    obtain ⟨c0, hc0⟩ := mem_lookup_isSome (hsub kv (List.mem_cons_self _ _) : (kv.1, kv.2) ∈ childs)
    unfold get_action
    rw [hc0]
    simp only
    have hsub1 : ∀ kv1 ∈ rest, kv1 ∈ childs := fun kv1 h => hsub kv1 (List.mem_cons_of_mem _ h)
    by_cases hg : gt_score (avg_score (heap c0)) acc.1 = true
    · rw [if_pos hg]
      obtain ⟨c, h1, h2, h3⟩ := ih (some (avg_score (heap c0)), kv.1)
        hsub1 (by
          intro v hv
          simp only [Option.some.injEq] at hv
          exact ⟨c0, hc0, hv.symm⟩) (Or.inl (by simp))
      have h4 := h2 _ rfl
      refine ⟨c, h1, ?_, ?_⟩
      · intro v hv
        rw [hv] at hg
        simp only [gt_score, decide_eq_true_eq] at hg
        exact le_trans (le_of_lt hg) h4
      · intro kv1 hkv1 c1 hc1
        rcases List.mem_cons.1 hkv1 with h5 | h5
        · subst h5
          rw [hc0] at hc1
          simp only [Option.some.injEq] at hc1
          subst hc1
          exact h4
        · exact h3 kv1 h5 c1 hc1
    · rw [if_neg hg]
      obtain ⟨a1, a2⟩ := acc
      cases a1 with
      | none => exact absurd rfl hg
      | some v =>
        simp only [gt_score, decide_eq_true_eq, not_lt] at hg
        obtain ⟨c, h1, h2, h3⟩ := ih (some v, a2) hsub1 hacc (Or.inl (by simp))
        have hv : (some v, a2).1 = some v := rfl
        refine ⟨c, h1, h2, ?_⟩
        intro kv1 hkv1 c1 hc1
        rcases List.mem_cons.1 hkv1 with h5 | h5
        · subst h5
          rw [hc0] at hc1
          simp only [Option.some.injEq] at hc1
          subst hc1
          exact le_trans hg (h2 v hv)
        · exact h3 kv1 h5 c1 hc1

theorem max_idx_spec (st : player Board Engine) (h : (st.heap st.root).child ≠ []) :
    ∃ c, (st.heap st.root).child.lookup (max_idx st) = some c ∧
      ∀ m1 c1, (st.heap st.root).child.lookup m1 = some c1 →
        avg_score (st.heap c1) ≤
          avg_score (st.heap c) := by
  obtain ⟨c, h1, _, h3⟩ := get_action_spec st.heap (st.heap st.root).child
    (st.heap st.root).child (none, 0) (fun _ h => h) (by simp) (Or.inr h)
  exact ⟨c, h1, fun m1 c1 hl => h3 (m1, c1) (lookup_mem hl) c1 hl⟩

theorem max_idx_nil (st : player Board Engine) (h : (st.heap st.root).child = []) :
    max_idx st = 0 := by
  unfold max_idx
  rw [h]
  rfl

theorem inv_player_new (G : Game Board Engine) (who : piece_type) (s : String) (e : Engine)
    (hw : who = piece_type.black ∨ who = piece_type.white) :
    inv G (player_new G who (some s) e) := by
  refine ⟨fun _ => who, ⟨hw, Nat.one_pos, List.Perm.refl _, ?_⟩, ?_, Or.inr ?_⟩
  · intro p m c hp hmem
    have hp0 : p = 0 := by
      have : p < 1 := hp
      omega
    subst hp0
    simp [player_new, make_shared] at hmem
  · intro p hp
    have hp0 : p = 0 := by
      have : p < 1 := hp
      omega
    subst hp0
    simp [player_new, make_shared]
  · simp [player_new, make_shared]

theorem root_advance_inv {G : Game Board Engine} (st : player Board Engine)
    (hinv : inv_search G st) : inv G (root_advance st).2 := by
  obtain ⟨col, ⟨hw, hr, hp, he⟩, hvis, hcol⟩ := hinv
  cases hl : (st.heap st.root).child.lookup (max_idx st) with
  | some c =>
    obtain ⟨_, e2, _, _, e5⟩ := he st.root (max_idx st) c hr (lookup_mem hl)
    refine ⟨col, ⟨hw, ?_, hp, he⟩, hvis, Or.inl ?_⟩
    · show (root_advance st).2.root < st.next
      simp only [root_advance, hl]
      exact e2
    · show col (root_advance st).2.root = who_change st.who
      simp only [root_advance, hl]
      rw [e5, hcol]
  | none =>
    have hnil : (st.heap st.root).child = [] := by
      by_contra hne
      obtain ⟨c, hc, _⟩ := max_idx_spec st hne
      rw [hl] at hc
      simp at hc
    refine ⟨col, ⟨hw, ?_, hp, he⟩, hvis, Or.inr ?_⟩
    · show (root_advance st).2.root < st.next
      simp only [root_advance, hl]
      exact hr
    · show (st.heap (root_advance st).2.root).child = []
      simp only [root_advance, hl]
      exact hnil

theorem take_action_search [DecidableEq Board] (G : Game Board Engine) (fuel : Nat)
    (st : player Board Engine) (state : Board) (hmode : st.playername = "MCTS")
    {st1 : player Board Engine} (h : search G fuel st state = some st1) :
    take_action G fuel st state = some (root_advance st1) := by
  unfold take_action
  rw [if_pos hmode, h]

theorem take_action_inv [DecidableEq Board] {G : Game Board Engine} {μ : Board → Nat}
    (hμ : G.measured μ) (hs : G.shuffles) (fuel : Nat) (st : player Board Engine)
    (state : Board) (hinv : inv G st) (hfuel : μ state < fuel) :
    ∃ r, take_action G fuel st state = some r ∧ inv G r.2 := by
  by_cases hmode : st.playername = "MCTS"
  · obtain ⟨st1, h1, p1⟩ := search_spec hμ hs fuel st state hinv hfuel
    exact ⟨_, take_action_search G fuel st state hmode h1, root_advance_inv st1 p1.inv_kept⟩
  · unfold take_action
    rw [if_neg hmode]
    obtain ⟨col, ⟨hw, hr, hp, he⟩, hvis, hcol⟩ := hinv
    cases (G.shuffle st.engine st.space).1.find? (fun i => legal G state i st.who) with
    | some i => exact ⟨_, rfl, col, ⟨hw, hr, hp, he⟩, hvis, hcol⟩
    | none => exact ⟨_, rfl, col, ⟨hw, hr, hp, he⟩, hvis, hcol⟩

theorem demo_measured : demo.measured demo_measure := by
  intro b i w after h
  have h1 : demo_apply b i w = some after := h
  unfold demo_apply at h1
  split at h1
  · rename_i hc
    obtain ⟨hw, hget⟩ := hc
    simp only [Option.some.injEq] at h1
    subst h1
    obtain ⟨hi, hbi⟩ := List.getElem?_eq_some.1 (by simpa using hget : b[i]? = some piece_type.empty)
    unfold demo_measure
    rw [List.count_set _ _ _ _ hi]
    have hpos : 0 < b.count piece_type.empty :=
      List.count_pos_iff.2 (hbi ▸ List.getElem_mem hi)
    have hwe : (w == piece_type.empty) = false := by simpa using hw
    simp only [hbi, beq_self_eq_true, if_true, hwe]
    rw [if_neg (by simp)]
    omega
  · simp at h1

theorem demo_shuffles : demo.shuffles := fun e l => List.rotate_perm l e

theorem demo_player_inv : inv demo demo_player :=
  inv_player_new demo piece_type.black "MCTS" 0 (Or.inl rfl)

theorem scan_moves_none (G : Game Board Engine) (fuel : Nat) (who_now : piece_type)
    (cur : Nat) (st : player Board Engine) :
    ∀ (moves : List Nat) (max_v : Option ℚ) (nextNode : Option Nat),
      (∀ m ∈ moves, G.apply (st.heap cur).state m who_now = none) →
      scan_moves G fuel who_now cur [] moves max_v nextNode st = some (max_v, nextNode, st) := by
  intro moves
  induction moves with
  | nil => intro max_v nextNode _; rfl
  | cons m rest ih =>
    intro max_v nextNode h
    unfold scan_moves
    rw [List.lookup_nil]
    simp only
    rw [h m (List.mem_cons_self _ _)]
    exact ih max_v nextNode (fun m1 h1 => h m1 (List.mem_cons_of_mem _ h1))

theorem to_int_zero : to_int 0 = 0 := by
  simp [to_int]

theorem playOneSequence_terminal (G : Game Board Engine) (fuel : Nat)
    (st : player Board Engine) (hnb : (st.heap st.root).nb ≠ 0)
    (hc : (st.heap st.root).child = [])
    (hno : ∀ m ∈ (G.shuffle st.engine st.move_space).1,
      G.apply (st.heap st.root).state m st.who = none) :
    playOneSequence G (fuel + 1) st =
      some { shuffle_move_space G st with
        heap := Function.update st.heap st.root (updateValue (st.heap st.root) 0) } := by
  unfold playOneSequence descend
  rw [if_pos hnb, hc, scan_moves_none G (fuel + 1) st.who st.root (shuffle_move_space G st)
    (shuffle_move_space G st).move_space none none hno]
  simp [backprop, to_int_zero, shuffle_move_space]

theorem iterate_N_terminal {G : Game Board Engine} (hs : G.shuffles) (fuel : Nat) :
    ∀ (N : Nat) (st : player Board Engine), 1 ≤ (st.heap st.root).nb →
      (st.heap st.root).child = [] →
      (∀ m ∈ st.move_space, G.apply (st.heap st.root).state m st.who = none) →
      ∃ st1, iterate_N G (fuel + 1) N st = some st1 ∧ idle_post N st st1 := by
  intro N
  induction N with
  | zero =>
    intro st _ hc _
    exact ⟨st, rfl,
      { who_eq := rfl, root_eq := rfl, playername_eq := rfl, next_eq := rfl,
        others := fun _ _ => rfl, root_state := rfl, root_value := rfl, root_child := hc,
        root_nb := by simp }⟩
  | succ N ih =>
    intro st hnb hc hno
    have hno1 : ∀ m ∈ (G.shuffle st.engine st.move_space).1,
        G.apply (st.heap st.root).state m st.who = none :=
      fun m hm => hno m ((hs _ _).mem_iff.1 hm)
    have h1 := playOneSequence_terminal G fuel st (by omega) hc hno1
    have hroot : Function.update st.heap st.root (updateValue (st.heap st.root) 0) st.root =
        updateValue (st.heap st.root) 0 := Function.update_same _ _ _
    obtain ⟨st2, h2, p2⟩ := ih { shuffle_move_space G st with
        heap := Function.update st.heap st.root (updateValue (st.heap st.root) 0) }
      (by
        show 1 ≤ (Function.update st.heap st.root (updateValue (st.heap st.root) 0) st.root).nb
        rw [hroot]
        show 1 ≤ (st.heap st.root).nb + 1
        omega)
      (by
        show (Function.update st.heap st.root (updateValue (st.heap st.root) 0) st.root).child = []
        rw [hroot]
        exact hc)
      (by
        intro m hm
        show G.apply (Function.update st.heap st.root
          (updateValue (st.heap st.root) 0) st.root).state m st.who = none
        rw [hroot]
        exact hno1 m hm)
    refine ⟨st2, ?_, ?_⟩
    · unfold iterate_N
      rw [h1]
      exact h2
    · have e1 : (st2.heap st.root).state = (Function.update st.heap st.root
          (updateValue (st.heap st.root) 0) st.root).state := p2.root_state
      have e2 : (st2.heap st.root).value = (Function.update st.heap st.root
          (updateValue (st.heap st.root) 0) st.root).value := p2.root_value
      have e3 : (st2.heap st.root).nb = (Function.update st.heap st.root
          (updateValue (st.heap st.root) 0) st.root).nb + N := p2.root_nb
      rw [hroot] at e1 e2 e3
      exact
        { who_eq := p2.who_eq, root_eq := p2.root_eq, playername_eq := p2.playername_eq,
          next_eq := p2.next_eq,
          others := fun p hp => (p2.others p hp).trans (Function.update_noteq hp _ _),
          root_state := e1,
          root_value := by rw [e2]; simp [updateValue],
          root_child := p2.root_child,
          root_nb := by
            rw [e3]
            simp only [updateValue]
            push_cast
            ring }

theorem empty_place_zero {G : Game Board Engine} (st : player Board Engine) (state : Board)
    (h : ∀ m ∈ st.move_space, legal G state m st.who = false) :
    empty_place G st state = 0 := by
  unfold empty_place
  rw [List.length_eq_zero, List.filter_eq_nil_iff]
  intro m hm
  rw [h m hm]
  simp

theorem search_no_legal [DecidableEq Board] {G : Game Board Engine} (hs : G.shuffles)
    (fuel : Nat) (st : player Board Engine) (state : Board) (hinv : inv G st)
    (hno : ∀ m, m < G.cells → legal G state m st.who = false) :
    empty_place G st state = 0 ∧
    ∃ st1, search G (fuel + 1) st state = some st1 ∧
      idle_post 3000 (root_lookup st state) st1 := by
  obtain ⟨⟨col, ⟨hw, hr, hp, he⟩, hvis, hcol⟩, hstate, hwho, _, hms⟩ :=
    root_lookup_spec st state hinv
  have hno1 : ∀ m ∈ st.move_space, legal G state m st.who = false :=
    fun m hm => hno m (List.mem_range.1 ((hinv.choose_spec.1.2.2.1).mem_iff.1 hm))
  have h0 := empty_place_zero st state hno1
  refine ⟨h0, ?_⟩
  unfold search
  rw [h0]
  have hm3 : maxN 0 = 3000 := rfl
  rw [hm3]
  apply iterate_N_terminal hs fuel 3000 _ (hvis _ hr)
  · by_contra hne
    obtain ⟨kv, hkv⟩ := List.exists_mem_of_ne_nil _ hne
    obtain ⟨_, _, e3, e4, _⟩ := he _ kv.1 kv.2 hr hkv
    rw [hcol, hstate, hwho] at e4
    have := hno kv.1 e3
    simp [legal, e4] at this
  · intro m hm
    rw [hms] at hm
    have := hno1 m hm
    rw [hstate, hwho]
    simpa [legal] using this

theorem root_advance_fst (st : player Board Engine) :
    (root_advance st).1 = action.place (max_idx st) st.who := rfl

theorem take_action_legal_aux [DecidableEq Board] {G : Game Board Engine} {μ : Board → Nat}
    (hμ : G.measured μ) (hs : G.shuffles) (fuel : Nat) (st : player Board Engine)
    (state : Board) (hinv : inv G st) (hfuel : μ state < fuel)
    (hlegal : ∃ m, m < G.cells ∧ legal G state m st.who = true) :
    ∃ st1, search G fuel st state = some st1 ∧ st1.who = st.who ∧
      (st1.heap st1.root).state = state ∧ (st1.heap st1.root).child ≠ [] ∧
      inv_search G st1 := by
  obtain ⟨hinv1, hstate, hwho, _, _⟩ := root_lookup_spec st state hinv
  obtain ⟨st1, h1, p1⟩ := search_spec hμ hs fuel st state hinv hfuel
  have hroot : (root_lookup st state).root < (root_lookup st state).next :=
    hinv1.choose_spec.1.2.1
  refine ⟨st1, h1, p1.who_eq.trans hwho, ?_, ?_, p1.inv_kept⟩
  · rw [p1.root_eq, (p1.old_nodes _ hroot).1]
    exact hstate
  · apply p1.root_child (maxN_pos _)
    rw [hstate, hwho]
    exact hlegal

theorem take_action_no_legal [DecidableEq Board] {G : Game Board Engine} (hs : G.shuffles)
    (fuel : Nat) (st : player Board Engine) (state : Board) (hinv : inv G st)
    (hmode : st.playername = "MCTS")
    (hno : ∀ m, m < G.cells → legal G state m st.who = false) :
    ∃ st1, take_action G (fuel + 1) st state = some (action.place 0 st.who, st1) := by
  obtain ⟨_, st1, h1, p1⟩ := search_no_legal hs fuel st state hinv hno
  refine ⟨(root_advance st1).2, ?_⟩
  rw [take_action_search G (fuel + 1) st state hmode h1]
  have hc : (st1.heap st1.root).child = [] := by
    rw [p1.root_eq]
    exact p1.root_child
  have hw : st1.who = st.who := p1.who_eq
  have h2 := root_advance_fst st1
  rw [max_idx_nil st1 hc, hw] at h2
  rw [← h2]

theorem root_lookup_player_new [DecidableEq Board] (G : Game Board Engine) (who : piece_type)
    (s : String) (e : Engine) (state : Board) :
    ((root_lookup (player_new G who (some s) e) state).heap
      (root_lookup (player_new G who (some s) e) state).root).nb = 1 := by
  simp [root_lookup, findNode, player_new, make_shared]

theorem first_search_root_nb [DecidableEq Board] {G : Game Board Engine} {μ : Board → Nat}
    (hμ : G.measured μ) (hs : G.shuffles) (fuel : Nat) (who : piece_type) (e : Engine)
    (state : Board) (hw : who = piece_type.black ∨ who = piece_type.white)
    (hfuel : μ state < fuel) :
    ∃ st1, search G fuel (player_new G who (some "MCTS") e) state = some st1 ∧
      (st1.heap st1.root).nb =
        (maxN (empty_place G (player_new G who (some "MCTS") e) state) : Int) + 1 := by
  obtain ⟨st1, h1, p1⟩ := search_spec hμ hs fuel _ state (inv_player_new G who "MCTS" e hw) hfuel
  refine ⟨st1, h1, ?_⟩
  rw [p1.root_nb, root_lookup_player_new]
  ring

theorem demo_full_no_legal :
    ∀ m, m < demo.cells → legal demo demo_full m demo_player.who = false := by
  intro m hm
  have hm4 : m < 4 := hm
  interval_cases m <;> rfl

/-- C1: in search mode, on a position where the player's side has a legal
placement, `take_action` (with enough fuel for its loops) returns a placement
by the player's side on a cell where that placement is legal, for every
persisted tree that satisfies `inv` and every shuffle that permutes. -/
theorem take_action_returns_legal [DecidableEq Board] {G : Game Board Engine}
    {μ : Board → Nat} (hμ : G.measured μ) (hs : G.shuffles) (fuel : Nat)
    (st : player Board Engine) (state : Board) (hinv : inv G st)
    (hmode : st.playername = "MCTS") (hfuel : μ state < fuel)
    (hlegal : ∃ m, m < G.cells ∧ legal G state m st.who = true) :
    ∃ m st1, take_action G fuel st state = some (action.place m st.who, st1) ∧
      m < G.cells ∧ legal G state m st.who = true := by
  obtain ⟨st1, h1, hw, hstate, hc, col, ⟨_, hr, _, he⟩, _, hcol⟩ :=
    take_action_legal_aux hμ hs fuel st state hinv hfuel hlegal
  obtain ⟨c, hl, _⟩ := max_idx_spec st1 hc
  obtain ⟨_, _, e3, e4, _⟩ := he st1.root (max_idx st1) c hr (lookup_mem hl)
  refine ⟨max_idx st1, (root_advance st1).2, ?_, e3, ?_⟩
  · rw [take_action_search G fuel st state hmode h1, ← hw]
    rfl
  · rw [hcol, hstate, hw] at e4
    simp [legal, e4]

theorem take_action_returns_legal_witness :
    ∃ m st1, take_action demo 5 demo_player demo.board0 =
        some (action.place m demo_player.who, st1) ∧
      m < demo.cells ∧ legal demo demo.board0 m demo_player.who = true :=
  take_action_returns_legal demo_measured demo_shuffles 5 demo_player demo.board0
    demo_player_inv rfl (by decide) ⟨0, by decide, by decide⟩

/-- C2: on a position without a legal placement for the player's side the
search branch returns `action::place(0, who)`, a placement on cell 0, where
the random branch returns `action()`; here for a new player for black on a
full board of the small game. -/
theorem no_legal_returns_place_zero :
    ∃ st1, take_action demo 1 demo_player demo_full =
      some (action.place 0 piece_type.black, st1) :=
  take_action_no_legal demo_shuffles 0 demo_player demo_full demo_player_inv rfl
    demo_full_no_legal

/-- C3: for a count `n ≥ 1` of legal placements the search runs `maxN n`
iterations, which is 70000 above 60, 100000 from 31 to 60, 90000 from 21 to
30, 70000 from 11 to 20 and 50000 from 1 to 10, with the listed values at the
boundaries. -/
theorem budget_table [DecidableEq Board] (G : Game Board Engine) (fuel : Nat)
    (st : player Board Engine) (state : Board) (n : Nat)
    (hn : empty_place G st state = n) (h1 : 1 ≤ n) :
    search G fuel st state = iterate_N G fuel (maxN n) (root_lookup st state) ∧
    (60 < n → maxN n = 70000) ∧
    (30 < n → n ≤ 60 → maxN n = 100000) ∧
    (20 < n → n ≤ 30 → maxN n = 90000) ∧
    (10 < n → n ≤ 20 → maxN n = 70000) ∧
    (n ≤ 10 → maxN n = 50000) ∧
    maxN 61 = 70000 ∧ maxN 60 = 100000 ∧ maxN 31 = 100000 ∧ maxN 30 = 90000 ∧
    maxN 21 = 90000 ∧ maxN 20 = 70000 ∧ maxN 11 = 70000 ∧ maxN 10 = 50000 ∧
    maxN 1 = 50000 := by
  refine ⟨by unfold search; rw [hn], ?_, ?_, ?_, ?_, ?_, rfl, rfl, rfl, rfl, rfl, rfl, rfl,
    rfl, rfl⟩
  · intro h
    unfold maxN
    rw [if_pos h]
  · intro h2 h3
    unfold maxN
    rw [if_neg (by omega), if_pos h2]
  · intro h2 h3
    unfold maxN
    rw [if_neg (by omega), if_neg (by omega), if_pos h2]
  · intro h2 h3
    unfold maxN
    rw [if_neg (by omega), if_neg (by omega), if_neg (by omega), if_pos h2]
  · intro h2
    unfold maxN
    rw [if_neg (by omega), if_neg (by omega), if_neg (by omega), if_neg (by omega),
      if_pos (by omega)]

theorem budget_table_witness :
    empty_place demo demo_player demo.board0 = 4 ∧
    search demo 5 demo_player demo.board0 =
      iterate_N demo 5 (maxN 4) (root_lookup demo_player demo.board0) ∧
    maxN 4 = 50000 :=
  ⟨by decide,
    (budget_table demo 5 demo_player demo.board0 4 (by decide) (by decide)).1,
    (budget_table demo 5 demo_player demo.board0 4 (by decide) (by decide)).2.2.2.2.2.1
      (by decide)⟩

/-- C4, as the code has it: when the player's side has no legal placement
the count is 0 and the budget stays at its initial value 3000; the search
runs these 3000 iterations, which add 3000 to the visit count of the root and
leave its value, its (empty) child map, every other node and the number of
nodes as they were. -/
theorem no_legal_runs_default_budget [DecidableEq Board] {G : Game Board Engine}
    (hs : G.shuffles) (fuel : Nat) (st : player Board Engine) (state : Board)
    (hinv : inv G st) (hno : ∀ m, m < G.cells → legal G state m st.who = false) :
    empty_place G st state = 0 ∧ maxN (empty_place G st state) = 3000 ∧
    ∃ st1, search G (fuel + 1) st state = some st1 ∧
      st1.root = (root_lookup st state).root ∧
      st1.next = (root_lookup st state).next ∧
      (st1.heap st1.root).nb =
        ((root_lookup st state).heap (root_lookup st state).root).nb + 3000 ∧
      (st1.heap st1.root).value =
        ((root_lookup st state).heap (root_lookup st state).root).value ∧
      (st1.heap st1.root).child = [] ∧
      ∀ p, p ≠ st1.root → st1.heap p = (root_lookup st state).heap p := by
  obtain ⟨h0, st1, h1, p1⟩ := search_no_legal hs fuel st state hinv hno
  refine ⟨h0, by rw [h0]; rfl, st1, h1, p1.root_eq, p1.next_eq, ?_, ?_, ?_, ?_⟩
  · rw [p1.root_eq, p1.root_nb]
    norm_num
  · rw [p1.root_eq, p1.root_value]
  · rw [p1.root_eq, p1.root_child]
  · intro p hp
    rw [p1.root_eq] at hp
    exact p1.others p hp

theorem no_legal_runs_default_budget_witness :
    empty_place demo demo_player demo_full = 0 ∧
    maxN (empty_place demo demo_player demo_full) = 3000 ∧
    ∃ st1, search demo 1 demo_player demo_full = some st1 ∧
      st1.root = (root_lookup demo_player demo_full).root ∧
      st1.next = (root_lookup demo_player demo_full).next ∧
      (st1.heap st1.root).nb =
        ((root_lookup demo_player demo_full).heap (root_lookup demo_player demo_full).root).nb
          + 3000 ∧
      (st1.heap st1.root).value =
        ((root_lookup demo_player demo_full).heap
          (root_lookup demo_player demo_full).root).value ∧
      (st1.heap st1.root).child = [] ∧
      ∀ p, p ≠ st1.root → st1.heap p = (root_lookup demo_player demo_full).heap p :=
  no_legal_runs_default_budget demo_shuffles 0 demo_player demo_full demo_player_inv
    demo_full_no_legal

/-- C4, as the claim has it, fails: for a new player for black on a full
board of the small game the count of legal placements is 0, and the search
runs 3000 iterations, after which the visit count of the root is 3001 and not
the 1 it started with. -/
theorem no_legal_search_counterexample :
    empty_place demo demo_player demo_full = 0 ∧
    maxN (empty_place demo demo_player demo_full) = 3000 ∧
    ((root_lookup demo_player demo_full).heap (root_lookup demo_player demo_full).root).nb = 1 ∧
    ∃ st1, search demo 1 demo_player demo_full = some st1 ∧
      (st1.heap st1.root).nb = 3001 := by
  obtain ⟨h0, st1, h1, p1⟩ :=
    search_no_legal demo_shuffles 0 demo_player demo_full demo_player_inv demo_full_no_legal
  have hnb := root_lookup_player_new demo piece_type.black "MCTS" 0 demo_full
  refine ⟨h0, by rw [h0]; rfl, hnb, st1, h1, ?_⟩
  rw [p1.root_eq, p1.root_nb]
  have hnb1 : ((root_lookup demo_player demo_full).heap
      (root_lookup demo_player demo_full).root).nb = 1 := hnb
  rw [hnb1]
  norm_num

/-- C5, as the code has it: for a new search player, when the iteration loop
of the first `take_action` has finished, the visit count of the root is the
number of iterations plus one, since the root is created with visit count
1. -/
theorem first_search_root_visits [DecidableEq Board] {G : Game Board Engine}
    {μ : Board → Nat} (hμ : G.measured μ) (hs : G.shuffles) (fuel : Nat) (who : piece_type)
    (e : Engine) (state : Board) (hw : who = piece_type.black ∨ who = piece_type.white)
    (hfuel : μ state < fuel) :
    ∃ st1, search G fuel (player_new G who (some "MCTS") e) state = some st1 ∧
      (st1.heap st1.root).nb =
        (maxN (empty_place G (player_new G who (some "MCTS") e) state) : Int) + 1 :=
  first_search_root_nb hμ hs fuel who e state hw hfuel

theorem first_search_root_visits_witness :
    ∃ st1, search demo 5 (player_new demo piece_type.black (some "MCTS") 0) demo.board0 =
        some st1 ∧
      (st1.heap st1.root).nb =
        (maxN (empty_place demo (player_new demo piece_type.black (some "MCTS") 0)
          demo.board0) : Int) + 1 :=
  first_search_root_visits demo_measured demo_shuffles 5 piece_type.black 0 demo.board0
    (Or.inl rfl) (by decide)

/-- C5, as the claim has it, fails: for a new player for black on the empty
board of the small game the first search runs 50000 iterations and ends with
visit count 50001 at the root. -/
theorem first_search_counterexample :
    maxN (empty_place demo demo_player demo.board0) = 50000 ∧
    ∃ st1, search demo 5 demo_player demo.board0 = some st1 ∧
      (st1.heap st1.root).nb = 50001 := by
  have h4 : empty_place demo demo_player demo.board0 = 4 := by decide
  obtain ⟨st1, h1, h2⟩ := first_search_root_nb demo_measured demo_shuffles 5
    piece_type.black 0 demo.board0 (Or.inl rfl) (by decide)
  refine ⟨by rw [h4]; rfl, st1, h1, ?_⟩
  have h5 : empty_place demo (player_new demo piece_type.black (some "MCTS") 0)
      demo.board0 = 4 := h4
  rw [h2, h5]
  rfl

/-- C6: in every iteration, with trajectory `n_0` (the root) to `n_k` (the
node where the descent stopped, `k = t_idx`) and `v` the value handed to
`updateValue` at `n_k`, the backpropagation adds `(-1)^(k-i) * v` to the
value of `n_i` and 1 to its visit count, for every `i ≤ k`, and leaves every
node outside the trajectory as it was.  The trajectory is kept newest first,
so `n_i` is its entry `k - i`. -/
theorem backprop_alternates {G : Game Board Engine} {μ : Board → Nat} (hμ : G.measured μ)
    (hs : G.shuffles) (fuel : Nat) (st : player Board Engine) (hinv : inv_search G st)
    (hfuel : μ (st.heap st.root).state < fuel) :
    ∃ trajectory t_idx max_v st1 st2,
      descend G fuel fuel [st.root] 0 st.who (-1) st = some (trajectory, t_idx, max_v, st1) ∧
      playOneSequence G fuel st = some st2 ∧
      trajectory.length = t_idx + 1 ∧
      trajectory[t_idx]? = some st.root ∧
      (∀ i p, i ≤ t_idx → trajectory[t_idx - i]? = some p →
        (st2.heap p).value = (st1.heap p).value +
          (-1) ^ (t_idx - i) * to_int (if t_idx % 2 = 1 then max_v * -1 else max_v) ∧
        (st2.heap p).nb = (st1.heap p).nb + 1) ∧
      (∀ p, p ∉ trajectory → st2.heap p = st1.heap p) := by
  obtain ⟨col, hok, hvis, hcol⟩ := hinv
  have hroot : st.root < st.next := hok.2.1
  obtain ⟨r, hr1, hr2⟩ := descend_spec hμ hs fuel fuel st.root [] 0 st.who (-1) st col hok hvis
    (by
      intro q hq
      rcases List.mem_cons.1 hq with h | h
      · rw [h]; exact hroot
      · simp at h)
    (List.pairwise_singleton _ _) hcol hfuel (le_refl _)
  obtain ⟨traj, t, v, st1⟩ := r
  obtain ⟨ext, hx1, hx2⟩ := hr2.extends_trajectory
  have hx1 : traj = ext ++ [st.root] := hx1
  have hx2 : t = 0 + ext.length := hx2
  have hnd : traj.Nodup := hr2.decreasing.imp (fun h => Nat.ne_of_gt h)
  refine ⟨traj, t, v, st1, _, hr1, by unfold playOneSequence; rw [hr1], ?_, ?_, ?_, ?_⟩
  · rw [hx1, hx2]
    simp
  · rw [hx1, hx2]
    simp
  · intro i p _ hp
    have hmem : p ∈ traj := List.mem_iff_getElem?.2 ⟨_, hp⟩
    refine ⟨backprop_value traj st1.heap _ hnd _ p hp, ?_⟩
    show (backprop st1.heap traj _ p).nb = (st1.heap p).nb + 1
    rw [(backprop_frame traj st1.heap _ p).2.2, List.count_eq_one_of_mem hnd hmem]
    rfl
  · intro p hp
    exact backprop_not_mem traj st1.heap _ p hp

theorem backprop_alternates_witness :
    ∃ trajectory t_idx max_v st1 st2,
      descend demo 5 5 [(root_lookup demo_player demo.board0).root] 0
        (root_lookup demo_player demo.board0).who (-1) (root_lookup demo_player demo.board0) =
        some (trajectory, t_idx, max_v, st1) ∧
      playOneSequence demo 5 (root_lookup demo_player demo.board0) = some st2 ∧
      trajectory.length = t_idx + 1 ∧
      trajectory[t_idx]? = some (root_lookup demo_player demo.board0).root ∧
      (∀ i p, i ≤ t_idx → trajectory[t_idx - i]? = some p →
        (st2.heap p).value = (st1.heap p).value +
          (-1) ^ (t_idx - i) * to_int (if t_idx % 2 = 1 then max_v * -1 else max_v) ∧
        (st2.heap p).nb = (st1.heap p).nb + 1) ∧
      (∀ p, p ∉ trajectory → st2.heap p = st1.heap p) :=
  backprop_alternates demo_measured demo_shuffles 5 (root_lookup demo_player demo.board0)
    (root_lookup_spec demo_player demo.board0 demo_player_inv).1 (by decide)

theorem findNode_fresh_spec [DecidableEq Board] (heap : Nat → node Board) (next p : Nat)
    (state : Board) (h : ∀ kv ∈ (heap p).child, (heap kv.2).state ≠ state) :
    (findNode heap next p state).2.2 = next ∧
    (findNode heap next p state).2.1 = next + 1 ∧
    (findNode heap next p state).1 next = ⟨state, 0, 1, []⟩ ∧
    ∀ q, q ≠ next → (findNode heap next p state).1 q = heap q := by
  have hf : (heap p).child.find? (fun kv => decide ((heap kv.2).state = state)) = none := by
    rw [List.find?_eq_none]
    intro kv hkv
    simpa using h kv hkv
  rw [findNode_fresh hf]
  refine ⟨rfl, rfl, by simp [make_shared], ?_⟩
  intro q hq
  simp [make_shared, Function.update_noteq hq]

/-- C7, as the code has it: `findNode(s)` on a node none of whose children
holds a state equal to `s` returns a new node (at the next unused address)
with state `s`, value 0, visit count 1 and no children, and changes no other
node. -/
theorem findNode_returns_fresh_node [DecidableEq Board] (heap : Nat → node Board)
    (next p : Nat) (state : Board)
    (h : ∀ kv ∈ (heap p).child, (heap kv.2).state ≠ state) :
    (findNode heap next p state).2.2 = next ∧
    (findNode heap next p state).2.1 = next + 1 ∧
    (findNode heap next p state).1 (findNode heap next p state).2.2 = ⟨state, 0, 1, []⟩ ∧
    ∀ q, q ≠ next → (findNode heap next p state).1 q = heap q := by
  obtain ⟨h1, h2, h3, h4⟩ := findNode_fresh_spec heap next p state h
  exact ⟨h1, h2, by rw [h1]; exact h3, h4⟩

theorem findNode_returns_fresh_node_witness :
    (findNode demo_player.heap demo_player.next demo_player.root demo_full).2.2 =
      demo_player.next ∧
    (findNode demo_player.heap demo_player.next demo_player.root demo_full).2.1 =
      demo_player.next + 1 ∧
    (findNode demo_player.heap demo_player.next demo_player.root demo_full).1
        (findNode demo_player.heap demo_player.next demo_player.root demo_full).2.2 =
      ⟨demo_full, 0, 1, []⟩ ∧
    ∀ q, q ≠ demo_player.next →
      (findNode demo_player.heap demo_player.next demo_player.root demo_full).1 q =
        demo_player.heap q :=
  findNode_returns_fresh_node demo_player.heap demo_player.next demo_player.root demo_full
    (by simp [demo_player, player_new, make_shared])

/-- C7, as the claim has it, fails: on the root of a new player, which has
no child, `findNode` returns a node whose visit count is 1, not 0. -/
theorem findNode_fresh_counterexample :
    (demo_player.heap demo_player.root).child = [] ∧
    ((findNode demo_player.heap demo_player.next demo_player.root demo_full).1
      (findNode demo_player.heap demo_player.next demo_player.root demo_full).2.2).nb = 1 ∧
    ((findNode demo_player.heap demo_player.next demo_player.root demo_full).1
      (findNode demo_player.heap demo_player.next demo_player.root demo_full).2.2).nb ≠ 0 := by
  have hc : (demo_player.heap demo_player.root).child = [] := by
    simp [demo_player, player_new, make_shared]
  obtain ⟨h1, _, h3, _⟩ := findNode_fresh_spec demo_player.heap demo_player.next
    demo_player.root demo_full (by rw [hc]; simp)
  rw [h1, h3]
  exact ⟨hc, rfl, by decide⟩

/-- C8: the search of `take_action(state)` starts from the root given by
`root->findNode(state)`; the position stored at that root equals `state`,
and when some child of the persisted root holds a position equal to `state`,
that root is such a child and the store is left as it was, so the child keeps
its value, visit count and children. -/
theorem search_root_matches_state [DecidableEq Board] (G : Game Board Engine) (fuel : Nat)
    (st : player Board Engine) (state : Board) :
    search G fuel st state =
      iterate_N G fuel (maxN (empty_place G st state)) (root_lookup st state) ∧
    ((root_lookup st state).heap (root_lookup st state).root).state = state ∧
    ((∃ kv, kv ∈ (st.heap st.root).child ∧ (st.heap kv.2).state = state) →
      (∃ kv, kv ∈ (st.heap st.root).child ∧ (root_lookup st state).root = kv.2) ∧
      (root_lookup st state).heap = st.heap ∧
      (root_lookup st state).next = st.next) := by
  refine ⟨rfl, ?_, ?_⟩
  · cases hf : (st.heap st.root).child.find? (fun kv => decide ((st.heap kv.2).state = state)) with
    | some kv =>
      unfold root_lookup
      rw [findNode_found hf]
      simpa using List.find?_some hf
    | none =>
      unfold root_lookup
      rw [findNode_fresh hf]
      simp [make_shared]
  · intro hex
    cases hf : (st.heap st.root).child.find? (fun kv => decide ((st.heap kv.2).state = state)) with
    | some kv =>
      unfold root_lookup
      rw [findNode_found hf]
      exact ⟨⟨kv, List.mem_of_find?_eq_some hf, rfl⟩, rfl, rfl⟩
    | none =>
      obtain ⟨kv, hkv, hst⟩ := hex
      have := List.find?_eq_none.1 hf kv hkv
      simp [hst] at this

/-- C9: the search returns, and whenever the searched root has a child when
the search ends, `take_action` returns a placement on a cell `m` and the
persisted root becomes the child stored under `m`; the store is not changed
by this step, so that child keeps its value, its children and its visit
count, which is at least 1. -/
theorem root_advance_keeps_child [DecidableEq Board] {G : Game Board Engine}
    {μ : Board → Nat} (hμ : G.measured μ) (hs : G.shuffles) (fuel : Nat)
    (st : player Board Engine) (state : Board) (hinv : inv G st)
    (hmode : st.playername = "MCTS") (hfuel : μ state < fuel) :
    ∃ st1, search G fuel st state = some st1 ∧
      ((st1.heap st1.root).child ≠ [] →
        ∃ m st2, take_action G fuel st state = some (action.place m st.who, st2) ∧
          (st1.heap st1.root).child.lookup m = some st2.root ∧
          st2.heap = st1.heap ∧ st2.next = st1.next ∧
          (st2.heap st2.root).nb = (st1.heap st2.root).nb ∧
          (st2.heap st2.root).value = (st1.heap st2.root).value ∧
          (st2.heap st2.root).child = (st1.heap st2.root).child ∧
          1 ≤ (st2.heap st2.root).nb) := by
  obtain ⟨st1, h1, p1⟩ := search_spec hμ hs fuel st state hinv hfuel
  obtain ⟨col, ⟨_, hr, _, he⟩, hvis, _⟩ := p1.inv_kept
  have hw : st1.who = st.who := p1.who_eq
  refine ⟨st1, h1, ?_⟩
  intro hc
  obtain ⟨c, hl, _⟩ := max_idx_spec st1 hc
  have hc2 := (he st1.root (max_idx st1) c hr (lookup_mem hl)).2.1
  have hroot : (root_advance st1).2.root = c := by
    simp only [root_advance, hl]
  refine ⟨max_idx st1, (root_advance st1).2, ?_, ?_, rfl, rfl, rfl, rfl, rfl, ?_⟩
  · rw [take_action_search G fuel st state hmode h1, ← hw]
    rfl
  · rw [hroot]
    exact hl
  · rw [hroot]
    exact hvis c hc2

theorem root_advance_keeps_child_witness :
    ∃ st1, search demo 5 demo_player demo.board0 = some st1 ∧
      ((st1.heap st1.root).child ≠ [] →
        ∃ m st2, take_action demo 5 demo_player demo.board0 =
            some (action.place m demo_player.who, st2) ∧
          (st1.heap st1.root).child.lookup m = some st2.root ∧
          st2.heap = st1.heap ∧ st2.next = st1.next ∧
          (st2.heap st2.root).nb = (st1.heap st2.root).nb ∧
          (st2.heap st2.root).value = (st1.heap st2.root).value ∧
          (st2.heap st2.root).child = (st1.heap st2.root).child ∧
          1 ≤ (st2.heap st2.root).nb) :=
  root_advance_keeps_child demo_measured demo_shuffles 5 demo_player demo.board0
    demo_player_inv rfl (by decide)

theorem range_perm_mem {l : List Nat} {n : Nat} (h : l.Perm (List.range n)) (i : Nat) :
    i ∈ l ↔ i < n := by
  rw [h.mem_iff, List.mem_range]

/-- C12: when the search is not `MCTS`, `take_action` shuffles `space` once
and returns the placement, by the player's side, on the first cell in the
shuffled order where that placement is legal on the given position; it
returns the null action exactly when no cell has a legal placement. -/
theorem fallback_returns_first_legal [DecidableEq Board] {G : Game Board Engine}
    (hs : G.shuffles) (fuel : Nat) (st : player Board Engine) (state : Board)
    (hmode : st.playername ≠ "MCTS") (hsp : st.space.Perm (List.range G.cells)) :
    ∃ a st1, take_action G fuel st state = some (a, st1) ∧
      st1.space = (G.shuffle st.engine st.space).1 ∧
      st1.space.Perm (List.range G.cells) ∧
      ((∃ pre i post, st1.space = pre ++ i :: post ∧ i < G.cells ∧
          (∀ j ∈ pre, legal G state j st.who = false) ∧
          legal G state i st.who = true ∧ a = action.place i st.who) ∨
        (a = action.null ∧ ∀ i, i < G.cells → legal G state i st.who = false)) ∧
      (a = action.null ↔ ∀ i, i < G.cells → legal G state i st.who = false) := by
  have hperm : (G.shuffle st.engine st.space).1.Perm (List.range G.cells) := (hs _ _).trans hsp
  unfold take_action
  rw [if_neg hmode]
  cases hf : (G.shuffle st.engine st.space).1.find? (fun i => legal G state i st.who) with
  | some i =>
    obtain ⟨hi, pre, post, hdec, hpre⟩ := List.find?_eq_some.1 hf
    have hmem : i ∈ (G.shuffle st.engine st.space).1 := by rw [hdec]; simp
    have hlt : i < G.cells := (range_perm_mem hperm i).1 hmem
    refine ⟨_, _, rfl, rfl, hperm, Or.inl ⟨pre, i, post, hdec, hlt, ?_, hi, rfl⟩, ?_⟩
    · intro j hj
      simpa using hpre j hj
    · constructor
      · intro h
        exact absurd h (by simp)
      · intro h
        rw [h i hlt] at hi
        exact absurd hi (by simp)
  | none =>
    have hno : ∀ i, i < G.cells → legal G state i st.who = false := by
      intro i hi
      have := List.find?_eq_none.1 hf i ((range_perm_mem hperm i).2 hi)
      simpa using this
    exact ⟨_, _, rfl, rfl, hperm, Or.inr ⟨rfl, hno⟩, fun _ => hno, fun _ => rfl⟩

theorem fallback_returns_first_legal_witness :
    ∃ a st1, take_action demo 0 (player_new demo piece_type.white none 0) demo_full =
        some (a, st1) ∧
      st1.space = (demo.shuffle (player_new demo piece_type.white none 0).engine
        (player_new demo piece_type.white none 0).space).1 ∧
      st1.space.Perm (List.range demo.cells) ∧
      ((∃ pre i post, st1.space = pre ++ i :: post ∧ i < demo.cells ∧
          (∀ j ∈ pre, legal demo demo_full j (player_new demo piece_type.white none 0).who
            = false) ∧
          legal demo demo_full i (player_new demo piece_type.white none 0).who = true ∧
          a = action.place i (player_new demo piece_type.white none 0).who) ∨
        (a = action.null ∧ ∀ i, i < demo.cells →
          legal demo demo_full i (player_new demo piece_type.white none 0).who = false)) ∧
      (a = action.null ↔ ∀ i, i < demo.cells →
        legal demo demo_full i (player_new demo piece_type.white none 0).who = false) :=
  fallback_returns_first_legal demo_shuffles 0 (player_new demo piece_type.white none 0)
    demo_full (by decide) (List.Perm.refl _)

/-- C13: the selection score of line 191 divides the two `int` fields, so
its first term is the truncated quotient and not the exact mean: for a child
with value -1 and 2 visits under a parent with 1 visit, the score in the
small game is 0, while the exact mean would give 1/2. -/
theorem ucb_score_truncates :
    ucb_score demo ⟨demo.board0, -1, 2, []⟩ 1 = 0 ∧
    ((Int.tdiv (-(-1)) 2 : Int) : ℚ) = 0 ∧
    -(((-1 : Int) : ℚ) / ((2 : Int) : ℚ)) + demo.sqrt_2log 1 / ((2 : Int) : ℚ) = 1 / 2 := by
  refine ⟨?_, ?_, ?_⟩
  · have h1 : demo.sqrt_2log 1 = 0 := rfl
    have h2 : ((Int.tdiv (-(-1)) 2 : Int) : ℚ) = 0 := by decide
    unfold ucb_score
    simp only [h1, h2, zero_div, to_double_zero, add_zero, to_float_zero]
  · decide
  · simp [demo]
    norm_num

theorem lookup_filter_ne (m : List (List Char × List Char)) (k k1 : List Char) (h : k1 ≠ k) :
    (m.filter (fun kv => kv.1 ≠ k)).lookup k1 = m.lookup k1 := by
  induction m with
  | nil => rfl
  | cons kv rest ih =>
    obtain ⟨a, b⟩ := kv
    by_cases ha : a = k
    · subst ha
      have h1 : (k1 == a) = false := by simpa using h
      simp only [List.filter_cons, List.lookup_cons, h1, ne_eq, not_true_eq_false,
        decide_False, Bool.false_eq_true, if_false]
      exact ih
    · by_cases hk : k1 = a
      · subst hk
        simp [List.filter_cons, List.lookup_cons, ha]
      · have h1 : (k1 == a) = false := by simpa using hk
        simp only [List.filter_cons, List.lookup_cons, h1, ne_eq, ha, not_false_eq_true,
          decide_True, if_true]
        exact ih

theorem lookup_meta_set (m : List (List Char × List Char)) (k v k1 : List Char) :
    (meta_set m k v).lookup k1 = if k1 = k then some v else m.lookup k1 := by
  unfold meta_set
  by_cases h : k1 = k
  · subst h
    simp [List.lookup_cons]
  · have h1 : (k1 == k) = false := by simpa using h
    rw [if_neg h, List.lookup_cons, h1]
    exact lookup_filter_ne m k k1 h

theorem lookup_foldl_meta_set (pairs : List (List Char)) :
    ∀ (m : List (List Char × List Char)) (k : List Char),
      (pairs.foldl (fun m pair => meta_set m (key_of pair) (value_of pair)) m).lookup k =
        match pairs.reverse.find? (fun p => decide (key_of p = k)) with
        | some p => some (value_of p)
        | none => m.lookup k := by
  induction pairs with
  | nil => intro m k; rfl
  | cons p rest ih =>
    intro m k
    rw [List.foldl_cons, ih, List.reverse_cons, List.find?_append]
    cases hf : rest.reverse.find? (fun p => decide (key_of p = k)) with
    | some q => rfl
    | none =>
      simp only [Option.none_or, List.find?_cons, List.find?_nil]
      rw [lookup_meta_set]
      by_cases hk : key_of p = k
      · simp [hk]
      · have hk1 : ¬ k = key_of p := fun h => hk h.symm
        simp [hk, hk1]

theorem read_pairs_player (args : List Char) :
    read_pairs ("name=unknown role=unknown ".toList ++
        ("name=random role=unknown ".toList ++ args)) [] =
      "name=unknown".toList :: "role=unknown".toList :: "name=random".toList ::
        "role=unknown".toList :: read_pairs args [] := by
  rfl

theorem player_meta_lookup (args k : List Char) :
    (player_meta args).lookup k =
      match (read_pairs args []).reverse.find? (fun p => decide (key_of p = k)) with
      | some p => some (value_of p)
      | none =>
        if k = "role".toList then some "unknown".toList
        else if k = "name".toList then some "random".toList
        else none := by
  unfold player_meta agent_meta read_meta
  rw [read_pairs_player, lookup_foldl_meta_set]
  simp only [List.reverse_cons, List.append_assoc, List.find?_append]
  cases (read_pairs args []).reverse.find? (fun p => decide (key_of p = k)) with
  | some q => rfl
  | none =>
    simp only [Option.none_or]
    by_cases h1 : k = "role".toList
    · subst h1
      rfl
    · by_cases h2 : k = "name".toList
      · subst h2
        rfl
      · rw [if_neg h1, if_neg h2]
        have t1 : "role".toList = ['r', 'o', 'l', 'e'] := by decide
        have t2 : "name".toList = ['n', 'a', 'm', 'e'] := by decide
        rw [t1] at h1
        rw [t2] at h2
        have e1 : key_of ['r', 'o', 'l', 'e', '=', 'u', 'n', 'k', 'n', 'o', 'w', 'n'] =
            ['r', 'o', 'l', 'e'] := by decide
        have e2 : key_of ['n', 'a', 'm', 'e', '=', 'r', 'a', 'n', 'd', 'o', 'm'] =
            ['n', 'a', 'm', 'e'] := by decide
        have e3 : key_of ['n', 'a', 'm', 'e', '=', 'u', 'n', 'k', 'n', 'o', 'w', 'n'] =
            ['n', 'a', 'm', 'e'] := by decide
        have h1s : ¬ ['r', 'o', 'l', 'e'] = k := fun h => h1 h.symm
        have h2s : ¬ ['n', 'a', 'm', 'e'] = k := fun h => h2 h.symm
        simp [List.find?_cons, e1, e2, e3, h1s, h2s]

theorem bad_name_iff (name : List Char) :
    bad_name name = true ↔ ∃ c ∈ name, c ∈ ['[', ']', '(', ')', ':', ';', ' '] := by
  unfold bad_name
  rw [List.any_eq_true]
  have : "[]():; ".toList = ['[', ']', '(', ')', ':', ';', ' '] := by decide
  rw [this]
  constructor
  · rintro ⟨c, h1, h2⟩
    exact ⟨c, h1, by simpa using h2⟩
  · rintro ⟨c, h1, h2⟩
    exact ⟨c, h1, by simpa using h2⟩

theorem role_who_empty_iff (role : List Char) :
    role_who role = piece_type.empty ↔ role ≠ "black".toList ∧ role ≠ "white".toList := by
  unfold role_who
  by_cases h1 : role = "white".toList
  · rw [if_pos h1]
    exact ⟨fun h => absurd h (by decide), fun h => absurd h1 h.2⟩
  · rw [if_neg h1]
    by_cases h2 : role = "black".toList
    · rw [if_pos h2]
      exact ⟨fun h => absurd h (by decide), fun h => absurd h2 h.1⟩
    · rw [if_neg h2]
      exact ⟨fun _ => ⟨h2, h1⟩, fun _ => rfl⟩

theorem player_ctor_seeded (G : Game Board Engine) (stod : List Char → Option Int)
    (seed : Engine → Int → Engine) (engine0 : Engine) (args : List Char)
    (hseed : ∀ v, (player_meta args).lookup "seed".toList = some v → ∃ n, stod v = some n) :
    ∃ engine, player_ctor G stod seed engine0 args =
      if bad_name (effective_name args) = true then
        Except.error (ctor_error.invalid_name (effective_name args))
      else if role_who (effective_role args) = piece_type.empty then
        Except.error (ctor_error.invalid_role (effective_role args))
      else
        Except.ok (player_new G (role_who (effective_role args))
          (((player_meta args).lookup "search".toList).map String.mk) engine) := by
  unfold player_ctor seeded_engine
  cases hl : (player_meta args).lookup "seed".toList with
  | none => exact ⟨engine0, rfl⟩
  | some v =>
    obtain ⟨n, hn⟩ := hseed v hl
    simp only [hn]
    exact ⟨seed engine0 n, rfl⟩

theorem player_ctor_seed_rejected (G : Game Board Engine) (stod : List Char → Option Int)
    (seed : Engine → Int → Engine) (engine0 : Engine) (args v : List Char)
    (hl : (player_meta args).lookup "seed".toList = some v) (hv : stod v = none) :
    player_ctor G stod seed engine0 args = Except.error ctor_error.seed_conversion := by
  unfold player_ctor seeded_engine
  simp only [hl, hv]

theorem player_new_who (G : Game Board Engine) (who : piece_type) (search : Option String)
    (e : Engine) : (player_new G who search e).who = who := by
  cases search <;> rfl

/-- C11, as the code has it: when no `seed` is given, or `std::stod` converts
its value, `player::player(args)` throws "invalid name" exactly when the
effective name (the value of the last word of `args` with key `name`,
`random` when there is none) contains one of `[ ] ( ) : ;` or a space;
otherwise it throws "invalid role" exactly when the effective role (the last
word with key `role`, `unknown` when there is none) is neither `black` nor
`white`; in the remaining cases a player is made.  `role=red` gives invalid
role and `name=a:b` gives invalid name. -/
theorem player_ctor_validation (G : Game Board Engine) (stod : List Char → Option Int)
    (seed : Engine → Int → Engine) (engine0 : Engine) (args : List Char)
    (hseed : ∀ v, (player_meta args).lookup "seed".toList = some v → ∃ n, stod v = some n) :
    ((∃ n, player_ctor G stod seed engine0 args = Except.error (ctor_error.invalid_name n)) ↔
      ∃ c ∈ effective_name args, c ∈ ['[', ']', '(', ')', ':', ';', ' ']) ∧
    ((¬ ∃ c ∈ effective_name args, c ∈ ['[', ']', '(', ')', ':', ';', ' ']) →
      ((∃ r, player_ctor G stod seed engine0 args =
          Except.error (ctor_error.invalid_role r)) ↔
        (effective_role args ≠ "black".toList ∧ effective_role args ≠ "white".toList))) ∧
    ((¬ ∃ c ∈ effective_name args, c ∈ ['[', ']', '(', ')', ':', ';', ' ']) →
      (effective_role args = "black".toList ∨ effective_role args = "white".toList) →
      ∃ p, player_ctor G stod seed engine0 args = Except.ok p ∧
        (p.who = piece_type.black ∨ p.who = piece_type.white)) ∧
    effective_name args =
      (match (read_pairs args []).reverse.find? (fun p => decide (key_of p = "name".toList)) with
        | some p => value_of p
        | none => "random".toList) ∧
    effective_role args =
      (match (read_pairs args []).reverse.find? (fun p => decide (key_of p = "role".toList)) with
        | some p => value_of p
        | none => "unknown".toList) ∧
    player_ctor G stod seed engine0 "role=red".toList =
      Except.error (ctor_error.invalid_role "red".toList) ∧
    player_ctor G stod seed engine0 "name=a:b".toList =
      Except.error (ctor_error.invalid_name "a:b".toList) := by
  obtain ⟨engine, he⟩ := player_ctor_seeded G stod seed engine0 args hseed
  refine ⟨?_, ?_, ?_, ?_, ?_, rfl, rfl⟩
  · rw [he, ← bad_name_iff]
    by_cases hb : bad_name (effective_name args) = true
    · rw [if_pos hb]
      exact ⟨fun _ => hb, fun _ => ⟨_, rfl⟩⟩
    · rw [if_neg hb]
      constructor
      · rintro ⟨n, hn⟩
        split_ifs at hn
        cases hn
      · intro h
        exact absurd h hb
  · intro hb
    rw [← bad_name_iff] at hb
    rw [he, if_neg hb, ← role_who_empty_iff]
    by_cases hr : role_who (effective_role args) = piece_type.empty
    · rw [if_pos hr]
      exact ⟨fun _ => hr, fun _ => ⟨_, rfl⟩⟩
    · rw [if_neg hr]
      constructor
      · rintro ⟨r, h⟩
        cases h
      · intro h
        exact absurd h hr
  · intro hb hr
    rw [← bad_name_iff] at hb
    have hne : ¬ role_who (effective_role args) = piece_type.empty := by
      rw [role_who_empty_iff]
      rintro ⟨h1, h2⟩
      rcases hr with h | h
      · exact h1 h
      · exact h2 h
    rw [he, if_neg hb, if_neg hne]
    refine ⟨_, rfl, ?_⟩
    rw [player_new_who]
    rcases hr with h | h
    · left; rw [h]; decide
    · right; rw [h]; decide
  · unfold effective_name
    rw [player_meta_lookup]
    cases (read_pairs args []).reverse.find? (fun p => decide (key_of p = "name".toList)) with
    | some p => rfl
    | none => rfl
  · unfold effective_role
    rw [player_meta_lookup]
    cases (read_pairs args []).reverse.find? (fun p => decide (key_of p = "role".toList)) with
    | some p => rfl
    | none => rfl

theorem player_ctor_validation_witness :
    ((∃ n, player_ctor demo demo_stod (fun _ n => n.toNat) 0 "name=a:b seed=7".toList =
        Except.error (ctor_error.invalid_name n)) ↔
      ∃ c ∈ effective_name "name=a:b seed=7".toList, c ∈ ['[', ']', '(', ')', ':', ';', ' ']) ∧
    effective_name "name=a:b seed=7".toList = "a:b".toList :=
  ⟨(player_ctor_validation demo demo_stod (fun _ n => n.toNat) 0 "name=a:b seed=7".toList
      (by
        intro v hv
        have h7 : (player_meta "name=a:b seed=7".toList).lookup "seed".toList =
            some "7".toList := by decide
        rw [h7] at hv
        simp only [Option.some.injEq] at hv
        subst hv
        exact ⟨7, by decide⟩)).1,
    by decide⟩

/-- C11, as the claim has it, fails: with `role=black seed=x` the name and
the role are valid, yet the constructor ends with the exception of the seed
conversion; with `name=a:b seed=x` the name is invalid, yet the exception is
again that of the seed conversion, thrown before the name is tested. -/
theorem player_ctor_seed_counterexample :
    ctor_failure (demo_ctor "role=black seed=x") = some ctor_error.seed_conversion ∧
    bad_name (effective_name "role=black seed=x".toList) = false ∧
    effective_role "role=black seed=x".toList = "black".toList ∧
    ctor_failure (demo_ctor "name=a:b seed=x") = some ctor_error.seed_conversion ∧
    bad_name (effective_name "name=a:b seed=x".toList) = true := by
  decide

theorem first_legal_none {G : Game Board Engine} {s : Board} {w : piece_type} {l : List Nat}
    (h : first_legal G s w l = none) : ∀ i ∈ l, G.apply s i w = none := by
  induction l with
  | nil => intro i hi; simp at hi
  | cons j rest ih =>
    unfold first_legal at h
    cases ha : G.apply s j w with
    | some b =>
      rw [ha] at h
      simp at h
    | none =>
      rw [ha] at h
      intro i hi
      rcases List.mem_cons.1 hi with h1 | h1
      · rw [h1]; exact ha
      · exact ih h i h1

theorem who_change_ne (w : piece_type) (h : w = piece_type.black ∨ w = piece_type.white) :
    who_change w ≠ w := by
  rcases h with h | h <;> subst h <;> decide

theorem simulate_spec {G : Game Board Engine} {μ : Board → Nat} (hμ : G.measured μ)
    (hs : G.shuffles) :
    ∀ (fuel : Nat) (w : piece_type) (sp : List Nat) (s : Board) (e : Engine),
      sp.Perm (List.range G.cells) → μ s < fuel →
      ∃ stuck e1 moves final, simulate G fuel w sp s e = some (stuck, e1) ∧
        play_out G s w moves = some (final, stuck) ∧
        stuck = who_change^[moves.length] w ∧
        (∀ m ∈ moves, m < G.cells) ∧
        ∀ i, i < G.cells → G.apply final i stuck = none := by
  intro fuel
  induction fuel with
  | zero => intro w sp s e _ h; exact absurd h (Nat.not_lt_zero _)
  | succ n ih =>
    intro w sp s e hsp hlt
    have hperm : (G.shuffle e sp).1.Perm (List.range G.cells) := (hs _ _).trans hsp
    unfold simulate
    cases hf : first_legal G s w (G.shuffle e sp).1 with
    | none =>
      refine ⟨w, _, [], s, rfl, rfl, rfl, by simp, ?_⟩
      intro i hi
      exact first_legal_none hf i ((range_perm_mem hperm i).2 hi)
    | some after =>
      obtain ⟨i, hi, hia⟩ := first_legal_some hf
      have := hμ _ _ _ _ hia
      obtain ⟨stuck, e1, moves, final, h1, h2, h3, h4, h5⟩ :=
        ih (who_change w) (G.shuffle e sp).1 after (G.shuffle e sp).2 hperm (by omega)
      refine ⟨stuck, e1, i :: moves, final, h1, ?_, ?_, ?_, h5⟩
      · unfold play_out
        rw [hia]
        exact h2
      · rw [h3, List.length_cons, Function.iterate_succ_apply]
      · intro m hm
        rcases List.mem_cons.1 hm with h6 | h6
        · rw [h6]; exact (range_perm_mem hperm i).1 hi
        · exact h4 m h6

/-- C17: when every legal placement lowers the measure of the board, the
playout that follows the expansion of a move by `who_now` returns (with
enough fuel); the side it reports has no legal placement in the final
position, and that position is reached from the position of the new node by
legal placements of sides that alternate, the first being the opponent of
`who_now`. -/
theorem playout_ends_stuck {G : Game Board Engine} {μ : Board → Nat} (hμ : G.measured μ)
    (hs : G.shuffles) (fuel : Nat) (who_now : piece_type) (sim_space : List Nat)
    (after : Board) (e : Engine)
    (hw : who_now = piece_type.black ∨ who_now = piece_type.white)
    (hsp : sim_space.Perm (List.range G.cells)) (hfuel : μ after < fuel) :
    ∃ stuck e1 moves final,
      simulate G fuel (who_change who_now) sim_space after e = some (stuck, e1) ∧
      play_out G after (who_change who_now) moves = some (final, stuck) ∧
      stuck = who_change^[moves.length + 1] who_now ∧
      (∀ m ∈ moves, m < G.cells) ∧
      (∀ i, i < G.cells → legal G final i stuck = false) ∧
      who_change who_now ≠ who_now ∧ who_change (who_change who_now) = who_now := by
  obtain ⟨stuck, e1, moves, final, h1, h2, h3, h4, h5⟩ :=
    simulate_spec hμ hs fuel (who_change who_now) sim_space after e hsp hfuel
  refine ⟨stuck, e1, moves, final, h1, h2, ?_, h4, ?_, who_change_ne who_now hw,
    who_change_who_change who_now⟩
  · rw [h3, Function.iterate_succ_apply]
  · intro i hi
    simp [legal, h5 i hi]

theorem playout_ends_stuck_witness :
    ∃ stuck e1 moves final,
      simulate demo 5 (who_change piece_type.black) (List.range 4)
        [piece_type.black, piece_type.empty, piece_type.empty, piece_type.empty] 0 =
        some (stuck, e1) ∧
      play_out demo [piece_type.black, piece_type.empty, piece_type.empty, piece_type.empty]
        (who_change piece_type.black) moves = some (final, stuck) ∧
      stuck = who_change^[moves.length + 1] piece_type.black ∧
      (∀ m ∈ moves, m < demo.cells) ∧
      (∀ i, i < demo.cells → legal demo final i stuck = false) ∧
      who_change piece_type.black ≠ piece_type.black ∧
      who_change (who_change piece_type.black) = piece_type.black :=
  playout_ends_stuck demo_measured demo_shuffles 5 piece_type.black (List.range 4)
    [piece_type.black, piece_type.empty, piece_type.empty, piece_type.empty] 0
    (Or.inl rfl) (List.Perm.refl _) (by decide)

theorem scan_moves_detail {G : Game Board Engine} {μ : Board → Nat} (hμ : G.measured μ)
    (fuel : Nat) (who_now : piece_type) (cur : Nat) (childs : List (Nat × Nat))
    (st : player Board Engine)
    (hfuel : μ (st.heap cur).state ≤ fuel)
    (hnb : ∀ m c, childs.lookup m = some c → (st.heap c).nb ≠ 0) :
    ∀ (moves : List Nat) (max_v : Option ℚ) (nextNode : Option Nat),
      (max_v ≠ none → ∃ m c, nextNode = some c ∧ childs.lookup m = some c) →
      ∃ mv nn st1,
        scan_moves G fuel who_now cur childs moves max_v nextNode st = some (mv, nn, st1) ∧
        ((st1 = st ∧
            (∀ m ∈ moves, childs.lookup m = none →
              G.apply (st.heap cur).state m who_now = none) ∧
            (mv = none → max_v = none ∧ ∀ m ∈ moves, childs.lookup m = none) ∧
            (mv ≠ none → ∃ m c, nn = some c ∧ childs.lookup m = some c)) ∨
          (∃ pre m post after e stuck, moves = pre ++ m :: post ∧
            (∀ m1 ∈ pre, childs.lookup m1 = none →
              G.apply (st.heap cur).state m1 who_now = none) ∧
            childs.lookup m = none ∧
            G.apply (st.heap cur).state m who_now = some after ∧
            simulate G fuel (who_change who_now) st.move_space after st.engine =
              some (stuck, e) ∧
            mv = some (if stuck ≠ st.who then 1 else 0) ∧ nn = some st.next ∧
            st1 = expand st cur m after e)) := by
  intro moves
  induction moves with
  | nil =>
    intro max_v nextNode hacc
    refine ⟨max_v, nextNode, st, rfl, Or.inl ⟨rfl, by simp, ?_, hacc⟩⟩
    intro h
    exact ⟨h, by simp⟩
  | cons m rest ih =>
    intro max_v nextNode hacc
    unfold scan_moves
    cases hl : childs.lookup m with
    | some c =>
      simp only
      rw [if_neg (hnb m c hl)]
      by_cases hg : gt_score (ucb_score G (st.heap c) (st.heap cur).nb) max_v = true
      · rw [if_pos hg]
        obtain ⟨mv, nn, st1, he, hr⟩ :=
          ih (some (ucb_score G (st.heap c) (st.heap cur).nb)) (some c)
            (fun _ => ⟨m, c, rfl, hl⟩)
        refine ⟨mv, nn, st1, he, ?_⟩
        rcases hr with ⟨h1, h0, h2, h3⟩ | ⟨pre, m1, post, after, e, stuck, h1, h2, h3, h4, h5, h6⟩
        · refine Or.inl ⟨h1, ?_, ?_, h3⟩
          · intro m2 hm2 hl2
            rcases List.mem_cons.1 hm2 with h7 | h7
            · rw [h7, hl] at hl2
              simp at hl2
            · exact h0 m2 h7 hl2
          · intro hmv
            exact absurd (h2 hmv).1 (by simp)
        · refine Or.inr ⟨m :: pre, m1, post, after, e, stuck, by rw [h1]; rfl, ?_, h3, h4, h5, h6⟩
          intro m2 hm2 hl2
          rcases List.mem_cons.1 hm2 with h7 | h7
          · rw [h7, hl] at hl2
            simp at hl2
          · exact h2 m2 h7 hl2
      · rw [if_neg hg]
        obtain ⟨mv, nn, st1, he, hr⟩ := ih max_v nextNode hacc
        refine ⟨mv, nn, st1, he, ?_⟩
        rcases hr with ⟨h1, h0, h2, h3⟩ | ⟨pre, m1, post, after, e, stuck, h1, h2, h3, h4, h5, h6⟩
        · refine Or.inl ⟨h1, ?_, ?_, h3⟩
          · intro m2 hm2 hl2
            rcases List.mem_cons.1 hm2 with h7 | h7
            · rw [h7, hl] at hl2
              simp at hl2
            · exact h0 m2 h7 hl2
          · intro hmv
            have := (h2 hmv).1
            rw [this] at hg
            exact absurd rfl hg
        · refine Or.inr ⟨m :: pre, m1, post, after, e, stuck, by rw [h1]; rfl, ?_, h3, h4, h5, h6⟩
          intro m2 hm2 hl2
          rcases List.mem_cons.1 hm2 with h7 | h7
          · rw [h7, hl] at hl2
            simp at hl2
          · exact h2 m2 h7 hl2
    | none =>
      simp only
      cases ha : G.apply (st.heap cur).state m who_now with
      | some after =>
        simp only
        have hlt := hμ _ _ _ _ ha
        obtain ⟨r, hr⟩ := simulate_total hμ fuel (who_change who_now) st.move_space after
          st.engine (by omega)
        obtain ⟨sim_who, e⟩ := r
        rw [hr]
        exact ⟨_, _, _, rfl, Or.inr ⟨[], m, rest, after, e, sim_who, rfl, by simp, hl, ha, hr,
          rfl, rfl, rfl⟩⟩
      | none =>
        simp only
        obtain ⟨mv, nn, st1, he, hr⟩ := ih max_v nextNode hacc
        refine ⟨mv, nn, st1, he, ?_⟩
        rcases hr with ⟨h1, h0, h2, h3⟩ | ⟨pre, m1, post, after, e, stuck, h1, h2, h3, h4, h5, h6⟩
        · refine Or.inl ⟨h1, ?_, ?_, h3⟩
          · intro m2 hm2 hl2
            rcases List.mem_cons.1 hm2 with h7 | h7
            · rw [h7]; exact ha
            · exact h0 m2 h7 hl2
          · intro hmv
            refine ⟨(h2 hmv).1, ?_⟩
            intro m2 hm2
            rcases List.mem_cons.1 hm2 with h7 | h7
            · rw [h7]; exact hl
            · exact (h2 hmv).2 m2 h7
        · refine Or.inr ⟨m :: pre, m1, post, after, e, stuck, by rw [h1]; rfl, ?_, h3, h4, h5, h6⟩
          intro m2 hm2 _
          rcases List.mem_cons.1 hm2 with h7 | h7
          · rw [h7]; exact ha
          · exact h2 m2 h7 (by assumption)

theorem mover_zero (who : piece_type) : mover who 0 = who := rfl

theorem mover_succ (who : piece_type) (d : Nat) :
    who_change (mover who d) = mover who (d + 1) := by
  unfold mover
  by_cases h : d % 2 = 0
  · rw [if_pos h, if_neg (by omega)]
  · rw [if_neg h, if_pos (by omega), who_change_who_change]

theorem mover_cases (who : piece_type) (d : Nat) :
    mover who d = who ∨ mover who d = who_change who := by
  unfold mover
  split_ifs
  · exact Or.inl rfl
  · exact Or.inr rfl

theorem chain_mono_mem {R S : Nat → Nat → Prop} {l : List Nat}
    (h : ∀ a b, a ∈ l → b ∈ l → R a b → S a b) (hc : List.Chain' R l) : List.Chain' S l :=
  (List.Chain'.iff_mem.1 hc).imp (fun a b hab => h a b hab.1 hab.2.1 hab.2.2)

theorem descend_detail_spec {G : Game Board Engine} {μ : Board → Nat} (hμ : G.measured μ)
    (hs : G.shuffles) (fuel : Nat) :
    ∀ (n cur : Nat) (trajectory : List Nat) (t_idx : Nat) (who_now : piece_type) (max_v : ℚ)
      (st : player Board Engine) (col : Nat → piece_type),
      tree_ok G st col → visited st → (∀ q ∈ cur :: trajectory, q < st.next) →
      List.Chain' (fun c p => ∃ m, (m, c) ∈ (st.heap p).child) (cur :: trajectory) →
      (∀ j p, (cur :: trajectory)[j]? = some p → j ≤ t_idx →
        col p = mover st.who (t_idx - j)) →
      who_now = mover st.who t_idx →
      μ (st.heap cur).state < n → n ≤ fuel →
      ∃ r, descend G fuel n (cur :: trajectory) t_idx who_now max_v st = some r ∧
        descent_detail G fuel st col cur trajectory t_idx r := by
  intro n
  induction n with
  | zero => intros; omega
  | succ n ih =>
    intro cur trajectory t_idx who_now max_v st col hok hvis hq hpath hdepth hwho hlt hle
    have hcur : cur < st.next := hq cur (List.mem_cons_self _ _)
    have hcol : col cur = who_now := by
      rw [hwho]
      exact hdepth 0 cur (by simp) (Nat.zero_le _)
    have hnb : (st.heap cur).nb ≠ 0 := by have := hvis cur hcur; omega
    obtain ⟨hw, hr, hp, he⟩ := hok
    have hperm : (G.shuffle st.engine st.move_space).1.Perm (List.range G.cells) :=
      (hs _ _).trans hp
    have hok1 : tree_ok G (shuffle_move_space G st) col := ⟨hw, hr, hperm, he⟩
    obtain ⟨mv, nn, st2, hscan, hres⟩ := scan_moves_detail hμ fuel who_now cur
      (st.heap cur).child (shuffle_move_space G st)
      (by show μ (st.heap cur).state ≤ fuel; omega)
      (by
        intro m c hl
        have := (he cur m c hcur (lookup_mem hl)).2.1
        have := hvis c this
        show (st.heap c).nb ≠ 0
        omega)
      (shuffle_move_space G st).move_space none none (by simp)
    unfold descend
    rw [if_pos hnb, hscan]
    rcases hres with ⟨h1, h0, h2, h3⟩ | ⟨pre, m, post, after, e, stuck, h1, h2, h3, h4, h5, h6, h7, h8⟩
    · subst h1
      cases mv with
      | none =>
        refine ⟨_, rfl, ?_⟩
        exact
          { who_eq := rfl, root_eq := rfl,
            path := hpath,
            extends_trajectory := ⟨[], rfl, rfl⟩,
            shape := ⟨col, hok1, fun _ _ => rfl, hdepth⟩,
            kind := Or.inl ⟨cur, trajectory, rfl, hcur, rfl, rfl, by
              intro m hm
              have hmem : m ∈ (shuffle_move_space G st).move_space :=
                hperm.mem_iff.2 (List.mem_range.2 hm)
              have := h0 m hmem ((h2 rfl).2 m hmem)
              rw [hwho] at this
              exact this, by
              show (if who_now ≠ st.who then (1 : ℚ) else 0) =
                if mover st.who t_idx ≠ st.who then 1 else 0
              rw [hwho]⟩ }
      | some v =>
        obtain ⟨m, c, hnn, hlc⟩ := h3 (by simp)
        subst hnn
        have hmem := lookup_mem hlc
        obtain ⟨e1, e2, e3, e4, e5⟩ := he cur m c hcur hmem
        obtain ⟨r, hr1, hr2⟩ := ih c (cur :: trajectory) (t_idx + 1) (who_change who_now) v
          (shuffle_move_space G st) col hok1 hvis
          (by
            intro q hq1
            rcases List.mem_cons.1 hq1 with h7 | h7
            · rw [h7]; exact e2
            · exact hq q h7)
          (List.Chain'.cons ⟨m, hmem⟩ hpath)
          (by
            intro j p hj hjt
            cases j with
            | zero =>
              simp only [List.getElem?_cons_zero, Option.some.injEq] at hj
              subst hj
              show col c = mover st.who (t_idx + 1 - 0)
              rw [e5, hcol, hwho, mover_succ]
              rfl
            | succ j =>
              simp only [List.getElem?_cons_succ] at hj
              have := hdepth j p hj (by omega)
              show col p = mover st.who (t_idx + 1 - (j + 1))
              rw [this]
              congr 1
              omega)
          (by
            show who_change who_now = mover st.who (t_idx + 1)
            rw [hwho, mover_succ])
          (by
            have := hμ _ _ _ _ e4
            show μ (st.heap c).state < n
            omega)
          (by omega)
        refine ⟨r, hr1, ?_⟩
        obtain ⟨ext, hx1, hx2⟩ := hr2.extends_trajectory
        exact
          { who_eq := hr2.who_eq, root_eq := hr2.root_eq, path := hr2.path,
            extends_trajectory := ⟨ext ++ [c], by simp [hx1], by simp [hx2]; omega⟩,
            shape := hr2.shape,
            kind := hr2.kind }
    · subst h7 h8
      have hne : cur ≠ st.next := by omega
      have hm : m < G.cells := by
        have hmem : m ∈ (shuffle_move_space G st).move_space := by rw [h1]; simp
        exact List.mem_range.1 (hperm.mem_iff.1 hmem)
      have hlt2 := hμ _ _ _ _ h4
      have hlt3 : μ after < μ (st.heap cur).state := hlt2
      obtain ⟨k, hk⟩ : ∃ k, n = k + 1 := ⟨n - 1, by omega⟩
      subst hk
      subst h6
      refine ⟨_, descend_leaf G fuel k st.next (cur :: trajectory) (t_idx + 1)
        (who_change who_now) _ (expand (shuffle_move_space G st) cur m after e)
        (congrArg node.nb (expand_heap_next (shuffle_move_space G st) cur m after e hne)), ?_⟩
      have hmv : who_change who_now = mover st.who (t_idx + 1) := by
        rw [hwho, mover_succ]
      exact
        { who_eq := rfl, root_eq := rfl,
          path := by
            refine List.Chain'.cons ⟨m, ?_⟩ (chain_mono_mem ?_ hpath)
            · show (m, st.next) ∈ ((expand (shuffle_move_space G st) cur m after e).heap cur).child
              rw [expand_heap_cur (shuffle_move_space G st) cur m after e hne]
              exact mem_assign_self _ _ _
            · rintro a b _ hb ⟨m1, hm1⟩
              have hbn : b ≠ st.next := by
                have := hq b hb
                omega
              exact ⟨m1, (expand_old_node (shuffle_move_space G st) cur m after e b hne hbn
                h3).2.2.2 _ hm1⟩,
          extends_trajectory := ⟨[st.next], rfl, rfl⟩,
          shape := ⟨Function.update col st.next (who_change (col cur)),
            tree_ok_expand hok1 cur m after e hcur hm h3 (by rw [hcol]; exact h4),
            fun p hp => Function.update_noteq (by omega) _ _, by
              intro j p hj hjt
              cases j with
              | zero =>
                simp only [List.getElem?_cons_zero, Option.some.injEq] at hj
                subst hj
                show Function.update col st.next (who_change (col cur)) st.next =
                  mover st.who (t_idx + 1 - 0)
                rw [Function.update_same, hcol, hmv]
                rfl
              | succ j =>
                simp only [List.getElem?_cons_succ] at hj
                have hpl : p < st.next := hq p (List.getElem?_mem hj)
                have := hdepth j p hj (by
                  have : j + 1 ≤ t_idx + 1 := hjt
                  omega)
                show Function.update col st.next (who_change (col cur)) p =
                  mover st.who (t_idx + 1 - (j + 1))
                rw [Function.update_noteq (by omega), this]
                congr 1
                omega⟩,
          kind := Or.inr ⟨cur, trajectory, m, after, e, stuck, shuffle_move_space G st, rfl,
            hcur, rfl, rfl, rfl, hperm, h3, hm, by rw [hcol]; exact h4, by rw [hcol]; exact hmv,
            by
              show simulate G fuel (mover st.who (t_idx + 1)) _ after _ = some (stuck, e)
              rw [← hmv]
              exact h5, rfl, rfl⟩ }

theorem assign_absent {l : List (Nat × Nat)} {k : Nat} (v : Nat) (h : l.lookup k = none) :
    assign l k v = l ++ [(k, v)] := by
  induction l with
  | nil => rfl
  | cons kv rest ih =>
    obtain ⟨a, b⟩ := kv
    rw [List.lookup_cons] at h
    by_cases hk : k = a
    · subst hk
      simp at h
    · have hb : (k == a) = false := by simpa using hk
      rw [hb] at h
      unfold assign
      rw [if_neg (fun h1 => hk h1.symm), ih h]
      rfl

theorem keys_ok_expand (st : player Board Engine) (cur m : Nat) (after : Board) (e : Engine)
    (hne : cur ≠ st.next) (hl : (st.heap cur).child.lookup m = none) (hk : keys_ok st) :
    keys_ok (expand st cur m after e) := by
  intro p
  by_cases hpn : p = st.next
  · subst hpn
    rw [expand_heap_next st cur m after e hne]
    exact List.nodup_nil
  · by_cases hpc : p = cur
    · subst hpc
      rw [expand_heap_cur st p m after e hne]
      show ((assign (st.heap p).child m st.next).map Prod.fst).Nodup
      rw [assign_absent _ hl, List.map_append, List.nodup_append]
      refine ⟨hk p, by simp, ?_⟩
      intro a ha hb
      simp only [List.map_cons, List.map_nil, List.mem_singleton] at hb
      subst hb
      obtain ⟨kv, hkv, hkv1⟩ := List.mem_map.1 ha
      exact lookup_none_not_mem hl kv.2 (by rw [← hkv1]; exact hkv)
    · rw [expand_heap_other st cur m after e p hpc hpn]
      exact hk p

theorem neg_one_pow_mul_flip (j t : Nat) (B : Int) (hj : j ≤ t) :
    (-1 : Int) ^ j * (if t % 2 = 1 then -B else B) = if (t - j) % 2 = 0 then B else -B := by
  have hpow : (-1 : Int) ^ j = if j % 2 = 0 then 1 else -1 := by
    rcases Nat.even_or_odd j with h | h
    · rw [h.neg_one_pow, if_pos (Nat.even_iff.1 h)]
    · rw [h.neg_one_pow, if_neg (by have := Nat.odd_iff.1 h; omega)]
  rw [hpow]
  by_cases h1 : j % 2 = 0 <;> by_cases h2 : t % 2 = 1
  · rw [if_pos h1, if_pos h2, if_neg (by omega)]; ring
  · rw [if_pos h1, if_neg h2, if_pos (by omega)]; ring
  · rw [if_neg h1, if_pos h2, if_pos (by omega)]; ring
  · rw [if_neg h1, if_neg h2, if_neg (by omega)]; ring

theorem to_int_one : to_int 1 = 1 := by
  simp [to_int]

theorem to_int_flip (t : Nat) (max_v : ℚ) :
    to_int (if t % 2 = 1 then max_v * -1 else max_v) =
      if t % 2 = 1 then -to_int max_v else to_int max_v := by
  split_ifs
  · rw [mul_neg_one, to_int_neg]
  · rfl

theorem mover_eq_who_iff (who : piece_type) (d : Nat)
    (hw : who = piece_type.black ∨ who = piece_type.white) :
    (mover who d = who ↔ d % 2 = 0) ∧ (mover who d = who_change who ↔ d % 2 ≠ 0) := by
  have hne := who_change_ne who hw
  unfold mover
  by_cases h : d % 2 = 0
  · rw [if_pos h]
    exact ⟨⟨fun _ => h, fun _ => rfl⟩, ⟨fun h1 => absurd h1.symm hne, fun h1 => absurd h h1⟩⟩
  · rw [if_neg h]
    exact ⟨⟨fun h1 => absurd h1 hne, fun h1 => absurd h1 h⟩, ⟨fun _ => h, fun _ => rfl⟩⟩

theorem value_ok_backprop (st1 : player Board Engine) (col1 : Nat → piece_type)
    (traj : List Nat) (t : Nat) (max_v : ℚ)
    (hw : st1.who = piece_type.black ∨ st1.who = piece_type.white)
    (hv : value_ok st1 col1) (hnd : traj.Nodup) (hlen : traj.length = t + 1)
    (hdep : ∀ j p, traj[j]? = some p → j ≤ t → col1 p = mover st1.who (t - j))
    (hb : max_v = 0 ∨ max_v = 1) :
    value_ok (finish (traj, t, max_v, st1)) col1 := by
  intro p hp
  have hp1 : p < st1.next := hp
  show (col1 p = st1.who →
      0 ≤ (backprop st1.heap traj (if t % 2 = 1 then max_v * -1 else max_v) p).value ∧
      (backprop st1.heap traj (if t % 2 = 1 then max_v * -1 else max_v) p).value ≤
        (backprop st1.heap traj (if t % 2 = 1 then max_v * -1 else max_v) p).nb) ∧
    (col1 p = who_change st1.who →
      -(backprop st1.heap traj (if t % 2 = 1 then max_v * -1 else max_v) p).nb ≤
        (backprop st1.heap traj (if t % 2 = 1 then max_v * -1 else max_v) p).value ∧
      (backprop st1.heap traj (if t % 2 = 1 then max_v * -1 else max_v) p).value ≤ 0)
  by_cases hmem : p ∈ traj
  · obtain ⟨j, hj⟩ := List.mem_iff_getElem?.1 hmem
    have hjl : j < traj.length := (List.getElem?_eq_some.1 hj).1
    have hjt : j ≤ t := by omega
    have hB : to_int max_v = 0 ∨ to_int max_v = 1 := by
      rcases hb with h | h
      · left; rw [h, to_int_zero]
      · right; rw [h, to_int_one]
    rw [backprop_value traj st1.heap _ hnd j p hj, (backprop_frame traj st1.heap _ p).2.2,
      List.count_eq_one_of_mem hnd hmem, to_int_flip, neg_one_pow_mul_flip j t _ hjt]
    have hc := hdep j p hj hjt
    obtain ⟨hm1, hm2⟩ := mover_eq_who_iff st1.who (t - j) hw
    obtain ⟨hv1, hv2⟩ := hv p hp1
    constructor
    · intro h
      rw [hc] at h
      rw [if_pos (hm1.1 h)]
      have := hv1 (hc.trans h)
      push_cast
      rcases hB with h3 | h3 <;> rw [h3] <;> constructor <;> omega
    · intro h
      rw [hc] at h
      rw [if_neg (hm2.1 h)]
      have := hv2 (hc.trans h)
      push_cast
      rcases hB with h3 | h3 <;> rw [h3] <;> constructor <;> omega
  · rw [backprop_not_mem traj st1.heap _ p hmem]
    exact hv p hp1

theorem value_ok_pre (st st1 : player Board Engine) (col col1 : Nat → piece_type)
    (hv : value_ok st col) (hw : st1.who = st.who)
    (hagree : ∀ p, p < st.next → col1 p = col p)
    (hold : ∀ p, p < st.next →
      (st1.heap p).value = (st.heap p).value ∧ (st1.heap p).nb = (st.heap p).nb)
    (hnew : ∀ p, st.next ≤ p → p < st1.next →
      (st1.heap p).value = 0 ∧ (st1.heap p).nb = 0) :
    value_ok st1 col1 := by
  intro p hp
  by_cases hlt : p < st.next
  · rw [hagree p hlt, (hold p hlt).1, (hold p hlt).2, hw]
    exact hv p hlt
  · obtain ⟨h1, h2⟩ := hnew p (by omega) hp
    rw [h1, h2]
    simp

theorem playOneSequence_finish (G : Game Board Engine) (fuel : Nat)
    (st : player Board Engine) {r : List Nat × Nat × ℚ × player Board Engine}
    (h : descend G fuel fuel [st.root] 0 st.who (-1) st = some r) :
    playOneSequence G fuel st = some (finish r) := by
  obtain ⟨traj, t, v, st1⟩ := r
  unfold playOneSequence
  rw [h]
  rfl

theorem playOneSequence_detail {G : Game Board Engine} {μ : Board → Nat} (hμ : G.measured μ)
    (hs : G.shuffles) (fuel : Nat) (st : player Board Engine) (col : Nat → piece_type)
    (hok : tree_ok G st col) (hvis : visited st) (hcol : col st.root = st.who)
    (hkeys : keys_ok st) (hval : value_ok st col)
    (hfuel : μ (st.heap st.root).state < fuel) :
    ∃ r col1, iteration_detail G fuel st col r col1 := by
  have hroot : st.root < st.next := hok.2.1
  have hq : ∀ q ∈ [st.root], q < st.next := by
    intro q hq
    rcases List.mem_cons.1 hq with h | h
    · rw [h]; exact hroot
    · simp at h
  obtain ⟨r, hr1, hpost⟩ := descend_spec hμ hs fuel fuel st.root [] 0 st.who (-1) st col hok
    hvis hq (List.pairwise_singleton _ _) hcol hfuel (le_refl _)
  obtain ⟨r1, hr2, hdet⟩ := descend_detail_spec hμ hs fuel fuel st.root [] 0 st.who (-1) st col
    hok hvis hq (List.chain'_singleton _)
    (by
      intro j p hj hj0
      have hj1 : j = 0 := by omega
      subst hj1
      simp only [List.getElem?_cons_zero, Option.some.injEq] at hj
      subst hj
      rw [hcol]
      rfl)
    rfl hfuel (le_refl _)
  have hrr : r1 = r := Option.some.inj (hr2.symm.trans hr1)
  subst hrr
  obtain ⟨col1, hok1, hagree, hdep⟩ := hdet.shape
  obtain ⟨ext, hx1, hx2⟩ := hpost.extends_trajectory
  have hnd : r1.1.Nodup := hpost.decreasing.imp (fun h => Nat.ne_of_gt h)
  have hlen : r1.1.length = r1.2.1 + 1 := by
    rw [hx1, hx2]
    simp
  have hplayed := playOneSequence_finish G fuel st hr1
  obtain ⟨st2, hp2, hpost2⟩ := playOneSequence_spec hμ hs fuel st ⟨col, hok, hvis, hcol⟩ hfuel
  have hst2 : st2 = finish r1 := Option.some.inj (hp2.symm.trans hplayed)
  subst hst2
  have hwho : r1.2.2.2.who = st.who := hdet.who_eq
  have hkeys1 : keys_ok r1.2.2.2 := by
    rcases hdet.kind with ⟨x, rest, _, _, hh, _, _, _⟩ |
      ⟨x, rest, m, after, e, stuck, stx, _, hx, hsh, hsn, _, _, hl, _, _, _, _, _, hst⟩
    · intro p
      rw [hh]
      exact hkeys p
    · rw [hst]
      apply keys_ok_expand stx x m after e (by rw [hsn]; omega) (by rw [hsh]; exact hl)
      intro p
      rw [hsh]
      exact hkeys p
  have hval1 : value_ok r1.2.2.2 col1 := by
    apply value_ok_pre st r1.2.2.2 col col1 hval hwho hagree
    · intro p hp
      exact ⟨(hpost.old_nodes p hp).2.1, (hpost.old_nodes p hp).2.2.1⟩
    · intro p hp1 hp2
      rcases hdet.kind with ⟨x, rest, _, _, _, hn, _, _⟩ |
        ⟨x, rest, m, after, e, stuck, stx, _, hx, hsh, hsn, _, _, hl, _, _, _, _, _, hst⟩
      · rw [hn] at hp2
        omega
      · rw [hst] at hp2 ⊢
        have hp3 : p < stx.next + 1 := hp2
        have hp4 : p = stx.next := by omega
        subst hp4
        rw [expand_heap_next stx x m after e (by omega)]
        exact ⟨rfl, rfl⟩
  have hdep1 : ∀ j p, r1.1[j]? = some p → j ≤ r1.2.1 →
      col1 p = mover r1.2.2.2.who (r1.2.1 - j) := by
    intro j p hj hjt
    rw [hwho]
    exact hdep j p hj hjt
  have hval2 := value_ok_backprop r1.2.2.2 col1 r1.1 r1.2.1 r1.2.2.1 (by rw [hwho]; exact hok.1)
    hval1 hnd hlen hdep1 hpost.outcome
  exact ⟨r1, col1,
    { descended := hr1, played := hplayed, post := hpost, detail := hdet, nodup := hnd,
      length_eq := hlen,
      ok_before := ⟨hok, hvis, hcol, hkeys, hval⟩,
      ok_after := ⟨tree_ok_backprop hok1 _ _, hpost2.inv_kept.choose_spec.2.1, by
          show col1 r1.2.2.2.root = r1.2.2.2.who
          rw [hdet.root_eq, hwho, hagree _ hroot, hcol], by
          intro p
          show ((backprop r1.2.2.2.heap r1.1 _ p).child.map Prod.fst).Nodup
          rw [(backprop_frame r1.1 r1.2.2.2.heap _ p).2.1]
          exact hkeys1 p, hval2⟩,
      agree := hagree,
      depth_col := hdep }⟩

theorem iteration_detail_inv {G : Game Board Engine} {fuel : Nat} {st : player Board Engine}
    {col col1 : Nat → piece_type} {r : List Nat × Nat × ℚ × player Board Engine}
    (h : iteration_detail G fuel st col r col1) : inv_search_full G (finish r) :=
  ⟨col1, h.ok_after⟩

theorem inv_search_full_weaken {G : Game Board Engine} {st : player Board Engine}
    (h : inv_search_full G st) : inv_search G st := by
  obtain ⟨col, h1, h2, h3, _, _⟩ := h
  exact ⟨col, h1, h2, h3⟩

theorem inv_full_weaken {G : Game Board Engine} {st : player Board Engine}
    (h : inv_full G st) : inv G st := by
  obtain ⟨col, h1, h2, h3, _, _⟩ := h
  exact ⟨col, h1, h2, h3⟩

theorem playOneSequence_full {G : Game Board Engine} {μ : Board → Nat} (hμ : G.measured μ)
    (hs : G.shuffles) (fuel : Nat) (st : player Board Engine) (hinv : inv_search_full G st)
    (hfuel : μ (st.heap st.root).state < fuel) :
    ∃ st1, playOneSequence G fuel st = some st1 ∧ inv_search_full G st1 ∧
      iteration_post G 1 st st1 := by
  obtain ⟨st1, h1, p1⟩ := playOneSequence_spec hμ hs fuel st (inv_search_full_weaken hinv) hfuel
  obtain ⟨col, hok, hvis, hcol, hkeys, hval⟩ := hinv
  obtain ⟨r, col1, hd⟩ := playOneSequence_detail hμ hs fuel st col hok hvis hcol hkeys hval hfuel
  have : st1 = finish r := Option.some.inj (h1.symm.trans hd.played)
  subst this
  exact ⟨_, h1, iteration_detail_inv hd, p1⟩

theorem iterate_N_full {G : Game Board Engine} {μ : Board → Nat} (hμ : G.measured μ)
    (hs : G.shuffles) (fuel : Nat) :
    ∀ (N : Nat) (st : player Board Engine), inv_search_full G st →
      μ (st.heap st.root).state < fuel →
      ∃ st1, iterate_N G fuel N st = some st1 ∧ inv_search_full G st1 ∧
        iteration_post G N st st1 := by
  intro N
  induction N with
  | zero =>
    intro st hinv hfuel
    obtain ⟨st1, h1, p1⟩ := iterate_N_spec hμ hs fuel 0 st (inv_search_full_weaken hinv) hfuel
    have : st1 = st := (Option.some.inj h1).symm
    subst this
    exact ⟨_, h1, hinv, p1⟩
  | succ N ih =>
    intro st hinv hfuel
    obtain ⟨st3, h3, p3⟩ := iterate_N_spec hμ hs fuel (N + 1) st
      (inv_search_full_weaken hinv) hfuel
    obtain ⟨st1, h1, hinv1, p1⟩ := playOneSequence_full hμ hs fuel st hinv hfuel
    have hroot : st.root < st.next := hinv.choose_spec.1.2.1
    have hst : (st1.heap st1.root).state = (st.heap st.root).state := by
      rw [p1.root_eq]
      exact (p1.old_nodes _ hroot).1
    obtain ⟨st2, h2, hinv2, _⟩ := ih st1 hinv1 (by rw [hst]; exact hfuel)
    have h4 : iterate_N G fuel (N + 1) st = some st2 := by
      unfold iterate_N
      rw [h1]
      exact h2
    have : st3 = st2 := Option.some.inj (h3.symm.trans h4)
    subst this
    exact ⟨_, h3, hinv2, p3⟩

theorem root_lookup_full [DecidableEq Board] {G : Game Board Engine}
    (st : player Board Engine) (state : Board) (hinv : inv_full G st) :
    inv_search_full G (root_lookup st state) := by
  obtain ⟨col, ⟨hw, hr, hp, he⟩, hvis, hcol, hkeys, hval⟩ := hinv
  cases hf : (st.heap st.root).child.find? (fun kv => decide ((st.heap kv.2).state = state)) with
  | some kv =>
    have hmem : (kv.1, kv.2) ∈ (st.heap st.root).child := List.mem_of_find?_eq_some hf
    obtain ⟨e1, e2, e3, e4, e5⟩ := he st.root kv.1 kv.2 hr hmem
    unfold root_lookup
    rw [findNode_found hf]
    refine ⟨col, ⟨hw, e2, hp, he⟩, hvis, ?_, hkeys, hval⟩
    show col kv.2 = st.who
    rcases hcol with h | h
    · rw [e5, h, who_change_who_change]
    · rw [h] at hmem
      simp at hmem
  | none =>
    unfold root_lookup
    rw [findNode_fresh hf]
    refine ⟨Function.update col st.next st.who, ⟨hw, Nat.lt_succ_self _, hp, ?_⟩, ?_, ?_, ?_, ?_⟩
    · intro p m c hp1 hmem
      have hp1 : p < st.next + 1 := hp1
      show p < c ∧ c < st.next + 1 ∧ _
      by_cases hpn : p = st.next
      · subst hpn
        simp [make_shared] at hmem
      · have hplt : p < st.next := by omega
        have hmem1 : (m, c) ∈ (st.heap p).child := by
          simpa [make_shared, Function.update_noteq hpn] using hmem
        obtain ⟨e1, e2, e3, e4, e5⟩ := he p m c hplt hmem1
        have hcn : c ≠ st.next := by omega
        refine ⟨e1, by omega, e3, ?_, ?_⟩
        · simp only [make_shared, Function.update_noteq hpn, Function.update_noteq hcn]
          exact e4
        · rw [Function.update_noteq hpn, Function.update_noteq hcn]
          exact e5
    · intro p hp1
      have hp1 : p < st.next + 1 := hp1
      by_cases hpn : p = st.next
      · subst hpn
        simp [make_shared]
      · have := hvis p (by omega)
        simpa [make_shared, Function.update_noteq hpn] using this
    · simp [make_shared]
    · intro p
      by_cases hpn : p = st.next
      · subst hpn
        simp [make_shared]
      · simpa [make_shared, Function.update_noteq hpn] using hkeys p
    · intro p hp1
      have hp1 : p < st.next + 1 := hp1
      by_cases hpn : p = st.next
      · subst hpn
        simp [make_shared]
      · have := hval p (by omega)
        simpa [make_shared, Function.update_noteq hpn] using this

theorem root_advance_full {G : Game Board Engine} (st : player Board Engine)
    (hinv : inv_search_full G st) : inv_full G (root_advance st).2 := by
  obtain ⟨col, ⟨hw, hr, hp, he⟩, hvis, hcol, hkeys, hval⟩ := hinv
  cases hl : (st.heap st.root).child.lookup (max_idx st) with
  | some c =>
    obtain ⟨_, e2, _, _, e5⟩ := he st.root (max_idx st) c hr (lookup_mem hl)
    refine ⟨col, ⟨hw, ?_, hp, he⟩, hvis, Or.inl ?_, hkeys, hval⟩
    · show (root_advance st).2.root < st.next
      simp only [root_advance, hl]
      exact e2
    · show col (root_advance st).2.root = who_change st.who
      simp only [root_advance, hl]
      rw [e5, hcol]
  | none =>
    have hnil : (st.heap st.root).child = [] := by
      by_contra hne
      obtain ⟨c, hc, _⟩ := max_idx_spec st hne
      rw [hl] at hc
      simp at hc
    refine ⟨col, ⟨hw, ?_, hp, he⟩, hvis, Or.inr ?_, hkeys, hval⟩
    · show (root_advance st).2.root < st.next
      simp only [root_advance, hl]
      exact hr
    · show (st.heap (root_advance st).2.root).child = []
      simp only [root_advance, hl]
      exact hnil

theorem inv_full_player_new (G : Game Board Engine) (who : piece_type) (s : String)
    (e : Engine) (hw : who = piece_type.black ∨ who = piece_type.white) :
    inv_full G (player_new G who (some s) e) := by
  refine ⟨fun _ => who, ⟨hw, Nat.one_pos, List.Perm.refl _, ?_⟩, ?_, Or.inr ?_, ?_, ?_⟩
  · intro p m c hp hmem
    have hp0 : p = 0 := by
      have : p < 1 := hp
      omega
    subst hp0
    simp [player_new, make_shared] at hmem
  · intro p hp
    have hp0 : p = 0 := by
      have : p < 1 := hp
      omega
    subst hp0
    simp [player_new, make_shared]
  · simp [player_new, make_shared]
  · intro p
    by_cases hp0 : p = 0
    · subst hp0
      simp [player_new, make_shared]
    · simp [player_new, make_shared, Function.update_noteq hp0]
  · intro p hp
    have hp0 : p = 0 := by
      have : p < 1 := hp
      omega
    subst hp0
    simp [player_new, make_shared]

theorem search_full [DecidableEq Board] {G : Game Board Engine} {μ : Board → Nat}
    (hμ : G.measured μ) (hs : G.shuffles) (fuel : Nat) (st : player Board Engine)
    (state : Board) (hinv : inv_full G st) (hfuel : μ state < fuel) (N : Nat) :
    ∃ st1, iterate_N G fuel N (root_lookup st state) = some st1 ∧ inv_search_full G st1 ∧
      iteration_post G N (root_lookup st state) st1 := by
  obtain ⟨_, h2, _⟩ := root_lookup_spec st state (inv_full_weaken hinv)
  exact iterate_N_full hμ hs fuel N _ (root_lookup_full st state hinv) (by rw [h2]; exact hfuel)

theorem take_action_inv_full [DecidableEq Board] {G : Game Board Engine} {μ : Board → Nat}
    (hμ : G.measured μ) (hs : G.shuffles) (fuel : Nat) (st : player Board Engine)
    (state : Board) (hinv : inv_full G st) (hfuel : μ state < fuel) :
    ∃ r, take_action G fuel st state = some r ∧ inv_full G r.2 := by
  by_cases hmode : st.playername = "MCTS"
  · obtain ⟨st1, h1, hinv1, _⟩ := search_full hμ hs fuel st state hinv hfuel
      (maxN (empty_place G st state))
    exact ⟨_, take_action_search G fuel st state hmode h1, root_advance_full st1 hinv1⟩
  · unfold take_action
    rw [if_neg hmode]
    obtain ⟨col, ⟨hw, hr, hp, he⟩, hvis, hcol, hkeys, hval⟩ := hinv
    cases (G.shuffle st.engine st.space).1.find? (fun i => legal G state i st.who) with
    | some i => exact ⟨_, rfl, col, ⟨hw, hr, hp, he⟩, hvis, hcol, hkeys, hval⟩
    | none => exact ⟨_, rfl, col, ⟨hw, hr, hp, he⟩, hvis, hcol, hkeys, hval⟩

theorem demo_player_inv_full : inv_full demo demo_player :=
  inv_full_player_new demo piece_type.black "MCTS" 0 (Or.inl rfl)

theorem gt_score_none (x : ℚ) : gt_score x none = true := rfl

theorem gt_score_some (x v : ℚ) : gt_score x (some v) = true ↔ v < x := by
  simp [gt_score]

theorem scan_moves_select (G : Game Board Engine) (fuel : Nat) (who_now : piece_type)
    (cur : Nat) (childs : List (Nat × Nat)) (st : player Board Engine)
    (hnb : ∀ m c, childs.lookup m = some c → (st.heap c).nb ≠ 0) :
    ∀ (moves : List Nat) (max_v : Option ℚ) (nextNode : Option Nat),
      (∀ m ∈ moves, childs.lookup m = none →
        G.apply (st.heap cur).state m who_now = none) →
      ∃ mv nn, scan_moves G fuel who_now cur childs moves max_v nextNode st =
          some (mv, nn, st) ∧
        ((mv = max_v ∧ nn = nextNode ∧ ∀ m ∈ moves, ∀ c, childs.lookup m = some c →
            gt_score (ucb_score G (st.heap c) (st.heap cur).nb) max_v = false) ∨
          (∃ pre m post c, moves = pre ++ m :: post ∧ childs.lookup m = some c ∧
            mv = some (ucb_score G (st.heap c) (st.heap cur).nb) ∧ nn = some c ∧
            gt_score (ucb_score G (st.heap c) (st.heap cur).nb) max_v = true ∧
            (∀ m1 ∈ pre, ∀ c1, childs.lookup m1 = some c1 →
              ucb_score G (st.heap c1) (st.heap cur).nb <
                ucb_score G (st.heap c) (st.heap cur).nb) ∧
            (∀ m1 ∈ post, ∀ c1, childs.lookup m1 = some c1 →
              ucb_score G (st.heap c1) (st.heap cur).nb ≤
                ucb_score G (st.heap c) (st.heap cur).nb))) := by
  intro moves
  induction moves with
  | nil =>
    intro max_v nextNode _
    exact ⟨max_v, nextNode, rfl, Or.inl ⟨rfl, rfl, by simp⟩⟩
  | cons m rest ih =>
    intro max_v nextNode hno
    have hno1 : ∀ m1 ∈ rest, childs.lookup m1 = none →
        G.apply (st.heap cur).state m1 who_now = none :=
      fun m1 h1 => hno m1 (List.mem_cons_of_mem _ h1)
    unfold scan_moves
    cases hl : childs.lookup m with
    | some c0 =>
      simp only
      rw [if_neg (hnb m c0 hl)]
      by_cases hg : gt_score (ucb_score G (st.heap c0) (st.heap cur).nb) max_v = true
      · rw [if_pos hg]
        obtain ⟨mv, nn, he, hr⟩ := ih (some (ucb_score G (st.heap c0) (st.heap cur).nb))
          (some c0) hno1
        refine ⟨mv, nn, he, Or.inr ?_⟩
        rcases hr with ⟨h1, h2, h3⟩ | ⟨pre, m1, post, c, h1, h2, h3, h4, h5, h6, h7⟩
        · refine ⟨[], m, rest, c0, rfl, hl, h1, h2, hg, by simp, ?_⟩
          intro m1 hm1 c1 hc1
          have := h3 m1 hm1 c1 hc1
          by_contra hlt
          rw [(gt_score_some _ _).2 (lt_of_not_le hlt)] at this
          exact absurd this (by simp)
        · have hlt := (gt_score_some _ _).1 h5
          refine ⟨m :: pre, m1, post, c, by rw [h1]; rfl, h2, h3, h4, ?_, ?_, h7⟩
          · cases max_v with
            | none => rfl
            | some v => exact (gt_score_some _ _).2 (lt_trans ((gt_score_some _ _).1 hg) hlt)
          · intro m2 hm2 c2 hc2
            rcases List.mem_cons.1 hm2 with h8 | h8
            · rw [h8, hl] at hc2
              simp only [Option.some.injEq] at hc2
              rw [← hc2]
              exact hlt
            · exact h6 m2 h8 c2 hc2
      · rw [if_neg hg]
        have hgf : gt_score (ucb_score G (st.heap c0) (st.heap cur).nb) max_v = false := by
          simpa using hg
        obtain ⟨mv, nn, he, hr⟩ := ih max_v nextNode hno1
        refine ⟨mv, nn, he, ?_⟩
        rcases hr with ⟨h1, h2, h3⟩ | ⟨pre, m1, post, c, h1, h2, h3, h4, h5, h6, h7⟩
        · refine Or.inl ⟨h1, h2, ?_⟩
          intro m2 hm2 c2 hc2
          rcases List.mem_cons.1 hm2 with h8 | h8
          · rw [h8, hl] at hc2
            simp only [Option.some.injEq] at hc2
            rw [← hc2]
            exact hgf
          · exact h3 m2 h8 c2 hc2
        · refine Or.inr ⟨m :: pre, m1, post, c, by rw [h1]; rfl, h2, h3, h4, h5, ?_, h7⟩
          intro m2 hm2 c2 hc2
          rcases List.mem_cons.1 hm2 with h8 | h8
          · rw [h8, hl] at hc2
            simp only [Option.some.injEq] at hc2
            rw [← hc2]
            cases max_v with
            | none => exact absurd (gt_score_none _) hg
            | some v =>
              have h9 : ¬ v < ucb_score G (st.heap c0) (st.heap cur).nb :=
                fun h => hg ((gt_score_some _ _).2 h)
              exact lt_of_le_of_lt (not_lt.1 h9) ((gt_score_some _ _).1 h5)
          · exact h6 m2 h8 c2 hc2
    | none =>
      simp only
      rw [hno m (List.mem_cons_self _ _) hl]
      simp only
      obtain ⟨mv, nn, he, hr⟩ := ih max_v nextNode hno1
      refine ⟨mv, nn, he, ?_⟩
      rcases hr with ⟨h1, h2, h3⟩ | ⟨pre, m1, post, c, h1, h2, h3, h4, h5, h6, h7⟩
      · refine Or.inl ⟨h1, h2, ?_⟩
        intro m2 hm2 c2 hc2
        rcases List.mem_cons.1 hm2 with h8 | h8
        · rw [h8, hl] at hc2
          simp at hc2
        · exact h3 m2 h8 c2 hc2
      · refine Or.inr ⟨m :: pre, m1, post, c, by rw [h1]; rfl, h2, h3, h4, h5, ?_, h7⟩
        intro m2 hm2 c2 hc2
        rcases List.mem_cons.1 hm2 with h8 | h8
        · rw [h8, hl] at hc2
          simp at hc2
        · exact h6 m2 h8 c2 hc2

/-- C16: one pass of the descent loop at a visited node `cur` of the tree,
with `who_now` to move.  When every legal move has a child (and there is a
child), the descent goes on at the child `c` with the largest selection
score, the `float` that line 191 computes; children earlier in the shuffled
`move_space` have a strictly smaller score, so the first of the best is
taken.  When some legal move has no child,
the descent ends with the expansion of the first such move in the shuffled
`move_space`; the node it moves to is new, not an existing child. -/
theorem descent_step_selection {G : Game Board Engine} {μ : Board → Nat}
    (hμ : G.measured μ) (hs : G.shuffles) (fuel n cur : Nat) (trajectory : List Nat)
    (t_idx : Nat) (who_now : piece_type) (max_v : ℚ) (st : player Board Engine)
    (col : Nat → piece_type) (hok : tree_ok G st col) (hvis : visited st)
    (hcur : cur < st.next)
    (hfuel : μ (st.heap cur).state < n + 1) (hn : n + 1 ≤ fuel) :
    ((∀ m, m < G.cells → legal G (st.heap cur).state m who_now = true →
        (st.heap cur).child.lookup m ≠ none) →
      (st.heap cur).child ≠ [] →
      ∃ pre m post c, (shuffle_move_space G st).move_space = pre ++ m :: post ∧
        (st.heap cur).child.lookup m = some c ∧
        (∀ m1 ∈ pre, ∀ c1, (st.heap cur).child.lookup m1 = some c1 →
          ucb_score G (st.heap c1) (st.heap cur).nb <
            ucb_score G (st.heap c) (st.heap cur).nb) ∧
        (∀ m1 ∈ post, ∀ c1, (st.heap cur).child.lookup m1 = some c1 →
          ucb_score G (st.heap c1) (st.heap cur).nb ≤
            ucb_score G (st.heap c) (st.heap cur).nb) ∧
        descend G fuel (n + 1) (cur :: trajectory) t_idx who_now max_v st =
          descend G fuel n (c :: cur :: trajectory) (t_idx + 1) (who_change who_now)
            (ucb_score G (st.heap c) (st.heap cur).nb) (shuffle_move_space G st)) ∧
    ((∃ m, m < G.cells ∧ legal G (st.heap cur).state m who_now = true ∧
        (st.heap cur).child.lookup m = none) →
      ∃ pre m post after e stuck, (shuffle_move_space G st).move_space = pre ++ m :: post ∧
        (st.heap cur).child.lookup m = none ∧
        G.apply (st.heap cur).state m who_now = some after ∧
        (∀ m1 ∈ pre, (st.heap cur).child.lookup m1 = none →
          legal G (st.heap cur).state m1 who_now = false) ∧
        descend G fuel (n + 1) (cur :: trajectory) t_idx who_now max_v st =
          some (st.next :: cur :: trajectory, t_idx + 1,
            (if stuck ≠ st.who then 1 else 0),
            expand (shuffle_move_space G st) cur m after e) ∧
        ∀ m1 c1, (st.heap cur).child.lookup m1 = some c1 → c1 ≠ st.next) := by
  have hnb : (st.heap cur).nb ≠ 0 := by have := hvis cur hcur; omega
  obtain ⟨hw, hr, hp, he⟩ := hok
  have hperm : (shuffle_move_space G st).move_space.Perm (List.range G.cells) :=
    (hs _ _).trans hp
  have hnbc : ∀ m c, (st.heap cur).child.lookup m = some c →
      ((shuffle_move_space G st).heap c).nb ≠ 0 := by
    intro m c hl
    have := (he cur m c hcur (lookup_mem hl)).2.1
    have := hvis c this
    show (st.heap c).nb ≠ 0
    omega
  constructor
  · intro hall hne
    have hno : ∀ m ∈ (shuffle_move_space G st).move_space,
        (st.heap cur).child.lookup m = none →
        G.apply ((shuffle_move_space G st).heap cur).state m who_now = none := by
      intro m hm hl
      have hm1 : m < G.cells := List.mem_range.1 (hperm.mem_iff.1 hm)
      cases ha : G.apply (st.heap cur).state m who_now with
      | none => exact ha
      | some b => exact absurd hl (hall m hm1 (by simp [legal, ha]))
    obtain ⟨mv, nn, hscan, hres⟩ := scan_moves_select G fuel who_now cur (st.heap cur).child
      (shuffle_move_space G st) hnbc (shuffle_move_space G st).move_space none none hno
    rcases hres with ⟨_, _, h3⟩ | ⟨pre, m, post, c, h1, h2, h3, h4, _, h6, h7⟩
    · obtain ⟨kv, hkv⟩ := List.exists_mem_of_ne_nil _ hne
      obtain ⟨c, hc⟩ := mem_lookup_isSome (hkv : (kv.1, kv.2) ∈ (st.heap cur).child)
      have hk : kv.1 < G.cells := (he cur kv.1 kv.2 hcur hkv).2.2.1
      have := h3 kv.1 (hperm.mem_iff.2 (List.mem_range.2 hk)) c hc
      rw [gt_score_none] at this
      exact absurd this (by simp)
    · refine ⟨pre, m, post, c, h1, h2, h6, h7, ?_⟩
      subst h3 h4
      conv_lhs => unfold descend
      rw [if_pos hnb, hscan]
      rfl
  · rintro ⟨m0, hm0, hleg, hl0⟩
    obtain ⟨mv, nn, st2, hscan, hres⟩ := scan_moves_detail hμ fuel who_now cur
      (st.heap cur).child (shuffle_move_space G st)
      (by show μ (st.heap cur).state ≤ fuel; omega) hnbc
      (shuffle_move_space G st).move_space none none (by simp)
    rcases hres with ⟨_, h0, _, _⟩ | ⟨pre, m, post, after, e, stuck, h1, h2, h3, h4, h5, h6, h7, h8⟩
    · have := h0 m0 (hperm.mem_iff.2 (List.mem_range.2 hm0)) hl0
      have h9 : G.apply (st.heap cur).state m0 who_now = none := this
      simp [legal, h9] at hleg
    · subst h6 h7 h8
      have hlt2 := hμ _ _ _ _ h4
      have hlt3 : μ after < μ (st.heap cur).state := hlt2
      obtain ⟨k, hk⟩ : ∃ k, n = k + 1 := ⟨n - 1, by omega⟩
      subst hk
      have hne : cur ≠ st.next := by omega
      refine ⟨pre, m, post, after, e, stuck, h1, h3, h4, ?_, ?_, ?_⟩
      · intro m1 hm1 hl1
        have := h2 m1 hm1 hl1
        have h9 : G.apply (st.heap cur).state m1 who_now = none := this
        simp [legal, h9]
      · conv_lhs => unfold descend
        rw [if_pos hnb, hscan]
        exact descend_leaf G fuel k st.next (cur :: trajectory) (t_idx + 1)
          (who_change who_now) _ (expand (shuffle_move_space G st) cur m after e)
          (congrArg node.nb (expand_heap_next (shuffle_move_space G st) cur m after e hne))
      · intro m1 c1 hl1
        have := (he cur m1 c1 hcur (lookup_mem hl1)).2.1
        omega

theorem at_depth_col {G : Game Board Engine} {st : player Board Engine}
    {col : Nat → piece_type} (hok : tree_ok G st col) (hcol : col st.root = st.who) :
    ∀ d p, at_depth st d p → p < st.next ∧ col p = mover st.who d := by
  intro d p h
  induction h with
  | root => exact ⟨hok.2.1, hcol⟩
  | child _ hmem ih =>
    obtain ⟨h1, h2⟩ := ih
    obtain ⟨_, e2, _, _, e5⟩ := hok.2.2.2 _ _ _ h1 hmem
    exact ⟨e2, by rw [e5, h2, mover_succ]⟩

theorem chain_getElem {R : Nat → Nat → Prop} :
    ∀ (l : List Nat), List.Chain' R l → ∀ j a b, l[j]? = some a → l[j + 1]? = some b → R a b := by
  intro l
  induction l with
  | nil => intro _ j a b h; simp at h
  | cons x rest ih =>
    intro hc j a b ha hb
    cases rest with
    | nil => simp at hb
    | cons y rest1 =>
      obtain ⟨h1, h2⟩ := List.chain'_cons.1 hc
      cases j with
      | zero =>
        simp only [List.getElem?_cons_zero, Option.some.injEq] at ha
        simp only [zero_add, List.getElem?_cons_succ, List.getElem?_cons_zero,
          Option.some.injEq] at hb
        subst ha hb
        exact h1
      | succ j =>
        rw [List.getElem?_cons_succ] at ha hb
        exact ih h2 j a b ha hb

theorem iterate_who_change (k : Nat) (w : piece_type) :
    who_change^[k] w = w ∨ who_change^[k] w = who_change w := by
  induction k with
  | zero => exact Or.inl rfl
  | succ k ih =>
    rw [Function.iterate_succ_apply']
    rcases ih with h | h
    · right; rw [h]
    · left; rw [h, who_change_who_change]

theorem iteration_detail_old {G : Game Board Engine} {fuel : Nat} {st : player Board Engine}
    {col col1 : Nat → piece_type} {r : List Nat × Nat × ℚ × player Board Engine}
    (h : iteration_detail G fuel st col r col1) :
    ∀ j p, 1 ≤ j → r.1[j]? = some p → p < st.next := by
  intro j p hj hp
  have hmem : p ∈ r.1 := List.getElem?_mem hp
  rcases h.detail.kind with ⟨x, rest, _, _, _, hn, _, _⟩ |
    ⟨x, rest, m, after, e, stuck, stx, hl, _⟩
  · have := h.post.allocated p hmem
    rw [hn] at this
    exact this
  · have hpw := h.post.decreasing
    rw [hl] at hpw hp
    obtain ⟨k, hk⟩ : ∃ k, j = k + 1 := ⟨j - 1, by omega⟩
    subst hk
    simp only [List.getElem?_cons_succ] at hp
    exact (List.pairwise_cons.1 hpw).1 p (List.getElem?_mem hp)

theorem iteration_detail_root {G : Game Board Engine} {fuel : Nat} {st : player Board Engine}
    {col col1 : Nat → piece_type} {r : List Nat × Nat × ℚ × player Board Engine}
    (h : iteration_detail G fuel st col r col1) : r.1[r.2.1]? = some st.root := by
  obtain ⟨ext, hx1, hx2⟩ := h.post.extends_trajectory
  rw [hx1, hx2]
  simp

theorem simulate_stuck_cases {G : Game Board Engine} :
    ∀ (fuel : Nat) (w : piece_type) (sp : List Nat) (s : Board) (e : Engine)
      (r : piece_type × Engine), simulate G fuel w sp s e = some r →
      r.1 = w ∨ r.1 = who_change w := by
  intro fuel
  induction fuel with
  | zero => intro w sp s e r h; simp [simulate] at h
  | succ n ih =>
    intro w sp s e r h
    unfold simulate at h
    cases hf : first_legal G s w (G.shuffle e sp).1 with
    | none =>
      rw [hf] at h
      simp only [Option.some.injEq] at h
      left
      rw [← h]
    | some after =>
      rw [hf] at h
      rcases ih _ _ _ _ r h with h1 | h1
      · right; exact h1
      · left; rw [h1, who_change_who_change]

theorem iteration_detail_stuck {G : Game Board Engine} {fuel : Nat} {st : player Board Engine}
    {col col1 : Nat → piece_type} {r : List Nat × Nat × ℚ × player Board Engine}
    (h : iteration_detail G fuel st col r col1) :
    ∃ stuck,
      ((∃ x, r.1[0]? = some x ∧ x < st.next ∧ r.2.2.2.heap = st.heap ∧
          r.2.2.2.next = st.next ∧ stuck = mover st.who r.2.1 ∧
          ∀ m, m < G.cells → legal G (st.heap x).state m stuck = false) ∨
        (∃ x m after e stx, r.1[0]? = some st.next ∧ r.1[1]? = some x ∧ x < st.next ∧
          1 ≤ r.2.1 ∧ stx.heap = st.heap ∧ stx.next = st.next ∧
          (st.heap x).child.lookup m = none ∧ m < G.cells ∧
          G.apply (st.heap x).state m (mover st.who (r.2.1 - 1)) = some after ∧
          r.2.2.2 = expand stx x m after e ∧
          simulate G fuel (mover st.who r.2.1) stx.move_space after stx.engine =
            some (stuck, e))) ∧
      r.2.2.1 = (if stuck ≠ st.who then 1 else 0) ∧
      (stuck = st.who ∨ stuck = who_change st.who) := by
  rcases h.detail.kind with ⟨x, rest, hl, hx, hh, hn, hno, hv⟩ |
    ⟨x, rest, m, after, e, stuck, stx, hl, hx, hsh, hsn, hsw, hsp, hlk, hm, ha, hc, hsim, hv, hst⟩
  · refine ⟨mover st.who r.2.1, Or.inl ⟨x, by rw [hl]; simp, hx, hh, hn, rfl, ?_⟩, hv,
      mover_cases _ _⟩
    intro m hm
    simp [legal, hno m hm]
  · have hlen := h.length_eq
    rw [hl] at hlen
    have ht : 1 ≤ r.2.1 := by
      simp only [List.length_cons] at hlen
      omega
    have hcx : col x = mover st.who (r.2.1 - 1) := by
      have h1 := h.depth_col 1 x (by rw [hl]; simp) ht
      rw [h.agree x hx] at h1
      exact h1
    refine ⟨stuck, Or.inr ⟨x, m, after, e, stx, by rw [hl]; simp, by rw [hl]; simp, hx, ht, hsh,
      hsn, hlk, hm, by rw [← hcx]; exact ha, hst, hsim⟩, hv, ?_⟩
    rcases simulate_stuck_cases _ _ _ _ _ _ hsim with h4 | h4
    · simp only at h4
      rw [h4]
      exact mover_cases _ _
    · simp only at h4
      rw [h4, mover_succ]
      exact mover_cases _ _

theorem trajectory_at_depth (s : player Board Engine) (l : List Nat) (t : Nat)
    (hc : List.Chain' (fun c p => ∃ m, (m, c) ∈ (s.heap p).child) l)
    (hlen : l.length = t + 1) (hroot : l[t]? = some s.root) :
    ∀ k, k ≤ t → ∀ p, l[t - k]? = some p → at_depth s k p := by
  intro k
  induction k with
  | zero =>
    intro _ p hp
    rw [Nat.sub_zero, hroot] at hp
    rw [← Option.some.inj hp]
    exact at_depth.root
  | succ k ih =>
    intro hk p hp
    have hlt : t - k < l.length := by omega
    have hq : l[t - k]? = some (l.get ⟨t - k, hlt⟩) := List.getElem?_eq_getElem hlt
    have hidx : t - (k + 1) + 1 = t - k := by omega
    obtain ⟨m, hm⟩ := chain_getElem l hc (t - (k + 1)) p (l.get ⟨t - k, hlt⟩) hp
      (by rw [hidx]; exact hq)
    exact at_depth.child (ih (by omega) _ hq) hm

theorem finish_frame (r : List Nat × Nat × ℚ × player Board Engine) (p : Nat) :
    ((finish r).heap p).state = (r.2.2.2.heap p).state ∧
    ((finish r).heap p).child = (r.2.2.2.heap p).child ∧
    (finish r).root = r.2.2.2.root ∧ (finish r).next = r.2.2.2.next ∧
    (finish r).who = r.2.2.2.who := by
  obtain ⟨h1, h2, _⟩ := backprop_frame r.1 r.2.2.2.heap
    (if r.2.1 % 2 = 1 then r.2.2.1 * -1 else r.2.2.1) p
  exact ⟨h1, h2, rfl, rfl, rfl⟩

theorem iteration_detail_depth {G : Game Board Engine} {fuel : Nat} {st : player Board Engine}
    {col col1 : Nat → piece_type} {r : List Nat × Nat × ℚ × player Board Engine}
    (h : iteration_detail G fuel st col r col1) :
    ∀ j p, j ≤ r.2.1 → r.1[j]? = some p → at_depth (finish r) (r.2.1 - j) p := by
  intro j p hj hp
  have hc : List.Chain' (fun c p => ∃ m, (m, c) ∈ ((finish r).heap p).child) r.1 := by
    refine List.Chain'.imp ?_ h.detail.path
    intro a b hab
    obtain ⟨m, hm⟩ := hab
    exact ⟨m, by rw [(finish_frame r b).2.1]; exact hm⟩
  have hroot : r.1[r.2.1]? = some (finish r).root := by
    rw [(finish_frame r 0).2.2.1, h.post.root_eq]
    exact iteration_detail_root h
  have hidx : r.2.1 - (r.2.1 - j) = j := by omega
  exact trajectory_at_depth (finish r) r.1 r.2.1 hc h.length_eq hroot (r.2.1 - j)
    (Nat.sub_le _ _) p (by rw [hidx]; exact hp)

theorem iteration_detail_value {G : Game Board Engine} {fuel : Nat} {st : player Board Engine}
    {col col1 : Nat → piece_type} {r : List Nat × Nat × ℚ × player Board Engine}
    (h : iteration_detail G fuel st col r col1) (stuck : piece_type)
    (hv : r.2.2.1 = (if stuck ≠ st.who then 1 else 0)) :
    to_int (if r.2.1 % 2 = 1 then r.2.2.1 * -1 else r.2.2.1) =
      (if r.2.1 % 2 = 0 then (if stuck ≠ st.who then 1 else 0)
        else -(if stuck ≠ st.who then 1 else 0)) ∧
    ∀ j p, j ≤ r.2.1 → r.1[j]? = some p →
      ((finish r).heap p).value = (r.2.2.2.heap p).value +
        (if (r.2.1 - j) % 2 = 0 then (if stuck ≠ st.who then 1 else 0)
          else -(if stuck ≠ st.who then 1 else 0)) := by
  have hb : to_int r.2.2.1 = (if stuck ≠ st.who then 1 else 0) := by
    rw [hv]
    by_cases hne : stuck ≠ st.who
    · rw [if_pos hne, if_pos hne, to_int_one]
    · rw [if_neg hne, if_neg hne]
      simp [to_int]
  have hflip := to_int_flip r.2.1 r.2.2.1
  rw [hb] at hflip
  constructor
  · rw [hflip]
    by_cases ht : r.2.1 % 2 = 0
    · rw [if_neg (by omega), if_pos ht]
    · rw [if_pos (by omega), if_neg ht]
  · intro j p hj hp
    have h1 := backprop_value r.1 r.2.2.2.heap
      (if r.2.1 % 2 = 1 then r.2.2.1 * -1 else r.2.2.1) h.nodup j p hp
    have h2 : ((finish r).heap p).value = (r.2.2.2.heap p).value + (-1) ^ j *
        to_int (if r.2.1 % 2 = 1 then r.2.2.1 * -1 else r.2.2.1) := h1
    rw [h2, hflip, neg_one_pow_mul_flip j r.2.1 _ hj]

/-- C14: one pass of the iteration loop ends its descent at a stopping node
`x`, the head of the trajectory, which lies `t_idx` edges below the root:
either a node where the mover `stuck` has no legal placement, or the node
just made by an expansion, whose playout reports `stuck`.  With `b = 1` when
`stuck` is not the player's side and `b = 0` when it is, `max_v` is `b` when
the descent is left, the argument of `updateValue` for `x` is `b` when
`t_idx` is even and `-b` when it is odd, and the value of `x` grows by
exactly that amount. -/
theorem folded_value_by_depth_parity {G : Game Board Engine} {μ : Board → Nat}
    (hμ : G.measured μ) (hs : G.shuffles) (fuel : Nat) (st : player Board Engine)
    (hinv : inv_search_full G st) (hfuel : μ (st.heap st.root).state < fuel) :
    ∃ r stuck x,
      descend G fuel fuel [st.root] 0 st.who (-1) st = some r ∧
      playOneSequence G fuel st = some (finish r) ∧
      r.1[0]? = some x ∧ at_depth (finish r) r.2.1 x ∧
      ((x < st.next ∧ r.2.2.2.heap = st.heap ∧ stuck = mover st.who r.2.1 ∧
          ∀ m, m < G.cells → legal G (st.heap x).state m stuck = false) ∨
        (x = st.next ∧ (r.2.2.2.heap x).value = 0 ∧
          ∃ y m after e stx, r.1[1]? = some y ∧ stx.heap = st.heap ∧ stx.next = st.next ∧
            G.apply (st.heap y).state m (mover st.who (r.2.1 - 1)) = some after ∧
            r.2.2.2 = expand stx y m after e ∧
            simulate G fuel (mover st.who r.2.1) stx.move_space after stx.engine =
              some (stuck, e))) ∧
      r.2.2.1 = (if stuck ≠ st.who then 1 else 0) ∧
      to_int (if r.2.1 % 2 = 1 then r.2.2.1 * -1 else r.2.2.1) =
        (if r.2.1 % 2 = 0 then (if stuck ≠ st.who then 1 else 0)
          else -(if stuck ≠ st.who then 1 else 0)) ∧
      ((finish r).heap x).value = (r.2.2.2.heap x).value +
        (if r.2.1 % 2 = 0 then (if stuck ≠ st.who then 1 else 0)
          else -(if stuck ≠ st.who then 1 else 0)) := by
  obtain ⟨col, hok, hvis, hcol, hkeys, hval⟩ := hinv
  obtain ⟨r, col1, hd⟩ := playOneSequence_detail hμ hs fuel st col hok hvis hcol hkeys hval hfuel
  obtain ⟨stuck, hkind, hv, _⟩ := iteration_detail_stuck hd
  obtain ⟨hfold, hvalue⟩ := iteration_detail_value hd stuck hv
  rcases hkind with ⟨x, hx0, hx, hh, hn, hst, hno⟩ |
    ⟨y, m, after, e, stx, hx0, hy1, hy, ht, hsh, hsn, hlk, hm, ha, hexp, hsim⟩
  · refine ⟨r, stuck, x, hd.descended, hd.played, hx0, ?_, Or.inl ⟨hx, hh, hst, hno⟩, hv,
      hfold, ?_⟩
    · exact iteration_detail_depth hd 0 x (Nat.zero_le _) hx0
    · exact hvalue 0 x (Nat.zero_le _) hx0
  · refine ⟨r, stuck, st.next, hd.descended, hd.played, hx0, ?_, Or.inr ⟨rfl, ?_, y, m, after,
      e, stx, hy1, hsh, hsn, ha, hexp, hsim⟩, hv, hfold, ?_⟩
    · exact iteration_detail_depth hd 0 st.next (Nat.zero_le _) hx0
    · rw [hexp, ← hsn, expand_heap_next stx y m after e (by rw [hsn]; omega)]
    · exact hvalue 0 st.next (Nat.zero_le _) hx0

theorem demo_start_inv_full : inv_search_full demo demo_start :=
  root_lookup_full demo_player demo.board0 demo_player_inv_full

theorem folded_value_by_depth_parity_witness :
    ∃ r stuck x,
      descend demo 5 5 [demo_start.root] 0 demo_start.who (-1) demo_start = some r ∧
      playOneSequence demo 5 demo_start = some (finish r) ∧
      r.1[0]? = some x ∧ at_depth (finish r) r.2.1 x ∧
      ((x < demo_start.next ∧ r.2.2.2.heap = demo_start.heap ∧
          stuck = mover demo_start.who r.2.1 ∧
          ∀ m, m < demo.cells → legal demo (demo_start.heap x).state m stuck = false) ∨
        (x = demo_start.next ∧ (r.2.2.2.heap x).value = 0 ∧
          ∃ y m after e stx, r.1[1]? = some y ∧ stx.heap = demo_start.heap ∧
            stx.next = demo_start.next ∧
            demo.apply (demo_start.heap y).state m (mover demo_start.who (r.2.1 - 1)) =
              some after ∧
            r.2.2.2 = expand stx y m after e ∧
            simulate demo 5 (mover demo_start.who r.2.1) stx.move_space after stx.engine =
              some (stuck, e))) ∧
      r.2.2.1 = (if stuck ≠ demo_start.who then 1 else 0) ∧
      to_int (if r.2.1 % 2 = 1 then r.2.2.1 * -1 else r.2.2.1) =
        (if r.2.1 % 2 = 0 then (if stuck ≠ demo_start.who then 1 else 0)
          else -(if stuck ≠ demo_start.who then 1 else 0)) ∧
      ((finish r).heap x).value = (r.2.2.2.heap x).value +
        (if r.2.1 % 2 = 0 then (if stuck ≠ demo_start.who then 1 else 0)
          else -(if stuck ≠ demo_start.who then 1 else 0)) :=
  folded_value_by_depth_parity demo_measured demo_shuffles 5 demo_start demo_start_inv_full
    (by decide)

theorem iteration_detail_legal {G : Game Board Engine} {fuel : Nat} {st : player Board Engine}
    {col col1 : Nat → piece_type} {r : List Nat × Nat × ℚ × player Board Engine}
    (h : iteration_detail G fuel st col r col1) :
    ∀ j p, 1 ≤ j → r.1[j]? = some p →
      ∃ m, m < G.cells ∧ legal G (st.heap p).state m (mover st.who (r.2.1 - j)) = true := by
  intro j p hj hp
  have hjl : j < r.1.length := by
    by_contra hcon
    rw [List.getElem?_eq_none (Nat.le_of_not_lt hcon)] at hp
    cases hp
  have hlen := h.length_eq
  have hlt : j - 1 < r.1.length := by omega
  have hc : r.1[j - 1]? = some (r.1.get ⟨j - 1, hlt⟩) := List.getElem?_eq_getElem hlt
  have hidx : j - 1 + 1 = j := by omega
  obtain ⟨m, hm⟩ := chain_getElem r.1 h.detail.path (j - 1) (r.1.get ⟨j - 1, hlt⟩) p hc
    (by rw [hidx]; exact hp)
  have hold := iteration_detail_old h j p hj hp
  have hpn : p < (finish r).next := by
    rw [(finish_frame r p).2.2.2.1]
    exact lt_of_lt_of_le hold h.post.next_le
  have hm1 : (m, r.1.get ⟨j - 1, hlt⟩) ∈ ((finish r).heap p).child := by
    rw [(finish_frame r p).2.1]
    exact hm
  obtain ⟨_, _, e3, e4, _⟩ := h.ok_after.1.2.2.2 p m _ hpn hm1
  rw [(finish_frame r p).1, (h.post.old_nodes p hold).1,
    h.depth_col j p hp (by omega)] at e4
  exact ⟨m, e3, by simp [legal, e4]⟩

/-- C15: one pass of the iteration loop either makes no node, and then the
head `x` of its trajectory is an old node where the mover has no legal
placement and no child map or position has changed; or it makes exactly one
node, at the address `st.next`, which is the head of the trajectory, holds the
position after a legal placement `m` of the mover at its parent `y`, and is
appended as the entry for `m`, a move without entry before, to the child map
of `y`, every other child map being unchanged.  Every node of the trajectory
below the head has a legal placement for its mover. -/
theorem iteration_creates_node_unless_terminal {G : Game Board Engine} {μ : Board → Nat}
    (hμ : G.measured μ) (hs : G.shuffles) (fuel : Nat) (st : player Board Engine)
    (hinv : inv_search_full G st) (hfuel : μ (st.heap st.root).state < fuel) :
    ∃ r x,
      descend G fuel fuel [st.root] 0 st.who (-1) st = some r ∧
      playOneSequence G fuel st = some (finish r) ∧
      r.1[0]? = some x ∧
      (∀ j p, 1 ≤ j → r.1[j]? = some p →
        ∃ m, m < G.cells ∧ legal G (st.heap p).state m (mover st.who (r.2.1 - j)) = true) ∧
      (((finish r).next = st.next ∧ x < st.next ∧
          (∀ m, m < G.cells → legal G (st.heap x).state m (mover st.who r.2.1) = false) ∧
          ∀ p, ((finish r).heap p).child = (st.heap p).child ∧
            ((finish r).heap p).state = (st.heap p).state) ∨
        ((finish r).next = st.next + 1 ∧ x = st.next ∧
          ∃ y m after, r.1[1]? = some y ∧ y < st.next ∧
            (st.heap y).child.lookup m = none ∧ m < G.cells ∧
            G.apply (st.heap y).state m (mover st.who (r.2.1 - 1)) = some after ∧
            ((finish r).heap y).child = (st.heap y).child ++ [(m, st.next)] ∧
            ((finish r).heap y).state = (st.heap y).state ∧
            ((finish r).heap st.next).state = after ∧
            ((finish r).heap st.next).child = [] ∧
            ∀ p, p ≠ y → p ≠ st.next →
              ((finish r).heap p).child = (st.heap p).child ∧
              ((finish r).heap p).state = (st.heap p).state)) := by
  obtain ⟨col, hok, hvis, hcol, hkeys, hval⟩ := hinv
  obtain ⟨r, col1, hd⟩ := playOneSequence_detail hμ hs fuel st col hok hvis hcol hkeys hval hfuel
  obtain ⟨stuck, hkind, hv, _⟩ := iteration_detail_stuck hd
  rcases hkind with ⟨x, hx0, hx, hh, hn, hst, hno⟩ |
    ⟨y, m, after, e, stx, hx0, hy1, hy, ht, hsh, hsn, hlk, hm, ha, hexp, hsim⟩
  · refine ⟨r, x, hd.descended, hd.played, hx0, iteration_detail_legal hd, Or.inl ⟨?_, hx, ?_, ?_⟩⟩
    · rw [(finish_frame r 0).2.2.2.1, hn]
    · rw [← hst]
      exact hno
    · intro p
      rw [(finish_frame r p).1, (finish_frame r p).2.1, hh]
      exact ⟨rfl, rfl⟩
  · have hne : y ≠ stx.next := by rw [hsn]; omega
    refine ⟨r, st.next, hd.descended, hd.played, hx0, iteration_detail_legal hd,
      Or.inr ⟨?_, rfl, y, m, after, hy1, hy, hlk, hm, ha, ?_, ?_, ?_, ?_, ?_⟩⟩
    · rw [(finish_frame r 0).2.2.2.1, hexp]
      show stx.next + 1 = st.next + 1
      rw [hsn]
    · rw [(finish_frame r y).2.1, hexp, expand_heap_cur stx y m after e hne]
      show assign (stx.heap y).child m stx.next = _
      rw [hsh, hsn]
      exact assign_absent st.next hlk
    · rw [(finish_frame r y).1, hexp, expand_heap_cur stx y m after e hne, hsh]
    · rw [(finish_frame r st.next).1, hexp, ← hsn, expand_heap_next stx y m after e hne]
    · rw [(finish_frame r st.next).2.1, hexp, ← hsn, expand_heap_next stx y m after e hne]
    · intro p hp1 hp2
      rw [(finish_frame r p).1, (finish_frame r p).2.1, hexp,
        expand_heap_other stx y m after e p hp1 (by rw [hsn]; exact hp2), hsh]
      exact ⟨rfl, rfl⟩

theorem iteration_creates_node_unless_terminal_witness :
    ∃ r x,
      descend demo 5 5 [demo_start.root] 0 demo_start.who (-1) demo_start = some r ∧
      playOneSequence demo 5 demo_start = some (finish r) ∧
      r.1[0]? = some x ∧
      (∀ j p, 1 ≤ j → r.1[j]? = some p →
        ∃ m, m < demo.cells ∧
          legal demo (demo_start.heap p).state m (mover demo_start.who (r.2.1 - j)) = true) ∧
      (((finish r).next = demo_start.next ∧ x < demo_start.next ∧
          (∀ m, m < demo.cells →
            legal demo (demo_start.heap x).state m (mover demo_start.who r.2.1) = false) ∧
          ∀ p, ((finish r).heap p).child = (demo_start.heap p).child ∧
            ((finish r).heap p).state = (demo_start.heap p).state) ∨
        ((finish r).next = demo_start.next + 1 ∧ x = demo_start.next ∧
          ∃ y m after, r.1[1]? = some y ∧ y < demo_start.next ∧
            (demo_start.heap y).child.lookup m = none ∧ m < demo.cells ∧
            demo.apply (demo_start.heap y).state m (mover demo_start.who (r.2.1 - 1)) =
              some after ∧
            ((finish r).heap y).child = (demo_start.heap y).child ++ [(m, demo_start.next)] ∧
            ((finish r).heap y).state = (demo_start.heap y).state ∧
            ((finish r).heap demo_start.next).state = after ∧
            ((finish r).heap demo_start.next).child = [] ∧
            ∀ p, p ≠ y → p ≠ demo_start.next →
              ((finish r).heap p).child = (demo_start.heap p).child ∧
              ((finish r).heap p).state = (demo_start.heap p).state)) :=
  iteration_creates_node_unless_terminal demo_measured demo_shuffles 5 demo_start
    demo_start_inv_full (by decide)

theorem take_actions_full [DecidableEq Board] {G : Game Board Engine} {μ : Board → Nat}
    (hμ : G.measured μ) (hs : G.shuffles) (fuel : Nat) :
    ∀ (states : List Board) (st : player Board Engine), inv_full G st →
      (∀ b ∈ states, μ b < fuel) →
      ∃ st1, take_actions G fuel st states = some st1 ∧ inv_full G st1 := by
  intro states
  induction states with
  | nil => intro st hinv _; exact ⟨st, rfl, hinv⟩
  | cons b rest ih =>
    intro st hinv hb
    obtain ⟨r, h1, h2⟩ := take_action_inv_full hμ hs fuel st b hinv
      (hb b (List.mem_cons_self _ _))
    obtain ⟨st1, h3, h4⟩ := ih r.2 h2 (fun c hc => hb c (List.mem_cons_of_mem _ hc))
    refine ⟨st1, ?_, h4⟩
    unfold take_actions
    rw [h1]
    exact h3

theorem boundary_full [DecidableEq Board] {G : Game Board Engine} {μ : Board → Nat}
    (hμ : G.measured μ) (hs : G.shuffles) (fuel : Nat) (who : piece_type) (s : String)
    (e : Engine) (hw : who = piece_type.black ∨ who = piece_type.white)
    (states : List Board) (hstates : ∀ b ∈ states, μ b < fuel)
    (state : Board) (hfuel : μ state < fuel) (N : Nat) :
    ∃ st1 st2, take_actions G fuel (player_new G who (some s) e) states = some st1 ∧
      iterate_N G fuel N (root_lookup st1 state) = some st2 ∧
      inv_full G st1 ∧ inv_search_full G st2 ∧ μ (st2.heap st2.root).state < fuel := by
  obtain ⟨st1, h1, hinv1⟩ := take_actions_full hμ hs fuel states _
    (inv_full_player_new G who s e hw) hstates
  obtain ⟨st2, h2, hinv2, hpost⟩ := search_full hμ hs fuel st1 state hinv1 hfuel N
  obtain ⟨hs1, hs2, _⟩ := root_lookup_spec st1 state (inv_full_weaken hinv1)
  obtain ⟨col, hok, _⟩ := hs1
  refine ⟨st1, st2, h1, h2, hinv1, hinv2, ?_⟩
  rw [hpost.root_eq, (hpost.old_nodes _ hok.2.1).1, hs2]
  exact hfuel

theorem nodup_keys_unique :
    ∀ (l : List (Nat × Nat)), (l.map Prod.fst).Nodup →
      ∀ m c c1, (m, c) ∈ l → (m, c1) ∈ l → c = c1 := by
  intro l
  induction l with
  | nil => intro _ m c c1 h; simp at h
  | cons kv rest ih =>
    intro hnd m c c1 h1 h2
    rw [List.map_cons, List.nodup_cons] at hnd
    obtain ⟨hnot, hnd1⟩ := hnd
    rcases List.mem_cons.1 h1 with e1 | e1 <;> rcases List.mem_cons.1 h2 with e2 | e2
    · have := e1.trans e2.symm
      exact (Prod.mk.inj this).2
    · exact absurd (List.mem_map.2 ⟨(m, c1), e2, by rw [← e1]⟩) hnot
    · exact absurd (List.mem_map.2 ⟨(m, c), e1, by rw [← e2]⟩) hnot
    · exact ih hnd1 m c c1 e1 e2

/-- C19: for a player made by the constructor with a search tree, after any
sequence of calls of `take_action`, the root lookup of a further call and any
number `N` of passes of its iteration loop, every entry `(m, c)` in the child
map of a node `n` that lies `d` edges below the searched root is a legal
placement on cell `m` by the mover at depth `d` (the player's side for even
`d`, the other side for odd `d`) in the position of `n`, which yields exactly
the position of `c`; and no child map holds two entries for one move. -/
theorem child_entries_are_legal_moves [DecidableEq Board] {G : Game Board Engine}
    {μ : Board → Nat} (hμ : G.measured μ) (hs : G.shuffles) (fuel : Nat) (who : piece_type)
    (s : String) (e : Engine) (hw : who = piece_type.black ∨ who = piece_type.white)
    (states : List Board) (hstates : ∀ b ∈ states, μ b < fuel)
    (state : Board) (hfuel : μ state < fuel) (N : Nat) :
    ∃ st1 st2, take_actions G fuel (player_new G who (some s) e) states = some st1 ∧
      iterate_N G fuel N (root_lookup st1 state) = some st2 ∧
      (∀ d n m c, at_depth st2 d n → (m, c) ∈ (st2.heap n).child →
        m < G.cells ∧ legal G (st2.heap n).state m (mover st2.who d) = true ∧
        G.apply (st2.heap n).state m (mover st2.who d) = some (st2.heap c).state ∧
        at_depth st2 (d + 1) c) ∧
      (∀ n, ((st2.heap n).child.map Prod.fst).Nodup) ∧
      (∀ n m c c1, (m, c) ∈ (st2.heap n).child → (m, c1) ∈ (st2.heap n).child → c = c1) := by
  obtain ⟨st1, st2, h1, h2, _, hinv2, _⟩ :=
    boundary_full hμ hs fuel who s e hw states hstates state hfuel N
  obtain ⟨col, hok, _, hcol, hkeys, _⟩ := hinv2
  refine ⟨st1, st2, h1, h2, ?_, hkeys, ?_⟩
  · intro d n m c hd hmem
    obtain ⟨hn, hc⟩ := at_depth_col hok hcol d n hd
    obtain ⟨_, _, e3, e4, _⟩ := hok.2.2.2 n m c hn hmem
    rw [hc] at e4
    exact ⟨e3, by simp [legal, e4], e4, at_depth.child hd hmem⟩
  · intro n m c c1 hc hc1
    exact nodup_keys_unique _ (hkeys n) m c c1 hc hc1

theorem child_entries_are_legal_moves_witness :
    ∃ st1 st2, take_actions demo 5 (player_new demo piece_type.black (some "MCTS") 0)
        [demo.board0] = some st1 ∧
      iterate_N demo 5 3 (root_lookup st1 demo.board0) = some st2 ∧
      (∀ d n m c, at_depth st2 d n → (m, c) ∈ (st2.heap n).child →
        m < demo.cells ∧ legal demo (st2.heap n).state m (mover st2.who d) = true ∧
        demo.apply (st2.heap n).state m (mover st2.who d) = some (st2.heap c).state ∧
        at_depth st2 (d + 1) c) ∧
      (∀ n, ((st2.heap n).child.map Prod.fst).Nodup) ∧
      (∀ n m c c1, (m, c) ∈ (st2.heap n).child → (m, c1) ∈ (st2.heap n).child → c = c1) :=
  child_entries_are_legal_moves demo_measured demo_shuffles 5 piece_type.black "MCTS" 0
    (Or.inl rfl) [demo.board0] (by decide) demo.board0 (by decide) 3

/-- C18: for a player made by the constructor with a search tree, after any
sequence of calls of `take_action`, the root lookup of a further call and any
number `N` of passes of its iteration loop, every node in a child map has a
visit count of at least 1.  The next pass returns; a node it makes has visit
count exactly 1 at its end and is in a child map, and every node in a child
map has again a visit count of at least 1.  So no child whose visit count is
the divisor of a selection score during that pass (a child of a node of the
trajectory below its head), or of an average in the loop over the children
of the root after the search, has visit count 0. -/
theorem children_visited_at_boundaries [DecidableEq Board] {G : Game Board Engine}
    {μ : Board → Nat} (hμ : G.measured μ) (hs : G.shuffles) (fuel : Nat) (who : piece_type)
    (s : String) (e : Engine) (hw : who = piece_type.black ∨ who = piece_type.white)
    (states : List Board) (hstates : ∀ b ∈ states, μ b < fuel)
    (state : Board) (hfuel : μ state < fuel) (N : Nat) :
    ∃ st1 st2 r, take_actions G fuel (player_new G who (some s) e) states = some st1 ∧
      iterate_N G fuel N (root_lookup st1 state) = some st2 ∧
      (∀ p m c, p < st2.next → (m, c) ∈ (st2.heap p).child → 1 ≤ (st2.heap c).nb) ∧
      descend G fuel fuel [st2.root] 0 st2.who (-1) st2 = some r ∧
      playOneSequence G fuel st2 = some (finish r) ∧
      (∀ c, st2.next ≤ c → c < (finish r).next →
        ((finish r).heap c).nb = 1 ∧ (r.2.2.2.heap c).nb = 0 ∧
        ∃ y m, y < st2.next ∧ (m, c) ∈ ((finish r).heap y).child) ∧
      (∀ p m c, p < (finish r).next → (m, c) ∈ ((finish r).heap p).child →
        1 ≤ ((finish r).heap c).nb) ∧
      (∀ j y m c, 1 ≤ j → r.1[j]? = some y → (m, c) ∈ (st2.heap y).child →
        (st2.heap c).nb ≠ 0) ∧
      (∀ m c, (m, c) ∈ (st2.heap st2.root).child → (st2.heap c).nb ≠ 0) := by
  obtain ⟨st1, st2, h1, h2, _, hinv2, hfuel2⟩ :=
    boundary_full hμ hs fuel who s e hw states hstates state hfuel N
  obtain ⟨col, hok, hvis, hcol, hkeys, hval⟩ := hinv2
  obtain ⟨r, col1, hd⟩ := playOneSequence_detail hμ hs fuel st2 col hok hvis hcol hkeys hval
    hfuel2
  have hchild : ∀ p m c, p < st2.next → (m, c) ∈ (st2.heap p).child → 1 ≤ (st2.heap c).nb := by
    intro p m c hp hmem
    exact hvis c (hok.2.2.2 p m c hp hmem).2.1
  refine ⟨st1, st2, r, h1, h2, hchild, hd.descended, hd.played, ?_, ?_, ?_, ?_⟩
  · intro c hc1 hc2
    rw [(finish_frame r c).2.2.2.1] at hc2
    obtain ⟨hnb, hmem⟩ := hd.post.new_nodes c hc1 hc2
    obtain ⟨stuck, hkind, _, _⟩ := iteration_detail_stuck hd
    refine ⟨?_, hnb, ?_⟩
    · have h3 := (backprop_frame r.1 r.2.2.2.heap
        (if r.2.1 % 2 = 1 then r.2.2.1 * -1 else r.2.2.1) c).2.2
      have h4 : ((finish r).heap c).nb = (r.2.2.2.heap c).nb + (r.1.count c : Nat) := h3
      rw [h4, hnb, List.count_eq_one_of_mem hd.nodup hmem]
      rfl
    · rcases hkind with ⟨x, _, _, _, hn, _, _⟩ |
        ⟨y, m, after, e1, stx, _, _, hy, _, hsh, hsn, hlk, _, _, hexp, _⟩
      · omega
      · have hc : c = st2.next := by
          rw [hexp] at hc2
          have : c < stx.next + 1 := hc2
          omega
        have hne : y ≠ stx.next := by rw [hsn]; omega
        refine ⟨y, m, hy, ?_⟩
        rw [(finish_frame r y).2.1, hexp, expand_heap_cur stx y m after e1 hne]
        show (m, c) ∈ assign (stx.heap y).child m stx.next
        rw [hsh, hsn, assign_absent st2.next hlk, hc]
        simp
  · intro p m c hp hmem
    exact hd.ok_after.2.1 c (hd.ok_after.1.2.2.2 p m c hp hmem).2.1
  · intro j y m c hj hy hmem
    have := hchild y m c (iteration_detail_old hd j y hj hy) hmem
    omega
  · intro m c hmem
    have := hchild st2.root m c hok.2.1 hmem
    omega

theorem children_visited_at_boundaries_witness :
    ∃ st1 st2 r, take_actions demo 5 (player_new demo piece_type.black (some "MCTS") 0)
        [demo.board0] = some st1 ∧
      iterate_N demo 5 3 (root_lookup st1 demo.board0) = some st2 ∧
      (∀ p m c, p < st2.next → (m, c) ∈ (st2.heap p).child → 1 ≤ (st2.heap c).nb) ∧
      descend demo 5 5 [st2.root] 0 st2.who (-1) st2 = some r ∧
      playOneSequence demo 5 st2 = some (finish r) ∧
      (∀ c, st2.next ≤ c → c < (finish r).next →
        ((finish r).heap c).nb = 1 ∧ (r.2.2.2.heap c).nb = 0 ∧
        ∃ y m, y < st2.next ∧ (m, c) ∈ ((finish r).heap y).child) ∧
      (∀ p m c, p < (finish r).next → (m, c) ∈ ((finish r).heap p).child →
        1 ≤ ((finish r).heap c).nb) ∧
      (∀ j y m c, 1 ≤ j → r.1[j]? = some y → (m, c) ∈ (st2.heap y).child →
        (st2.heap c).nb ≠ 0) ∧
      (∀ m c, (m, c) ∈ (st2.heap st2.root).child → (st2.heap c).nb ≠ 0) :=
  children_visited_at_boundaries demo_measured demo_shuffles 5 piece_type.black "MCTS" 0
    (Or.inl rfl) [demo.board0] (by decide) demo.board0 (by decide) 3

/-- C20: for a player made by the constructor with a search tree, after any
sequence of calls of `take_action`, the root lookup of a further call and any
number `N` of passes of its iteration loop, a node an even number of edges
below the searched root has a value between 0 and its visit count, and a node
an odd number of edges below it has a value between minus its visit count and
0.  The next pass returns; the side `stuck` it finds without legal placement
(the mover at the node where the descent stops, or the side reported by the
playout after an expansion) is the player's side or the other side, and the
value of the root grows by 1 when it is the other side and by 0 when it is
the player's side. -/
theorem value_bounds_by_depth_parity [DecidableEq Board] {G : Game Board Engine}
    {μ : Board → Nat} (hμ : G.measured μ) (hs : G.shuffles) (fuel : Nat) (who : piece_type)
    (s : String) (e : Engine) (hw : who = piece_type.black ∨ who = piece_type.white)
    (states : List Board) (hstates : ∀ b ∈ states, μ b < fuel)
    (state : Board) (hfuel : μ state < fuel) (N : Nat) :
    ∃ st1 st2 r stuck, take_actions G fuel (player_new G who (some s) e) states = some st1 ∧
      iterate_N G fuel N (root_lookup st1 state) = some st2 ∧
      (∀ d p, at_depth st2 d p →
        (d % 2 = 0 → 0 ≤ (st2.heap p).value ∧ (st2.heap p).value ≤ (st2.heap p).nb) ∧
        (d % 2 = 1 → -(st2.heap p).nb ≤ (st2.heap p).value ∧ (st2.heap p).value ≤ 0)) ∧
      descend G fuel fuel [st2.root] 0 st2.who (-1) st2 = some r ∧
      playOneSequence G fuel st2 = some (finish r) ∧
      ((∃ x, r.1[0]? = some x ∧ x < st2.next ∧ stuck = mover st2.who r.2.1 ∧
          ∀ m, m < G.cells → legal G (st2.heap x).state m stuck = false) ∨
        (∃ y m after e1 stx, r.1[0]? = some st2.next ∧ r.1[1]? = some y ∧
          stx.heap = st2.heap ∧ stx.next = st2.next ∧
          G.apply (st2.heap y).state m (mover st2.who (r.2.1 - 1)) = some after ∧
          r.2.2.2 = expand stx y m after e1 ∧
          simulate G fuel (mover st2.who r.2.1) stx.move_space after stx.engine =
            some (stuck, e1))) ∧
      (stuck = st2.who ∨ stuck = who_change st2.who) ∧
      who_change st2.who ≠ st2.who ∧
      (finish r).root = st2.root ∧
      ((finish r).heap st2.root).value =
        (st2.heap st2.root).value + (if stuck = who_change st2.who then 1 else 0) := by
  obtain ⟨st1, st2, h1, h2, _, hinv2, hfuel2⟩ :=
    boundary_full hμ hs fuel who s e hw states hstates state hfuel N
  obtain ⟨col, hok, hvis, hcol, hkeys, hval⟩ := hinv2
  obtain ⟨r, col1, hd⟩ := playOneSequence_detail hμ hs fuel st2 col hok hvis hcol hkeys hval
    hfuel2
  obtain ⟨stuck, hkind, hv, hcases⟩ := iteration_detail_stuck hd
  have hne := who_change_ne st2.who hok.1
  refine ⟨st1, st2, r, stuck, h1, h2, ?_, hd.descended, hd.played, ?_, hcases, hne, ?_, ?_⟩
  · intro d p hdp
    obtain ⟨hp, hc⟩ := at_depth_col hok hcol d p hdp
    obtain ⟨hv1, hv2⟩ := hval p hp
    constructor
    · intro hd0
      apply hv1
      rw [hc, mover, if_pos hd0]
    · intro hd1
      apply hv2
      rw [hc, mover, if_neg (by omega)]
  · rcases hkind with ⟨x, hx0, hx, _, _, hst, hno⟩ |
      ⟨y, m, after, e1, stx, hx0, hy1, _, _, hsh, hsn, _, _, ha, hexp, hsim⟩
    · exact Or.inl ⟨x, hx0, hx, hst, hno⟩
    · exact Or.inr ⟨y, m, after, e1, stx, hx0, hy1, hsh, hsn, ha, hexp, hsim⟩
  · rw [(finish_frame r 0).2.2.1, hd.post.root_eq]
  · obtain ⟨_, hvalue⟩ := iteration_detail_value hd stuck hv
    have h3 := hvalue r.2.1 st2.root (le_refl _) (iteration_detail_root hd)
    rw [Nat.sub_self, if_pos (by decide), (hd.post.old_nodes st2.root hok.2.1).2.1] at h3
    rw [h3]
    congr 1
    rcases hcases with h | h
    · rw [if_neg (fun hc => hc h), if_neg (by rw [h]; exact fun hc => hne hc.symm)]
    · rw [if_pos (by rw [h]; exact hne), if_pos h]

theorem value_bounds_by_depth_parity_witness :
    ∃ st1 st2 r stuck, take_actions demo 5 (player_new demo piece_type.black (some "MCTS") 0)
        [demo.board0] = some st1 ∧
      iterate_N demo 5 3 (root_lookup st1 demo.board0) = some st2 ∧
      (∀ d p, at_depth st2 d p →
        (d % 2 = 0 → 0 ≤ (st2.heap p).value ∧ (st2.heap p).value ≤ (st2.heap p).nb) ∧
        (d % 2 = 1 → -(st2.heap p).nb ≤ (st2.heap p).value ∧ (st2.heap p).value ≤ 0)) ∧
      descend demo 5 5 [st2.root] 0 st2.who (-1) st2 = some r ∧
      playOneSequence demo 5 st2 = some (finish r) ∧
      ((∃ x, r.1[0]? = some x ∧ x < st2.next ∧ stuck = mover st2.who r.2.1 ∧
          ∀ m, m < demo.cells → legal demo (st2.heap x).state m stuck = false) ∨
        (∃ y m after e1 stx, r.1[0]? = some st2.next ∧ r.1[1]? = some y ∧
          stx.heap = st2.heap ∧ stx.next = st2.next ∧
          demo.apply (st2.heap y).state m (mover st2.who (r.2.1 - 1)) = some after ∧
          r.2.2.2 = expand stx y m after e1 ∧
          simulate demo 5 (mover st2.who r.2.1) stx.move_space after stx.engine =
            some (stuck, e1))) ∧
      (stuck = st2.who ∨ stuck = who_change st2.who) ∧
      who_change st2.who ≠ st2.who ∧
      (finish r).root = st2.root ∧
      ((finish r).heap st2.root).value =
        (st2.heap st2.root).value + (if stuck = who_change st2.who then 1 else 0) :=
  value_bounds_by_depth_parity demo_measured demo_shuffles 5 piece_type.black "MCTS" 0
    (Or.inl rfl) [demo.board0] (by decide) demo.board0 (by decide) 3

theorem demo_tree_ok (v1 n1 v2 n2 : Int) : tree_ok demo (demo_tree v1 n1 v2 n2) demo_col := by
  refine ⟨Or.inl rfl, (by show (0 : Nat) < 3; decide), List.Perm.refl _, ?_⟩
  intro p m c hp hmem
  have hp3 : p < 3 := hp
  interval_cases p
  · have hm : (m, c) ∈ [(2, 1), (3, 2)] := hmem
    simp only [List.mem_cons, Prod.mk.injEq, List.mem_singleton, List.not_mem_nil,
      or_false] at hm
    rcases hm with ⟨h1, h2⟩ | ⟨h1, h2⟩
    · subst h1 h2
      exact ⟨by decide, (by show (1 : Nat) < 3; decide), by decide, rfl, rfl⟩
    · subst h1 h2
      exact ⟨by decide, (by show (2 : Nat) < 3; decide), by decide, rfl, rfl⟩
  · have hm : (m, c) ∈ ([] : List (Nat × Nat)) := hmem
    simp at hm
  · have hm : (m, c) ∈ ([] : List (Nat × Nat)) := hmem
    simp at hm

theorem demo_tree_visited (v1 n1 v2 n2 : Int) (h1 : 1 ≤ n1) (h2 : 1 ≤ n2) :
    visited (demo_tree v1 n1 v2 n2) := by
  intro p hp
  have hp3 : p < 3 := hp
  interval_cases p
  · show 1 ≤ 1 + n1 + n2
    omega
  · exact h1
  · exact h2

theorem ucb_score_eval (G : Game Board Engine) (c : node Board) (n q : Int) (s a b r : ℚ)
    (hq : Int.tdiv (-c.value) c.nb = q) (hs : G.sqrt_2log n = s)
    (ha : to_double (s / (c.nb : ℚ)) = a) (hb : to_double ((q : ℚ) + a) = b)
    (hr : to_float b = r) : ucb_score G c n = r := by
  unfold ucb_score
  rw [hq, hs, ha, hb, hr]

theorem demo_tie_scores :
    ucb_score demo (demo_tie.heap 1) (demo_tie.heap 0).nb = 8389540 / 2 ^ 23 ∧
    ucb_score demo (demo_tie.heap 2) (demo_tie.heap 0).nb = 8389540 / 2 ^ 23 ∧
    ((Int.tdiv (-(demo_tie.heap 2).value) (demo_tie.heap 2).nb : Int) : ℚ) +
        demo.sqrt_2log (demo_tie.heap 0).nb / ((demo_tie.heap 2).nb : ℚ) <
      ((Int.tdiv (-(demo_tie.heap 1).value) (demo_tie.heap 1).nb : Int) : ℚ) +
        demo.sqrt_2log (demo_tie.heap 0).nb / ((demo_tie.heap 1).nb : ℚ) := by
  have hn : (demo_tie.heap 0).nb = 18002 := by decide
  have hs : demo.sqrt_2log 18002 = 1 := by decide
  have h1v : (demo_tie.heap 1).value = -9000 := rfl
  have h1n : (demo_tie.heap 1).nb = 9000 := rfl
  have h2v : (demo_tie.heap 2).value = -9001 := rfl
  have h2n : (demo_tie.heap 2).nb = 9001 := rfl
  have hr : to_float (4504100027329093 / 2 ^ 52) = 8389540 / 2 ^ 23 := by
    unfold to_float
    rw [round_binary_eq 24 (-126) _ 0 8389540 (by norm_num [abs_of_pos])
      (by norm_num [abs_of_pos]) (by norm_num) (by norm_num)]
    norm_num
  have hr2 : to_float (4504099971735274 / 2 ^ 52) = 8389540 / 2 ^ 23 := by
    unfold to_float
    rw [round_binary_eq 24 (-126) _ 0 8389540 (by norm_num [abs_of_pos])
      (by norm_num [abs_of_pos]) (by norm_num) (by norm_num)]
    norm_num
  refine ⟨?_, ?_, ?_⟩
  · rw [hn]
    refine ucb_score_eval demo _ 18002 1 1 (8198552921648690 / 2 ^ 66)
      (4504100027329093 / 2 ^ 52) _ (by rw [h1v, h1n]; decide) hs ?_ ?_ hr
    · rw [h1n]
      unfold to_double
      rw [round_binary_eq 53 (-1022) _ (-14) 8198552921648690 (by norm_num [abs_of_pos])
        (by norm_num [abs_of_pos]) (by norm_num) (by norm_num)]
      norm_num
    · unfold to_double
      rw [round_binary_eq 53 (-1022) _ 0 4504100027329093 (by norm_num [abs_of_pos])
        (by norm_num [abs_of_pos]) (by norm_num) (by norm_num)]
      norm_num
  · rw [hn]
    refine ucb_score_eval demo _ 18002 1 1 (8197642072529520 / 2 ^ 66)
      (4504099971735274 / 2 ^ 52) _ (by rw [h2v, h2n]; decide) hs ?_ ?_ hr2
    · rw [h2n]
      unfold to_double
      rw [round_binary_eq 53 (-1022) _ (-14) 8197642072529520 (by norm_num [abs_of_pos])
        (by norm_num [abs_of_pos]) (by norm_num) (by norm_num)]
      norm_num
    · unfold to_double
      rw [round_binary_eq 53 (-1022) _ 0 4504099971735274 (by norm_num [abs_of_pos])
        (by norm_num [abs_of_pos]) (by norm_num) (by norm_num)]
      norm_num
  · rw [hn, hs, h1v, h1n, h2v, h2n]
    norm_num

theorem descent_step_selection_witness :
    (∀ m, m < demo.cells → legal demo (demo_tie.heap 0).state m piece_type.black = true →
      (demo_tie.heap 0).child.lookup m ≠ none) ∧
    (demo_tie.heap 0).child = [(2, 1), (3, 2)] ∧
    (shuffle_move_space demo demo_tie).move_space = [0, 1, 2, 3] ∧
    ucb_score demo (demo_tie.heap 2) (demo_tie.heap 0).nb =
      ucb_score demo (demo_tie.heap 1) (demo_tie.heap 0).nb ∧
    descend demo 5 (4 + 1) [0] 0 piece_type.black (-1) demo_tie =
      descend demo 5 4 [1, 0] (0 + 1) (who_change piece_type.black)
        (ucb_score demo (demo_tie.heap 1) (demo_tie.heap 0).nb)
        (shuffle_move_space demo demo_tie) ∧
    ((∃ m, m < demo.cells ∧
        legal demo (demo_tie.heap 1).state m piece_type.white = true ∧
        (demo_tie.heap 1).child.lookup m = none) ∧
      ∃ pre m post after e stuck,
        (shuffle_move_space demo demo_tie).move_space = pre ++ m :: post ∧
        (demo_tie.heap 1).child.lookup m = none ∧
        demo.apply (demo_tie.heap 1).state m piece_type.white = some after ∧
        (∀ m1 ∈ pre, (demo_tie.heap 1).child.lookup m1 = none →
          legal demo (demo_tie.heap 1).state m1 piece_type.white = false) ∧
        descend demo 5 (4 + 1) [1, 0] 1 piece_type.white 0 demo_tie =
          some (demo_tie.next :: [1, 0], 1 + 1, (if stuck ≠ demo_tie.who then 1 else 0),
            expand (shuffle_move_space demo demo_tie) 1 m after e) ∧
        ∀ m1 c1, (demo_tie.heap 1).child.lookup m1 = some c1 → c1 ≠ demo_tie.next) := by
  have hante : ∀ m, m < demo.cells →
      legal demo (demo_tie.heap 0).state m piece_type.black = true →
      (demo_tie.heap 0).child.lookup m ≠ none := by
    intro m hm
    have hm4 : m < 4 := hm
    interval_cases m <;> decide
  have hchild : (demo_tie.heap 0).child = [(2, 1), (3, 2)] := rfl
  have hspace : (shuffle_move_space demo demo_tie).move_space = [0, 1, 2, 3] := by decide
  have htie : ucb_score demo (demo_tie.heap 2) (demo_tie.heap 0).nb =
      ucb_score demo (demo_tie.heap 1) (demo_tie.heap 0).nb := by
    rw [demo_tie_scores.1, demo_tie_scores.2.1]
  have hante2 : ∃ m, m < demo.cells ∧
      legal demo (demo_tie.heap 1).state m piece_type.white = true ∧
      (demo_tie.heap 1).child.lookup m = none := ⟨3, by decide, by decide, by decide⟩
  refine ⟨hante, hchild, hspace, htie, ?_, hante2, ?_⟩
  · obtain ⟨pre, m, post, c, hdec, hl, hpre, _, hdesc⟩ :=
      (descent_step_selection demo_measured demo_shuffles 5 4 0 [] 0 piece_type.black (-1)
        demo_tie demo_col (demo_tree_ok _ _ _ _)
        (demo_tree_visited _ _ _ _ (by decide) (by decide)) (by decide) (by decide)
        (by decide)).1 hante (by rw [hchild]; simp)
    rw [hspace] at hdec
    rw [hchild] at hl hpre
    have hmc : m = 2 ∧ c = 1 := by
      rcases pre with _ | ⟨a, _ | ⟨b, _ | ⟨d, _ | ⟨f, pre1⟩⟩⟩⟩
      · simp only [List.nil_append, List.cons.injEq] at hdec
        rw [← hdec.1] at hl
        have h0 : List.lookup 0 [(2, 1), (3, 2)] = (none : Option Nat) := rfl
        rw [h0] at hl
        cases hl
      · simp only [List.cons_append, List.nil_append, List.cons.injEq] at hdec
        rw [← hdec.2.1] at hl
        have h0 : List.lookup 1 [(2, 1), (3, 2)] = (none : Option Nat) := rfl
        rw [h0] at hl
        cases hl
      · simp only [List.cons_append, List.nil_append, List.cons.injEq] at hdec
        rw [← hdec.2.2.1] at hl
        simp only [List.lookup_cons, beq_self_eq_true, Option.some.injEq] at hl
        exact ⟨hdec.2.2.1.symm, hl.symm⟩
      · simp only [List.cons_append, List.nil_append, List.cons.injEq] at hdec
        rw [← hdec.2.2.2.1] at hl
        have hc2 : c = 2 := by
          simp [List.lookup_cons] at hl
          exact hl.symm
        have h2 := hpre d (by simp) 1 (by rw [← hdec.2.2.1]; simp [List.lookup_cons])
        rw [hc2, htie] at h2
        exact absurd h2 (lt_irrefl _)
      · simp only [List.cons_append, List.cons.injEq] at hdec
        have := hdec.2.2.2.2
        simp at this
    rw [hmc.2] at hdesc
    exact hdesc
  · exact (descent_step_selection demo_measured demo_shuffles 5 4 1 [0] 1 piece_type.white 0
      demo_tie demo_col (demo_tree_ok _ _ _ _)
      (demo_tree_visited _ _ _ _ (by decide) (by decide)) (by decide) (by decide)
      (by decide)).2 hante2

end TCG
